import Mathlib

/-!
Serialization records of the BTC cross-chain manager.

A shallow embedding of `native/service/cross_chain_manager/btc/states.go`:
the seven records (`BtcProof`, `Utxos`, `Utxo`, `OutPoint`, `MultiSignInfo`,
`Args`, `BtcFromInfo`), their `Serialization` / `Deserialization` methods and
the `sort.Interface` methods of `Utxos`.

Conventions of the embedding.

* A byte is a `Fin 256`; a Go `[]byte` and a Go `string` are both `List Byte`
  (a Go string is its byte sequence, and `nil` and the empty slice are not
  told apart).
* Go's `uint32`, `uint64` fields are `Nat`, `int64` is `Int`; the range of the
  Go type is stated by the `Valid` predicates and the writers reduce modulo
  `2 ^ w` explicitly.
* A method with a pointer receiver that assigns to its receiver takes the
  receiver as an argument and returns the receiver after the call.
* A Go `error` result together with the advanced source is an
  `Except String ZeroCopySource`: `.error msg` is a non-nil error with message
  `msg`, `.ok source` is `nil` with the source after the call.
* A run-time fault of Go (nil dereference, index out of range) is `none`.
* The decoders are embedded a second time as they run (`exec`), with an
  `Outcome` that tells a run-time fault and a used-up step budget from a
  return; the loops then take one step of the budget at every test of their
  condition.
-/

namespace Btc

set_option linter.dupNamespace false

/-! ## Bytes and little-endian integers -/

/-- One octet. -/
abbrev Byte := Fin 256

/-- The octet holding `n mod 256`. -/
def byteOf (n : Nat) : Byte := ⟨n % 256, Nat.mod_lt n (by decide)⟩

/-- The `w` low-order bytes of `n`, least significant first
(`binary.LittleEndian.PutUintN`). -/
def putLE : Nat → Nat → List Byte
  | 0, _ => []
  | w + 1, n => byteOf n :: putLE w (n / 256)

/-- The number a little-endian byte string stands for
(`binary.LittleEndian.UintN`). -/
def getLE : List Byte → Nat
  | [] => 0
  | b :: bs => b.val + 256 * getLE bs

/-- Go's conversion `int64(x)` of a `uint64`: the same 64 bits read as two's
complement. -/
def toInt64 (x : Nat) : Int :=
  if x % 2 ^ 64 < 2 ^ 63 then ((x % 2 ^ 64 : Nat) : Int) else ((x % 2 ^ 64 : Nat) : Int) - 2 ^ 64

/-- Go's conversion `int64(x)` of a `uint32`: the value is kept. -/
def uint32ToInt64 (x : Nat) : Int := ((x % 2 ^ 32 : Nat) : Int)

/-- Go's conversion `uint64(x)` of an `int64`: the same 64 bits read unsigned. -/
def toUint64 (x : Int) : Nat := (x % 2 ^ 64).toNat

/-! ## The primitive codec of package `common` -/

/-- Modelled from the spec: `common.ZeroCopySink` is not under src/. A writer
appends values to a byte buffer that grows as needed. -/
structure ZeroCopySink where
  buf : List Byte
  deriving DecidableEq

/-- Modelled from the spec: `common.ZeroCopySource` is not under src/. A reader
holds a byte buffer `s` and a read cursor `off`, advancing on each successful
read and never rewinding. -/
structure ZeroCopySource where
  s : List Byte
  off : Nat
  deriving DecidableEq

/-- Modelled from the spec: `common.NewZeroCopySink`, a writer over an empty
buffer. -/
def NewZeroCopySink : ZeroCopySink := ⟨[]⟩

/-- Modelled from the spec: `common.NewZeroCopySource`, a reader over `b` with
its cursor at the first byte. -/
def NewZeroCopySource (b : List Byte) : ZeroCopySource := ⟨b, 0⟩

/-- Modelled from the spec: `ZeroCopySink.WriteBytes` appends raw bytes. -/
def ZeroCopySink.WriteBytes (self : ZeroCopySink) (p : List Byte) : ZeroCopySink :=
  ⟨self.buf ++ p⟩

/-- Modelled from the spec: `ZeroCopySink.WriteUint16`, fixed-width,
little-endian. -/
def ZeroCopySink.WriteUint16 (self : ZeroCopySink) (data : Nat) : ZeroCopySink :=
  self.WriteBytes (putLE 2 (data % 2 ^ 16))

/-- Modelled from the spec: `ZeroCopySink.WriteUint32`, fixed-width,
little-endian. -/
def ZeroCopySink.WriteUint32 (self : ZeroCopySink) (data : Nat) : ZeroCopySink :=
  self.WriteBytes (putLE 4 (data % 2 ^ 32))

/-- Modelled from the spec: `ZeroCopySink.WriteUint64`, fixed-width,
little-endian. -/
def ZeroCopySink.WriteUint64 (self : ZeroCopySink) (data : Nat) : ZeroCopySink :=
  self.WriteBytes (putLE 8 (data % 2 ^ 64))

/-- Modelled from the spec: `ZeroCopySink.WriteInt64`, the raw little-endian
two's-complement bytes. -/
def ZeroCopySink.WriteInt64 (self : ZeroCopySink) (data : Int) : ZeroCopySink :=
  self.WriteUint64 (toUint64 data)

/-- Modelled from the spec: `ZeroCopySink.WriteVarUint`, the length prefix
scheme shared by every var-bytes and string field. A value below `0xFD` is one
byte; otherwise a marker byte `0xFD`, `0xFE` or `0xFF` is followed by the value
in 2, 4 or 8 little-endian bytes. -/
def ZeroCopySink.WriteVarUint (self : ZeroCopySink) (data : Nat) : ZeroCopySink :=
  if data < 0xFD then
    self.WriteBytes [byteOf data]
  else if data ≤ 0xFFFF then
    (self.WriteBytes [0xFD]).WriteUint16 data
  else if data ≤ 0xFFFFFFFF then
    (self.WriteBytes [0xFE]).WriteUint32 data
  else
    (self.WriteBytes [0xFF]).WriteUint64 data

/-- Modelled from the spec: `ZeroCopySink.WriteVarBytes` writes the length of
the byte string as a length prefix followed by the raw bytes. -/
def ZeroCopySink.WriteVarBytes (self : ZeroCopySink) (data : List Byte) : ZeroCopySink :=
  (self.WriteVarUint data.length).WriteBytes data

/-- Modelled from the spec: `ZeroCopySink.WriteString` encodes the bytes of the
text by the same scheme as `WriteVarBytes`. -/
def ZeroCopySink.WriteString (self : ZeroCopySink) (data : List Byte) : ZeroCopySink :=
  self.WriteVarBytes data

/-- Modelled from the spec: `ZeroCopySource.NextBytes` returns the next `n`
bytes and advances the cursor, or signals end-of-data (`none`) when fewer than
`n` bytes remain. It never reads past the end of the buffer. -/
def ZeroCopySource.NextBytes (self : ZeroCopySource) (n : Nat) :
    Option (List Byte × ZeroCopySource) :=
  if self.off + n ≤ self.s.length then
    some ((self.s.drop self.off).take n, { self with off := self.off + n })
  else
    none

/-- Modelled from the spec: `ZeroCopySource.NextByte`. -/
def ZeroCopySource.NextByte (self : ZeroCopySource) : Option (Byte × ZeroCopySource) :=
  match self.NextBytes 1 with
  | some ([b], source) => some (b, source)
  | _ => none

/-- Modelled from the spec: `ZeroCopySource.NextUint16`. -/
def ZeroCopySource.NextUint16 (self : ZeroCopySource) : Option (Nat × ZeroCopySource) :=
  match self.NextBytes 2 with
  | some (buf, source) => some (getLE buf, source)
  | none => none

/-- Modelled from the spec: `ZeroCopySource.NextUint32`. -/
def ZeroCopySource.NextUint32 (self : ZeroCopySource) : Option (Nat × ZeroCopySource) :=
  match self.NextBytes 4 with
  | some (buf, source) => some (getLE buf, source)
  | none => none

/-- Modelled from the spec: `ZeroCopySource.NextUint64`. -/
def ZeroCopySource.NextUint64 (self : ZeroCopySource) : Option (Nat × ZeroCopySource) :=
  match self.NextBytes 8 with
  | some (buf, source) => some (getLE buf, source)
  | none => none

/-- Modelled from the spec: `ZeroCopySource.NextInt64`, the 8 bytes read as
two's complement. -/
def ZeroCopySource.NextInt64 (self : ZeroCopySource) : Option (Int × ZeroCopySource) :=
  match self.NextUint64 with
  | some (data, source) => some (toInt64 data, source)
  | none => none

/-- Modelled from the spec: `ZeroCopySource.NextVarUint`, the reader of the
length prefix written by `WriteVarUint`. -/
def ZeroCopySource.NextVarUint (self : ZeroCopySource) : Option (Nat × ZeroCopySource) :=
  match self.NextByte with
  | none => none
  | some (fb, source) =>
    if fb = 0xFD then source.NextUint16
    else if fb = 0xFE then source.NextUint32
    else if fb = 0xFF then source.NextUint64
    else some (fb.val, source)

/-- Modelled from the spec: `ZeroCopySource.NextVarBytes` reads a length prefix
and then that many raw bytes. -/
def ZeroCopySource.NextVarBytes (self : ZeroCopySource) : Option (List Byte × ZeroCopySource) :=
  match self.NextVarUint with
  | none => none
  | some (count, source) => source.NextBytes count

/-- Modelled from the spec: `ZeroCopySource.NextString`, the reader of
`WriteString`. -/
def ZeroCopySource.NextString (self : ZeroCopySource) : Option (List Byte × ZeroCopySource) :=
  self.NextVarBytes

/-- The reader over the buffer `pre ++ rest` whose cursor stands right after
`pre`: `pre` has been read, `rest` is still to be read. -/
def reader (pre rest : List Byte) : ZeroCopySource := ⟨pre ++ rest, pre.length⟩

/-- The bytes `WriteVarUint` writes for `n`. -/
def encVarUint (n : Nat) : List Byte := (NewZeroCopySink.WriteVarUint n).buf

/-- The bytes `WriteVarBytes` writes for `b`. -/
def encVarBytes (b : List Byte) : List Byte := (NewZeroCopySink.WriteVarBytes b).buf

/-! ## Go built-ins used by the records -/

/-- Go's `a < b` on strings: byte-wise lexicographic comparison. -/
def strLess : List Byte → List Byte → Bool
  | [], [] => false
  | [], _ :: _ => true
  | _ :: _, [] => false
  | a :: as, b :: bs => if a < b then true else if b < a then false else strLess as bs

/-- Go's `sort.SliceStable(x, less)`: the stable sort of `x` by the strict
order `less`; an element stays in front of a later one unless the later one
is strictly less. -/
def SliceStable {α : Type} (less : α → α → Bool) (x : List α) : List α :=
  x.insertionSort (fun a b => less b a = false)

/-- A Go `map[string][][]byte`: the entries in the order in which a `range`
loop visits them. The keys of a map are distinct. -/
abbrev GoMap := List (List Byte × List (List Byte))

/-- The keys of a map, in iteration order. -/
def GoMap.keys (m : GoMap) : List (List Byte) := m.map Prod.fst

/-- Go's `m[k]` as a lookup that tells a missing key apart. -/
def GoMap.find? (m : GoMap) (k : List Byte) : Option (List (List Byte)) :=
  match m with
  | [] => none
  | (k0, v) :: rest => if k0 = k then some v else GoMap.find? rest k

/-- Go's `m[k]`: the value bound to `k`, the zero value (`nil`) for a missing
key. -/
def GoMap.get (m : GoMap) (k : List Byte) : List (List Byte) :=
  (m.find? k).getD []

/-- Go's `m[k] = v`: rebinds `k` when present, adds an entry otherwise. -/
def GoMap.set (m : GoMap) (k : List Byte) (v : List (List Byte)) : GoMap :=
  match m with
  | [] => [(k, v)]
  | (k0, v0) :: rest => if k0 = k then (k0, v) :: rest else (k0, v0) :: GoMap.set rest k v

/-! ## The records -/

/-- The record `BtcProof`. -/
structure BtcProof where
  Tx : List Byte
  Proof : List Byte
  Height : Nat
  BlocksToWait : Nat
  deriving DecidableEq

/-- The record `OutPoint`. -/
structure OutPoint where
  Hash : List Byte
  Index : Nat
  deriving DecidableEq

/-- The record `Utxo`. `Op` is a pointer and may be `nil`; `Confs` is not
saved. -/
structure Utxo where
  Op : Option OutPoint
  AtHeight : Nat
  Value : Nat
  ScriptPubkey : List Byte
  Confs : Nat
  deriving DecidableEq

/-- The record `Utxos`. -/
structure Utxos where
  Utxos : List Utxo
  deriving DecidableEq

/-- The record `MultiSignInfo`. -/
structure MultiSignInfo where
  MultiSignInfo : GoMap
  deriving DecidableEq

/-- The record `Args`. -/
structure Args where
  ToChainID : Nat
  Fee : Int
  ToContractAddress : List Byte
  Address : List Byte
  deriving DecidableEq

/-- The record `BtcFromInfo`. -/
structure BtcFromInfo where
  FromTxHash : List Byte
  FromChainID : Nat
  deriving DecidableEq

/-- Go's `new(OutPoint)`: the zero value. -/
def OutPoint.new : OutPoint := ⟨[], 0⟩

/-- Go's `new(Utxo)`: the zero value, with a `nil` outpoint. -/
def Utxo.new : Utxo := ⟨none, 0, 0, [], 0⟩

/-! ### Values of the Go types -/

/-- A byte slice or string of Go: its length is an `int`. -/
def ValidBytes (b : List Byte) : Prop := b.length < 2 ^ 63

/-- The fields of a `BtcProof` are in the range of their Go types. -/
def BtcProof.Valid (p : BtcProof) : Prop :=
  ValidBytes p.Tx ∧ ValidBytes p.Proof ∧ p.Height < 2 ^ 32 ∧ p.BlocksToWait < 2 ^ 64

/-- The fields of an `OutPoint` are in the range of their Go types. -/
def OutPoint.Valid (o : OutPoint) : Prop :=
  ValidBytes o.Hash ∧ o.Index < 2 ^ 32

/-- The fields of a `Utxo` are in the range of their Go types (the outpoint,
when there is one, included). -/
def Utxo.Valid (u : Utxo) : Prop :=
  (∀ op, u.Op = some op → op.Valid) ∧ u.AtHeight < 2 ^ 32 ∧ u.Value < 2 ^ 64 ∧
    ValidBytes u.ScriptPubkey ∧ u.Confs < 2 ^ 32

/-- A `Utxos` value of Go: a slice of valid elements whose length is an `int`. -/
def Utxos.Valid (us : Btc.Utxos) : Prop :=
  us.Utxos.length < 2 ^ 63 ∧ ∀ u ∈ us.Utxos, u.Valid

/-- A `MultiSignInfo` value of Go: distinct keys, and every length an `int`. -/
def MultiSignInfo.Valid (m : Btc.MultiSignInfo) : Prop :=
  m.MultiSignInfo.keys.Nodup ∧ m.MultiSignInfo.length < 2 ^ 63 ∧
    ∀ e ∈ m.MultiSignInfo, ValidBytes e.1 ∧ e.2.length < 2 ^ 63 ∧ ∀ b ∈ e.2, ValidBytes b

/-- The fields of an `Args` are in the range of their Go types. -/
def Args.Valid (a : Args) : Prop :=
  a.ToChainID < 2 ^ 64 ∧ -(2 ^ 63) ≤ a.Fee ∧ a.Fee < 2 ^ 63 ∧
    ValidBytes a.ToContractAddress ∧ ValidBytes a.Address

/-- The fields of a `BtcFromInfo` are in the range of their Go types. -/
def BtcFromInfo.Valid (f : BtcFromInfo) : Prop :=
  ValidBytes f.FromTxHash ∧ f.FromChainID < 2 ^ 64

/-! ### `BtcProof` -/

/-- `func (this *BtcProof) Serialization(sink *common.ZeroCopySink)`. -/
def BtcProof.Serialization (this : BtcProof) (sink : ZeroCopySink) : ZeroCopySink :=
  let sink := sink.WriteVarBytes this.Tx
  let sink := sink.WriteVarBytes this.Proof
  let sink := sink.WriteUint32 this.Height
  sink.WriteUint64 this.BlocksToWait

/-- `func (this *BtcProof) Deserialization(source *common.ZeroCopySource) error`. -/
def BtcProof.Deserialization (this : BtcProof) (source : ZeroCopySource) :
    BtcProof × Except String ZeroCopySource :=
  match source.NextVarBytes with
  | none => (this, .error "BtcProof deserialize tx error")
  | some (tx, source) =>
    match source.NextVarBytes with
    | none => (this, .error "BtcProof deserialize proof error")
    | some (proof, source) =>
      match source.NextUint32 with
      | none => (this, .error "BtcProof deserialize height error")
      | some (height, source) =>
        match source.NextUint64 with
        | none => (this, .error "BtcProof deserialize blocksToWait error:")
        | some (blocksToWait, source) =>
          ({ this with Tx := tx, Proof := proof, Height := height % 2 ^ 32,
                       BlocksToWait := blocksToWait }, .ok source)

/-! ### `OutPoint` -/

/-- `func (this *OutPoint) Serialization(sink *common.ZeroCopySink)`. -/
def OutPoint.Serialization (this : OutPoint) (sink : ZeroCopySink) : ZeroCopySink :=
  let sink := sink.WriteVarBytes this.Hash
  sink.WriteUint32 this.Index

/-- `func (this *OutPoint) Deserialization(source *common.ZeroCopySource) error`. -/
def OutPoint.Deserialization (this : OutPoint) (source : ZeroCopySource) :
    OutPoint × Except String ZeroCopySource :=
  match source.NextVarBytes with
  | none => (this, .error "OutPoint deserialize hash error")
  | some (hash, source) =>
    match source.NextUint32 with
    | none => (this, .error "OutPoint deserialize height error")
    | some (index, source) =>
      ({ this with Hash := hash, Index := index }, .ok source)

/-! ### `Utxo` -/

/-- `func (this *Utxo) Serialization(sink *common.ZeroCopySink)`. The call
`this.Op.Serialization(sink)` dereferences `this.Op`: with a `nil` outpoint the
method faults. -/
def Utxo.Serialization (this : Utxo) (sink : ZeroCopySink) : Option ZeroCopySink :=
  match this.Op with
  | none => none
  | some op =>
    let sink := op.Serialization sink
    let sink := sink.WriteUint32 this.AtHeight
    let sink := sink.WriteUint64 this.Value
    some (sink.WriteVarBytes this.ScriptPubkey)

/-- `func (this *Utxo) Deserialization(source *common.ZeroCopySource) error`. -/
def Utxo.Deserialization (this : Utxo) (source : ZeroCopySource) :
    Utxo × Except String ZeroCopySource :=
  match OutPoint.Deserialization OutPoint.new source with
  | (_, .error err) => (this, .error ("Utxo deserialize OutPoint error:" ++ err))
  | (op, .ok source) =>
    match source.NextUint32 with
    | none => (this, .error "OutPoint deserialize atHeight error")
    | some (atHeight, source) =>
      match source.NextUint64 with
      | none => (this, .error "OutPoint deserialize value error")
      | some (value, source) =>
        match source.NextVarBytes with
        | none => (this, .error "OutPoint deserialize scriptPubkey error")
        | some (scriptPubkey, source) =>
          ({ this with Op := some op, AtHeight := atHeight, Value := value,
                       ScriptPubkey := scriptPubkey }, .ok source)

/-! ### `Utxos` -/

/-- The loop `for _, v := range this.Utxos { v.Serialization(sink) }`. -/
def Utxos.Serialization.loop : List Utxo → ZeroCopySink → Option ZeroCopySink
  | [], sink => some sink
  | v :: rest, sink =>
    match v.Serialization sink with
    | none => none
    | some sink => Utxos.Serialization.loop rest sink

/-- `func (this *Utxos) Serialization(sink *common.ZeroCopySink)`. -/
def Utxos.Serialization (this : Btc.Utxos) (sink : ZeroCopySink) : Option ZeroCopySink :=
  let sink := sink.WriteUint64 this.Utxos.length
  Utxos.Serialization.loop this.Utxos sink

/-- The loop `for i := 0; uint64(i) < n; i++` of `Utxos.Deserialization`, with
`k` iterations left to run. -/
def Utxos.Deserialization.loop : Nat → List Utxo → ZeroCopySource →
    Except String (List Utxo × ZeroCopySource)
  | 0, utxos, source => .ok (utxos, source)
  | k + 1, utxos, source =>
    match Utxo.Deserialization Utxo.new source with
    | (_, .error err) => .error ("deserialize utxo error: " ++ err)
    | (utxo, .ok source) => Utxos.Deserialization.loop k (utxos ++ [utxo]) source

/-- `func (this *Utxos) Deserialization(source *common.ZeroCopySource) error`. -/
def Utxos.Deserialization (this : Btc.Utxos) (source : ZeroCopySource) :
    Btc.Utxos × Except String ZeroCopySource :=
  match source.NextUint64 with
  | none => (this, .error "utils.DecodeVarUint, deserialize Utxos length error")
  | some (n, source) =>
    match Utxos.Deserialization.loop n [] source with
    | .error err => (this, .error err)
    | .ok (utxos, source) => ({ this with Utxos := utxos }, .ok source)

/-- `func (this *Utxos) Len() int`. -/
def Utxos.Len (this : Btc.Utxos) : Nat := this.Utxos.length

/-- `func (this *Utxos) Less(i, j int) bool`. Both products are taken by
`big.Int`, over the integers, of operands converted by `int64(...)`; an index
out of range faults. -/
def Utxos.Less (this : Btc.Utxos) (i j : Nat) : Option Bool :=
  match this.Utxos[i]?, this.Utxos[j]? with
  | some ui, some uj =>
    let vai : Int := toInt64 ui.Value * uint32ToInt64 ui.Confs
    let vaj : Int := toInt64 uj.Value * uint32ToInt64 uj.Confs
    some (decide (vai < vaj))
  | _, _ => none

/-- `func (this *Utxos) Swap(i, j int)`; an index out of range faults. -/
def Utxos.Swap (this : Btc.Utxos) (i j : Nat) : Option Btc.Utxos :=
  match this.Utxos[i]?, this.Utxos[j]? with
  | some ui, some uj => some ⟨(this.Utxos.set i uj).set j ui⟩
  | _, _ => none

/-! ### `MultiSignInfo` -/

/-- The loop `for _, b := range v { sink.WriteVarBytes(b) }`. -/
def MultiSignInfo.Serialization.items : List (List Byte) → ZeroCopySink → ZeroCopySink
  | [], sink => sink
  | b :: rest, sink => MultiSignInfo.Serialization.items rest (sink.WriteVarBytes b)

/-- The loop `for _, k := range MultiSignInfoList` of
`MultiSignInfo.Serialization`. -/
def MultiSignInfo.Serialization.loop (this : Btc.MultiSignInfo) :
    List (List Byte) → ZeroCopySink → ZeroCopySink
  | [], sink => sink
  | k :: rest, sink =>
    let sink := sink.WriteString k
    let v := this.MultiSignInfo.get k
    let sink := sink.WriteUint64 v.length
    let sink := MultiSignInfo.Serialization.items v sink
    MultiSignInfo.Serialization.loop this rest sink

/-- `func (this *MultiSignInfo) Serialization(sink *common.ZeroCopySink)`. -/
def MultiSignInfo.Serialization (this : Btc.MultiSignInfo) (sink : ZeroCopySink) : ZeroCopySink :=
  let sink := sink.WriteUint64 this.MultiSignInfo.length
  let MultiSignInfoList := this.MultiSignInfo.keys
  let MultiSignInfoList := SliceStable (fun a b => strLess b a) MultiSignInfoList
  MultiSignInfo.Serialization.loop this MultiSignInfoList sink

/-- The loop `for j := 0; uint64(j) < m; j++` of
`MultiSignInfo.Deserialization`, with `k` iterations left to run. -/
def MultiSignInfo.Deserialization.items : Nat → List (List Byte) → ZeroCopySource →
    Except String (List (List Byte) × ZeroCopySource)
  | 0, multiSignItem, source => .ok (multiSignItem, source)
  | k + 1, multiSignItem, source =>
    match source.NextVarBytes with
    | none => .error "MultiSignInfo deserialize []byte error"
    | some (b, source) =>
      MultiSignInfo.Deserialization.items k (multiSignItem ++ [b]) source

/-- The loop `for i := 0; uint64(i) < n; i++` of
`MultiSignInfo.Deserialization`, with `k` iterations left to run. -/
def MultiSignInfo.Deserialization.loop : Nat → GoMap → ZeroCopySource →
    Except String (GoMap × ZeroCopySource)
  | 0, multiSignInfo, source => .ok (multiSignInfo, source)
  | k + 1, multiSignInfo, source =>
    match source.NextString with
    | none => .error "MultiSignInfo deserialize public key error"
    | some (key, source) =>
      match source.NextUint64 with
      | none => .error "MultiSignInfo deserialize MultiSignItem length error"
      | some (m, source) =>
        match MultiSignInfo.Deserialization.items m [] source with
        | .error err => .error err
        | .ok (multiSignItem, source) =>
          MultiSignInfo.Deserialization.loop k (multiSignInfo.set key multiSignItem) source

/-- `func (this *MultiSignInfo) Deserialization(source *common.ZeroCopySource) error`. -/
def MultiSignInfo.Deserialization (this : Btc.MultiSignInfo) (source : ZeroCopySource) :
    Btc.MultiSignInfo × Except String ZeroCopySource :=
  match source.NextUint64 with
  | none => (this, .error "MultiSignInfo deserialize MultiSignInfo length error")
  | some (n, source) =>
    match MultiSignInfo.Deserialization.loop n [] source with
    | .error err => (this, .error err)
    | .ok (multiSignInfo, source) => ({ this with MultiSignInfo := multiSignInfo }, .ok source)

/-! ### `Args` -/

/-- `func (this *Args) Serialization(sink *common.ZeroCopySink)`. -/
def Args.Serialization (this : Args) (sink : ZeroCopySink) : ZeroCopySink :=
  let sink := sink.WriteUint64 this.ToChainID
  let sink := sink.WriteInt64 this.Fee
  let sink := sink.WriteVarBytes this.ToContractAddress
  sink.WriteVarBytes this.Address

/-- `func (this *Args) Deserialization(source *common.ZeroCopySource) error`. -/
def Args.Deserialization (this : Args) (source : ZeroCopySource) :
    Args × Except String ZeroCopySource :=
  match source.NextUint64 with
  | none => (this, .error "Args deserialize toChainID error")
  | some (toChainID, source) =>
    match source.NextInt64 with
    | none => (this, .error "Args deserialize fee error")
    | some (fee, source) =>
      match source.NextVarBytes with
      | none => (this, .error "Args deserialize toContractAddress error")
      | some (toContractAddress, source) =>
        match source.NextVarBytes with
        | none => (this, .error "Args deserialize address error")
        | some (address, source) =>
          ({ this with ToChainID := toChainID, Fee := fee,
                       ToContractAddress := toContractAddress, Address := address },
            .ok source)

/-! ### `BtcFromInfo` -/

/-- `func (this *BtcFromInfo) Serialization(sink *common.ZeroCopySink)`. -/
def BtcFromInfo.Serialization (this : BtcFromInfo) (sink : ZeroCopySink) : ZeroCopySink :=
  let sink := sink.WriteVarBytes this.FromTxHash
  sink.WriteUint64 this.FromChainID

/-- `func (this *BtcFromInfo) Deserialization(source *common.ZeroCopySource) error`. -/
def BtcFromInfo.Deserialization (this : BtcFromInfo) (source : ZeroCopySource) :
    BtcFromInfo × Except String ZeroCopySource :=
  match source.NextVarBytes with
  | none => (this, .error "BtcProof deserialize fromTxHash error")
  | some (fromTxHash, source) =>
    match source.NextUint64 with
    | none => (this, .error "BtcProof deserialize fromChainID error:")
    | some (fromChainID, source) =>
      ({ this with FromTxHash := fromTxHash, FromChainID := fromChainID }, .ok source)

/-! ## The bytes of a record -/

/-- The bytes `BtcProof.Serialization` writes. -/
def BtcProof.bytes (this : BtcProof) : List Byte := (this.Serialization NewZeroCopySink).buf

/-- The bytes `OutPoint.Serialization` writes. -/
def OutPoint.bytes (this : OutPoint) : List Byte := (this.Serialization NewZeroCopySink).buf

/-- The bytes `Utxo.Serialization` writes, `none` when it faults. -/
def Utxo.bytes (this : Utxo) : Option (List Byte) :=
  (this.Serialization NewZeroCopySink).map ZeroCopySink.buf

/-- The bytes `Utxos.Serialization` writes, `none` when it faults. -/
def Utxos.bytes (this : Btc.Utxos) : Option (List Byte) :=
  (this.Serialization NewZeroCopySink).map ZeroCopySink.buf

/-- The bytes `MultiSignInfo.Serialization` writes. -/
def MultiSignInfo.bytes (this : Btc.MultiSignInfo) : List Byte :=
  (this.Serialization NewZeroCopySink).buf

/-- The bytes `Args.Serialization` writes. -/
def Args.bytes (this : Args) : List Byte := (this.Serialization NewZeroCopySink).buf

/-- The bytes `BtcFromInfo.Serialization` writes. -/
def BtcFromInfo.bytes (this : BtcFromInfo) : List Byte :=
  (this.Serialization NewZeroCopySink).buf

/-- The bytes of one element of a `Utxos` on the wire (empty when its
`Serialization` faults). -/
def Utxo.wire (this : Utxo) : List Byte := this.bytes.getD []

/-- A decoded `Utxo` next to the one encoded: every saved field, with the
confirmations of a fresh record. -/
def Utxo.saved (this : Utxo) : Utxo := { this with Confs := 0 }

/-- The bytes of one map entry on the wire: the key as a string, the 8-byte
count of its list, and each byte string of the list as var-bytes. -/
def entryWire (e : List Byte × List (List Byte)) : List Byte :=
  encVarBytes e.1 ++ (putLE 8 (e.2.length % 2 ^ 64) ++ e.2.flatMap encVarBytes)

/-- The keys of a `MultiSignInfo` in the order in which `Serialization` writes
them: `MultiSignInfoList` after `sort.SliceStable`. -/
def MultiSignInfo.sortedKeys (this : Btc.MultiSignInfo) : List (List Byte) :=
  SliceStable (fun a b => strLess b a) this.MultiSignInfo.keys

/-- A map entry of Go: every length is an `int`. -/
def ValidEntry (e : List Byte × List (List Byte)) : Prop :=
  ValidBytes e.1 ∧ e.2.length < 2 ^ 63 ∧ ∀ b ∈ e.2, ValidBytes b

/-- The source `source'` is `source` after some reads: the buffer is the same,
the cursor has not moved back and stands inside the buffer or right at its
end. -/
def Advanced (source source' : ZeroCopySource) : Prop :=
  source'.s = source.s ∧ source.off ≤ source'.off ∧ source'.off ≤ source'.s.length

/-! ## Runs with run-time faults and a step budget -/

/-- What a run of Go code comes to: a run-time fault (a slice bound out of
range), a step budget used up before the code returns, or a return with a
value. -/
inductive Outcome (α : Type) where
  | fault : Outcome α
  | timeout : Outcome α
  | ret : α → Outcome α

/-- Sequencing of runs: a fault or a used-up budget ends the run there. -/
def Outcome.bind {α β : Type} : Outcome α → (α → Outcome β) → Outcome β
  | .fault, _ => .fault
  | .timeout, _ => .timeout
  | .ret a, f => f a

instance : Monad Outcome where
  pure := Outcome.ret
  bind := Outcome.bind

/-- Go's slice expression `s[lo:hi]` on a byte slice: the bytes from `lo` up
to `hi`, and a run-time fault unless `lo ≤ hi ≤ cap(s)`. The capacity of a
buffer is taken to be its length, so that every read past its end faults. -/
def sliceExpr (s : List Byte) (lo hi : Nat) : Outcome (List Byte) :=
  if lo ≤ hi ∧ hi ≤ s.length then .ret ((s.drop lo).take (hi - lo)) else .fault

/-- Modelled from the spec: `ZeroCopySource.NextBytes` as it runs. It signals
end-of-data when fewer than `n` bytes remain and only otherwise takes the
slice `s[off:off+n]` out of the buffer. The sum `off + n` is a natural number:
the contract of the spec knows no overflow. -/
def ZeroCopySource.NextBytes.exec (self : ZeroCopySource) (n : Nat) :
    Outcome (Option (List Byte × ZeroCopySource)) :=
  if self.off + n ≤ self.s.length then do
    let data ← sliceExpr self.s self.off (self.off + n)
    return some (data, { self with off := self.off + n })
  else
    return none

/-- Modelled from the spec: `ZeroCopySource.NextByte` as it runs. -/
def ZeroCopySource.NextByte.exec (self : ZeroCopySource) :
    Outcome (Option (Byte × ZeroCopySource)) := do
  match ← ZeroCopySource.NextBytes.exec self 1 with
  | some ([b], source) => return some (b, source)
  | _ => return none

/-- Modelled from the spec: `ZeroCopySource.NextUint16` as it runs. -/
def ZeroCopySource.NextUint16.exec (self : ZeroCopySource) :
    Outcome (Option (Nat × ZeroCopySource)) := do
  match ← ZeroCopySource.NextBytes.exec self 2 with
  | some (buf, source) => return some (getLE buf, source)
  | none => return none

/-- Modelled from the spec: `ZeroCopySource.NextUint32` as it runs. -/
def ZeroCopySource.NextUint32.exec (self : ZeroCopySource) :
    Outcome (Option (Nat × ZeroCopySource)) := do
  match ← ZeroCopySource.NextBytes.exec self 4 with
  | some (buf, source) => return some (getLE buf, source)
  | none => return none

/-- Modelled from the spec: `ZeroCopySource.NextUint64` as it runs. -/
def ZeroCopySource.NextUint64.exec (self : ZeroCopySource) :
    Outcome (Option (Nat × ZeroCopySource)) := do
  match ← ZeroCopySource.NextBytes.exec self 8 with
  | some (buf, source) => return some (getLE buf, source)
  | none => return none

/-- Modelled from the spec: `ZeroCopySource.NextInt64` as it runs. -/
def ZeroCopySource.NextInt64.exec (self : ZeroCopySource) :
    Outcome (Option (Int × ZeroCopySource)) := do
  match ← ZeroCopySource.NextUint64.exec self with
  | some (data, source) => return some (toInt64 data, source)
  | none => return none

/-- Modelled from the spec: `ZeroCopySource.NextVarUint` as it runs. -/
def ZeroCopySource.NextVarUint.exec (self : ZeroCopySource) :
    Outcome (Option (Nat × ZeroCopySource)) := do
  match ← ZeroCopySource.NextByte.exec self with
  | none => return none
  | some (fb, source) =>
    if fb = 0xFD then ZeroCopySource.NextUint16.exec source
    else if fb = 0xFE then ZeroCopySource.NextUint32.exec source
    else if fb = 0xFF then ZeroCopySource.NextUint64.exec source
    else return some (fb.val, source)

/-- Modelled from the spec: `ZeroCopySource.NextVarBytes` as it runs: the
count read from the stream is handed to `NextBytes`, which checks it against
the bytes that remain. -/
def ZeroCopySource.NextVarBytes.exec (self : ZeroCopySource) :
    Outcome (Option (List Byte × ZeroCopySource)) := do
  match ← ZeroCopySource.NextVarUint.exec self with
  | none => return none
  | some (count, source) => ZeroCopySource.NextBytes.exec source count

/-- Modelled from the spec: `ZeroCopySource.NextString` as it runs. -/
def ZeroCopySource.NextString.exec (self : ZeroCopySource) :
    Outcome (Option (List Byte × ZeroCopySource)) :=
  ZeroCopySource.NextVarBytes.exec self

/-- The step budget of a decoding call: one loop step for every byte still to
be read, and one to leave the loop. -/
def budget (source : ZeroCopySource) : Nat := source.s.length - source.off + 1

/-- `BtcProof.Deserialization` as it runs. -/
def BtcProof.Deserialization.exec (this : BtcProof) (source : ZeroCopySource) :
    Outcome (BtcProof × Except String ZeroCopySource) := do
  match ← ZeroCopySource.NextVarBytes.exec source with
  | none => return (this, .error "BtcProof deserialize tx error")
  | some (tx, source) =>
    match ← ZeroCopySource.NextVarBytes.exec source with
    | none => return (this, .error "BtcProof deserialize proof error")
    | some (proof, source) =>
      match ← ZeroCopySource.NextUint32.exec source with
      | none => return (this, .error "BtcProof deserialize height error")
      | some (height, source) =>
        match ← ZeroCopySource.NextUint64.exec source with
        | none => return (this, .error "BtcProof deserialize blocksToWait error:")
        | some (blocksToWait, source) =>
          return ({ this with Tx := tx, Proof := proof, Height := height % 2 ^ 32,
                              BlocksToWait := blocksToWait }, .ok source)

/-- `OutPoint.Deserialization` as it runs. -/
def OutPoint.Deserialization.exec (this : OutPoint) (source : ZeroCopySource) :
    Outcome (OutPoint × Except String ZeroCopySource) := do
  match ← ZeroCopySource.NextVarBytes.exec source with
  | none => return (this, .error "OutPoint deserialize hash error")
  | some (hash, source) =>
    match ← ZeroCopySource.NextUint32.exec source with
    | none => return (this, .error "OutPoint deserialize height error")
    | some (index, source) =>
      return ({ this with Hash := hash, Index := index }, .ok source)

/-- `Utxo.Deserialization` as it runs. -/
def Utxo.Deserialization.exec (this : Utxo) (source : ZeroCopySource) :
    Outcome (Utxo × Except String ZeroCopySource) := do
  match ← OutPoint.Deserialization.exec OutPoint.new source with
  | (_, .error err) => return (this, .error ("Utxo deserialize OutPoint error:" ++ err))
  | (op, .ok source) =>
    match ← ZeroCopySource.NextUint32.exec source with
    | none => return (this, .error "OutPoint deserialize atHeight error")
    | some (atHeight, source) =>
      match ← ZeroCopySource.NextUint64.exec source with
      | none => return (this, .error "OutPoint deserialize value error")
      | some (value, source) =>
        match ← ZeroCopySource.NextVarBytes.exec source with
        | none => return (this, .error "OutPoint deserialize scriptPubkey error")
        | some (scriptPubkey, source) =>
          return ({ this with Op := some op, AtHeight := atHeight, Value := value,
                              ScriptPubkey := scriptPubkey }, .ok source)

/-- The loop `for i := 0; uint64(i) < n; i++` of `Utxos.Deserialization` as it
runs, from the test of its condition on. The counter is kept as `uint64(i)`,
the 64 bits of the Go `int` read unsigned, so `i++` adds one modulo `2 ^ 64`;
each test of the condition takes one step of the budget. -/
def Utxos.Deserialization.execLoop : Nat → Nat → Nat → List Utxo → ZeroCopySource →
    Outcome (Except String (List Utxo × ZeroCopySource))
  | 0, _, _, _, _ => .timeout
  | fuel + 1, i, n, utxos, source =>
    if i < n then do
      match ← Utxo.Deserialization.exec Utxo.new source with
      | (_, .error err) => return .error ("deserialize utxo error: " ++ err)
      | (utxo, .ok source) =>
        Utxos.Deserialization.execLoop fuel ((i + 1) % 2 ^ 64) n (utxos ++ [utxo]) source
    else
      return .ok (utxos, source)

/-- `Utxos.Deserialization` as it runs, its loop under the step budget
`fuel`. -/
def Utxos.Deserialization.exec (fuel : Nat) (this : Btc.Utxos) (source : ZeroCopySource) :
    Outcome (Btc.Utxos × Except String ZeroCopySource) := do
  match ← ZeroCopySource.NextUint64.exec source with
  | none => return (this, .error "utils.DecodeVarUint, deserialize Utxos length error")
  | some (n, source) =>
    match ← Utxos.Deserialization.execLoop fuel 0 n [] source with
    | .error err => return (this, .error err)
    | .ok (utxos, source) => return ({ this with Utxos := utxos }, .ok source)

/-- The loop `for j := 0; uint64(j) < m; j++` of
`MultiSignInfo.Deserialization` as it runs, the counter kept as `uint64(j)`. -/
def MultiSignInfo.Deserialization.execItems : Nat → Nat → Nat → List (List Byte) →
    ZeroCopySource → Outcome (Except String (List (List Byte) × ZeroCopySource))
  | 0, _, _, _, _ => .timeout
  | fuel + 1, j, m, multiSignItem, source =>
    if j < m then do
      match ← ZeroCopySource.NextVarBytes.exec source with
      | none => return .error "MultiSignInfo deserialize []byte error"
      | some (b, source) =>
        MultiSignInfo.Deserialization.execItems fuel ((j + 1) % 2 ^ 64) m
          (multiSignItem ++ [b]) source
    else
      return .ok (multiSignItem, source)

/-- The loop `for i := 0; uint64(i) < n; i++` of
`MultiSignInfo.Deserialization` as it runs, the counter kept as `uint64(i)`.
The inner loop runs under what is left of the budget. -/
def MultiSignInfo.Deserialization.execLoop : Nat → Nat → Nat → GoMap → ZeroCopySource →
    Outcome (Except String (GoMap × ZeroCopySource))
  | 0, _, _, _, _ => .timeout
  | fuel + 1, i, n, multiSignInfo, source =>
    if i < n then do
      match ← ZeroCopySource.NextString.exec source with
      | none => return .error "MultiSignInfo deserialize public key error"
      | some (key, source) =>
        match ← ZeroCopySource.NextUint64.exec source with
        | none => return .error "MultiSignInfo deserialize MultiSignItem length error"
        | some (m, source) =>
          match ← MultiSignInfo.Deserialization.execItems (fuel + 1) 0 m [] source with
          | .error err => return .error err
          | .ok (multiSignItem, source) =>
            MultiSignInfo.Deserialization.execLoop fuel ((i + 1) % 2 ^ 64) n
              (multiSignInfo.set key multiSignItem) source
    else
      return .ok (multiSignInfo, source)

/-- `MultiSignInfo.Deserialization` as it runs, its loops under the step
budget `fuel`. -/
def MultiSignInfo.Deserialization.exec (fuel : Nat) (this : Btc.MultiSignInfo)
    (source : ZeroCopySource) : Outcome (Btc.MultiSignInfo × Except String ZeroCopySource) := do
  match ← ZeroCopySource.NextUint64.exec source with
  | none => return (this, .error "MultiSignInfo deserialize MultiSignInfo length error")
  | some (n, source) =>
    match ← MultiSignInfo.Deserialization.execLoop fuel 0 n [] source with
    | .error err => return (this, .error err)
    | .ok (multiSignInfo, source) =>
      return ({ this with MultiSignInfo := multiSignInfo }, .ok source)

/-- `Args.Deserialization` as it runs. -/
def Args.Deserialization.exec (this : Args) (source : ZeroCopySource) :
    Outcome (Args × Except String ZeroCopySource) := do
  match ← ZeroCopySource.NextUint64.exec source with
  | none => return (this, .error "Args deserialize toChainID error")
  | some (toChainID, source) =>
    match ← ZeroCopySource.NextInt64.exec source with
    | none => return (this, .error "Args deserialize fee error")
    | some (fee, source) =>
      match ← ZeroCopySource.NextVarBytes.exec source with
      | none => return (this, .error "Args deserialize toContractAddress error")
      | some (toContractAddress, source) =>
        match ← ZeroCopySource.NextVarBytes.exec source with
        | none => return (this, .error "Args deserialize address error")
        | some (address, source) =>
          return ({ this with ToChainID := toChainID, Fee := fee,
                              ToContractAddress := toContractAddress, Address := address },
            .ok source)

/-- `BtcFromInfo.Deserialization` as it runs. -/
def BtcFromInfo.Deserialization.exec (this : BtcFromInfo) (source : ZeroCopySource) :
    Outcome (BtcFromInfo × Except String ZeroCopySource) := do
  match ← ZeroCopySource.NextVarBytes.exec source with
  | none => return (this, .error "BtcProof deserialize fromTxHash error")
  | some (fromTxHash, source) =>
    match ← ZeroCopySource.NextUint64.exec source with
    | none => return (this, .error "BtcProof deserialize fromChainID error:")
    | some (fromChainID, source) =>
      return ({ this with FromTxHash := fromTxHash, FromChainID := fromChainID }, .ok source)

/-! ## Lemmas on the primitive codec -/

theorem length_putLE (w n : Nat) : (putLE w n).length = w := by
  induction w generalizing n with
  | zero => rfl
  | succ w ih => simp [putLE, ih]
theorem getLE_putLE (w n : Nat) : getLE (putLE w n) = n % 256 ^ w := by
  induction w generalizing n with
  | zero => simp [putLE, getLE, Nat.mod_one]
  | succ w ih =>
    simp only [putLE, getLE, ih, byteOf]
    rw [pow_succ, mul_comm (256 ^ w) 256, Nat.mod_mul]
theorem NextBytes_reader (pre xs rest : List Byte) :
    (reader pre (xs ++ rest)).NextBytes xs.length = some (xs, reader (pre ++ xs) rest) := by
  simp [ZeroCopySource.NextBytes, reader]
theorem NextBytes_short (pre rest : List Byte) (n : Nat) (h : rest.length < n) :
    (reader pre rest).NextBytes n = none := by
  simp [ZeroCopySource.NextBytes, reader]
  omega
theorem NextBytes_putLE (pre rest : List Byte) (w n : Nat) :
    (reader pre (putLE w n ++ rest)).NextBytes w = some (putLE w n, reader (pre ++ putLE w n) rest) := by
  have h := NextBytes_reader pre (putLE w n) rest
  rwa [length_putLE] at h
theorem NextUint16_reader (pre rest : List Byte) (n : Nat) :
    (reader pre (putLE 2 n ++ rest)).NextUint16
      = some (n % 2 ^ 16, reader (pre ++ putLE 2 n) rest) := by
  simp [ZeroCopySource.NextUint16, NextBytes_putLE, getLE_putLE]
theorem NextUint32_reader (pre rest : List Byte) (n : Nat) :
    (reader pre (putLE 4 n ++ rest)).NextUint32
      = some (n % 2 ^ 32, reader (pre ++ putLE 4 n) rest) := by
  simp [ZeroCopySource.NextUint32, NextBytes_putLE, getLE_putLE]
theorem NextUint64_reader (pre rest : List Byte) (n : Nat) :
    (reader pre (putLE 8 n ++ rest)).NextUint64
      = some (n % 2 ^ 64, reader (pre ++ putLE 8 n) rest) := by
  simp [ZeroCopySource.NextUint64, NextBytes_putLE, getLE_putLE]

theorem NextByte_reader (pre rest : List Byte) (b : Byte) :
    (reader pre (b :: rest)).NextByte = some (b, reader (pre ++ [b]) rest) := by
  have h := NextBytes_reader pre [b] rest
  simp only [List.singleton_append, List.length_singleton] at h
  simp [ZeroCopySource.NextByte, h]

theorem NextByte_nil (pre : List Byte) : (reader pre []).NextByte = none := by
  simp [ZeroCopySource.NextByte, NextBytes_short]

theorem WriteVarUint_buf (sink : ZeroCopySink) (n : Nat) :
    (sink.WriteVarUint n).buf = sink.buf ++ encVarUint n := by
  simp only [encVarUint, ZeroCopySink.WriteVarUint, NewZeroCopySink]
  split_ifs <;>
    simp [ZeroCopySink.WriteBytes, ZeroCopySink.WriteUint16, ZeroCopySink.WriteUint32,
      ZeroCopySink.WriteUint64]

theorem encVarBytes_eq (b : List Byte) : encVarBytes b = encVarUint b.length ++ b := by
  simp [encVarBytes, ZeroCopySink.WriteVarBytes, ZeroCopySink.WriteBytes, WriteVarUint_buf,
    NewZeroCopySink]

theorem WriteVarBytes_buf (sink : ZeroCopySink) (b : List Byte) :
    (sink.WriteVarBytes b).buf = sink.buf ++ encVarBytes b := by
  simp [encVarBytes_eq, ZeroCopySink.WriteVarBytes, ZeroCopySink.WriteBytes, WriteVarUint_buf]

theorem encVarUint_cases (n : Nat) :
    (n < 0xFD ∧ encVarUint n = [byteOf n]) ∨
    (0xFD ≤ n ∧ n ≤ 0xFFFF ∧ encVarUint n = 0xFD :: putLE 2 (n % 2 ^ 16)) ∨
    (0xFFFF < n ∧ n ≤ 0xFFFFFFFF ∧ encVarUint n = 0xFE :: putLE 4 (n % 2 ^ 32)) ∨
    (0xFFFFFFFF < n ∧ encVarUint n = 0xFF :: putLE 8 (n % 2 ^ 64)) := by
  simp only [encVarUint, ZeroCopySink.WriteVarUint, NewZeroCopySink]
  split_ifs with h1 h2 h3
  · left; exact ⟨h1, by simp [ZeroCopySink.WriteBytes]⟩
  · right; left
    exact ⟨by omega, h2, by simp [ZeroCopySink.WriteBytes, ZeroCopySink.WriteUint16]⟩
  · right; right; left
    exact ⟨by omega, h3, by simp [ZeroCopySink.WriteBytes, ZeroCopySink.WriteUint32]⟩
  · right; right; right
    exact ⟨by omega, by simp [ZeroCopySink.WriteBytes, ZeroCopySink.WriteUint64]⟩

theorem NextVarUint_reader (pre rest : List Byte) (n : Nat) (hn : n < 2 ^ 64) :
    (reader pre (encVarUint n ++ rest)).NextVarUint
      = some (n, reader (pre ++ encVarUint n) rest) := by
  have d1 : ((0xFD : Byte) : Nat) = 253 := rfl
  have d2 : ((0xFE : Byte) : Nat) = 254 := rfl
  have d3 : ((0xFF : Byte) : Nat) = 255 := rfl
  have a1 : ∀ (b : Byte) (l : List Byte), pre ++ [b] ++ l = pre ++ b :: l := by simp
  rcases encVarUint_cases n with ⟨h, e⟩ | ⟨h1, h2, e⟩ | ⟨h1, h2, e⟩ | ⟨h1, e⟩
  · rw [e]
    simp only [List.singleton_append, ZeroCopySource.NextVarUint, NextByte_reader]
    have hb : (byteOf n).val = n := by show n % 256 = n; omega
    have h1 : byteOf n ≠ 0xFD := by intro hh; rw [hh] at hb; omega
    have h2 : byteOf n ≠ 0xFE := by intro hh; rw [hh] at hb; omega
    have h3 : byteOf n ≠ 0xFF := by intro hh; rw [hh] at hb; omega
    simp only [if_neg h1, if_neg h2, if_neg h3, hb]
  · rw [e]
    have hm : n % 2 ^ 16 = n := Nat.mod_eq_of_lt (by omega)
    simp only [List.cons_append, ZeroCopySource.NextVarUint, NextByte_reader]
    rw [if_pos trivial, NextUint16_reader, a1, Nat.mod_mod, hm]
  · rw [e]
    have hm : n % 2 ^ 32 = n := Nat.mod_eq_of_lt (by omega)
    simp only [List.cons_append, ZeroCopySource.NextVarUint, NextByte_reader]
    rw [if_neg (show ¬ ((0xFE : Byte) = 0xFD) by decide), if_pos trivial, NextUint32_reader,
      a1, Nat.mod_mod, hm]
  · rw [e]
    have hm : n % 2 ^ 64 = n := Nat.mod_eq_of_lt (by omega)
    simp only [List.cons_append, ZeroCopySource.NextVarUint, NextByte_reader]
    rw [if_neg (show ¬ ((0xFF : Byte) = 0xFD) by decide),
      if_neg (show ¬ ((0xFF : Byte) = 0xFE) by decide), if_pos trivial, NextUint64_reader,
      a1, Nat.mod_mod, hm]

theorem NextVarBytes_reader (pre rest b : List Byte) (hb : b.length < 2 ^ 64) :
    (reader pre (encVarBytes b ++ rest)).NextVarBytes
      = some (b, reader (pre ++ encVarBytes b) rest) := by
  simp only [ZeroCopySource.NextVarBytes, encVarBytes_eq, List.append_assoc,
    NextVarUint_reader _ _ _ hb, NextBytes_reader]

/-! ## Truncated input to the primitive readers -/

theorem split_append {xs ys a b : List Byte} (h : xs ++ ys = a ++ b) :
    (∃ t, t ≠ [] ∧ a = xs ++ t) ∨ (∃ xs', xs = a ++ xs' ∧ xs' ++ ys = b) := by
  rcases List.append_eq_append_iff.mp h with ⟨a', h1, h2⟩ | ⟨c', h1, h2⟩
  · by_cases hc : a' = []
    · subst hc
      refine Or.inr ⟨[], ?_, ?_⟩
      · simpa using h1.symm
      · simpa using h2
    · exact Or.inl ⟨a', hc, h1⟩
  · exact Or.inr ⟨c', h1, h2.symm⟩

theorem length_lt_of_split {xs t e : List Byte} (h : e = xs ++ t) (ht : t ≠ []) :
    xs.length < e.length := by
  subst h
  have : 0 < t.length := List.length_pos.mpr ht
  simp only [List.length_append]
  omega

theorem NextUint16_short (pre xs : List Byte) (h : xs.length < 2) :
    (reader pre xs).NextUint16 = none := by
  simp [ZeroCopySource.NextUint16, NextBytes_short _ _ _ h]

theorem NextUint32_short (pre xs : List Byte) (h : xs.length < 4) :
    (reader pre xs).NextUint32 = none := by
  simp [ZeroCopySource.NextUint32, NextBytes_short _ _ _ h]

theorem NextUint64_short (pre xs : List Byte) (h : xs.length < 8) :
    (reader pre xs).NextUint64 = none := by
  simp [ZeroCopySource.NextUint64, NextBytes_short _ _ _ h]

theorem NextInt64_short (pre xs : List Byte) (h : xs.length < 8) :
    (reader pre xs).NextInt64 = none := by
  simp [ZeroCopySource.NextInt64, NextUint64_short _ _ h]

theorem NextUint32_trunc (pre : List Byte) {xs t : List Byte} {n : Nat}
    (h : putLE 4 n = xs ++ t) (ht : t ≠ []) : (reader pre xs).NextUint32 = none := by
  apply NextUint32_short
  have := length_lt_of_split h ht
  rwa [length_putLE] at this

theorem NextUint64_trunc (pre : List Byte) {xs t : List Byte} {n : Nat}
    (h : putLE 8 n = xs ++ t) (ht : t ≠ []) : (reader pre xs).NextUint64 = none := by
  apply NextUint64_short
  have := length_lt_of_split h ht
  rwa [length_putLE] at this

theorem NextInt64_trunc (pre : List Byte) {xs t : List Byte} {n : Nat}
    (h : putLE 8 n = xs ++ t) (ht : t ≠ []) : (reader pre xs).NextInt64 = none := by
  simp [ZeroCopySource.NextInt64, NextUint64_trunc pre h ht]

theorem NextVarUint_trunc (pre : List Byte) {xs t : List Byte} {n : Nat}
    (h : encVarUint n = xs ++ t) (ht : t ≠ []) : (reader pre xs).NextVarUint = none := by
  have hl := length_lt_of_split h ht
  cases xs with
  | nil => simp [ZeroCopySource.NextVarUint, NextByte_nil]
  | cons x xs =>
    rcases encVarUint_cases n with ⟨_, e⟩ | ⟨_, _, e⟩ | ⟨_, _, e⟩ | ⟨_, e⟩
    · rw [e] at hl; simp at hl
    · rw [e] at h hl
      simp only [List.cons_append, List.cons.injEq] at h
      simp only [List.length_cons, length_putLE] at hl
      rw [← h.1]
      simp only [ZeroCopySource.NextVarUint, NextByte_reader]
      rw [if_pos trivial]
      exact NextUint16_short _ _ (by omega)
    · rw [e] at h hl
      simp only [List.cons_append, List.cons.injEq] at h
      simp only [List.length_cons, length_putLE] at hl
      rw [← h.1]
      simp only [ZeroCopySource.NextVarUint, NextByte_reader]
      rw [if_neg (show ¬ ((0xFE : Byte) = 0xFD) by decide), if_pos trivial]
      exact NextUint32_short _ _ (by omega)
    · rw [e] at h hl
      simp only [List.cons_append, List.cons.injEq] at h
      simp only [List.length_cons, length_putLE] at hl
      rw [← h.1]
      simp only [ZeroCopySource.NextVarUint, NextByte_reader]
      rw [if_neg (show ¬ ((0xFF : Byte) = 0xFD) by decide),
        if_neg (show ¬ ((0xFF : Byte) = 0xFE) by decide), if_pos trivial]
      exact NextUint64_short _ _ (by omega)

theorem NextVarBytes_trunc (pre : List Byte) {xs t b : List Byte} (hb : b.length < 2 ^ 64)
    (h : encVarBytes b = xs ++ t) (ht : t ≠ []) : (reader pre xs).NextVarBytes = none := by
  rw [encVarBytes_eq] at h
  rcases split_append h.symm with ⟨t', ht', e⟩ | ⟨xs', e1, e2⟩
  · simp [ZeroCopySource.NextVarBytes, NextVarUint_trunc pre e ht']
  · subst e1
    simp only [ZeroCopySource.NextVarBytes, NextVarUint_reader _ _ _ hb]
    have := NextBytes_short (pre ++ encVarUint b.length) xs' b.length
      (length_lt_of_split e2.symm ht)
    exact this

/-! ## The wire layout of the fixed-layout records -/

theorem WriteUint32_buf (sink : ZeroCopySink) (n : Nat) :
    (sink.WriteUint32 n).buf = sink.buf ++ putLE 4 (n % 2 ^ 32) := rfl

theorem WriteUint64_buf (sink : ZeroCopySink) (n : Nat) :
    (sink.WriteUint64 n).buf = sink.buf ++ putLE 8 (n % 2 ^ 64) := rfl

theorem WriteInt64_buf (sink : ZeroCopySink) (x : Int) :
    (sink.WriteInt64 x).buf = sink.buf ++ putLE 8 (toUint64 x % 2 ^ 64) := rfl

theorem NewZeroCopySource_eq (b : List Byte) : NewZeroCopySource b = reader [] b := rfl

theorem BtcProof_Serialization_buf (v : BtcProof) (sink : ZeroCopySink) :
    (v.Serialization sink).buf = sink.buf ++ (encVarBytes v.Tx ++ (encVarBytes v.Proof ++
      (putLE 4 (v.Height % 2 ^ 32) ++ putLE 8 (v.BlocksToWait % 2 ^ 64)))) := by
  simp [BtcProof.Serialization, WriteVarBytes_buf, WriteUint32_buf, WriteUint64_buf]

theorem BtcProof_bytes_eq (v : BtcProof) :
    v.bytes = encVarBytes v.Tx ++ (encVarBytes v.Proof ++
      (putLE 4 (v.Height % 2 ^ 32) ++ putLE 8 (v.BlocksToWait % 2 ^ 64))) := by
  simp [BtcProof.bytes, BtcProof_Serialization_buf, NewZeroCopySink]

theorem OutPoint_Serialization_buf (v : OutPoint) (sink : ZeroCopySink) :
    (v.Serialization sink).buf = sink.buf ++ (encVarBytes v.Hash ++ putLE 4 (v.Index % 2 ^ 32)) := by
  simp [OutPoint.Serialization, WriteVarBytes_buf, WriteUint32_buf]

theorem OutPoint_bytes_eq (v : OutPoint) :
    v.bytes = encVarBytes v.Hash ++ putLE 4 (v.Index % 2 ^ 32) := by
  simp [OutPoint.bytes, OutPoint_Serialization_buf, NewZeroCopySink]

theorem Args_Serialization_buf (v : Args) (sink : ZeroCopySink) :
    (v.Serialization sink).buf = sink.buf ++ (putLE 8 (v.ToChainID % 2 ^ 64) ++
      (putLE 8 (toUint64 v.Fee % 2 ^ 64) ++
        (encVarBytes v.ToContractAddress ++ encVarBytes v.Address))) := by
  simp [Args.Serialization, WriteVarBytes_buf, WriteInt64_buf, WriteUint64_buf]

theorem Args_bytes_eq (v : Args) :
    v.bytes = putLE 8 (v.ToChainID % 2 ^ 64) ++ (putLE 8 (toUint64 v.Fee % 2 ^ 64) ++
      (encVarBytes v.ToContractAddress ++ encVarBytes v.Address)) := by
  simp [Args.bytes, Args_Serialization_buf, NewZeroCopySink]

theorem BtcFromInfo_Serialization_buf (v : BtcFromInfo) (sink : ZeroCopySink) :
    (v.Serialization sink).buf
      = sink.buf ++ (encVarBytes v.FromTxHash ++ putLE 8 (v.FromChainID % 2 ^ 64)) := by
  simp [BtcFromInfo.Serialization, WriteVarBytes_buf, WriteUint64_buf]

theorem BtcFromInfo_bytes_eq (v : BtcFromInfo) :
    v.bytes = encVarBytes v.FromTxHash ++ putLE 8 (v.FromChainID % 2 ^ 64) := by
  simp [BtcFromInfo.bytes, BtcFromInfo_Serialization_buf, NewZeroCopySink]

theorem Utxo_Serialization_some (u : Utxo) (op : OutPoint) (h : u.Op = some op)
    (sink : ZeroCopySink) :
    u.Serialization sink = some ⟨sink.buf ++ (op.bytes ++ (putLE 4 (u.AtHeight % 2 ^ 32) ++
      (putLE 8 (u.Value % 2 ^ 64) ++ encVarBytes u.ScriptPubkey)))⟩ := by
  simp only [Utxo.Serialization, h, Option.some.injEq]
  rw [ZeroCopySink.mk.injEq]
  simp [WriteVarBytes_buf, WriteUint32_buf, WriteUint64_buf, OutPoint_Serialization_buf,
    OutPoint_bytes_eq]

theorem Utxo_bytes_some (u : Utxo) (op : OutPoint) (h : u.Op = some op) :
    u.bytes = some (op.bytes ++ (putLE 4 (u.AtHeight % 2 ^ 32) ++
      (putLE 8 (u.Value % 2 ^ 64) ++ encVarBytes u.ScriptPubkey))) := by
  simp [Utxo.bytes, Utxo_Serialization_some u op h, NewZeroCopySink]

theorem Utxo_Serialization_none (u : Utxo) (h : u.Op = none) (sink : ZeroCopySink) :
    u.Serialization sink = none := by
  simp [Utxo.Serialization, h]

/-! ## Decoding what was encoded -/

theorem toInt64_toUint64 (x : Int) (h1 : -(2 ^ 63) ≤ x) (h2 : x < 2 ^ 63) :
    toInt64 (toUint64 x % 2 ^ 64) = x := by
  unfold toInt64 toUint64
  have hnn : 0 ≤ x % 2 ^ 64 := Int.emod_nonneg _ (by norm_num)
  have hlt : x % 2 ^ 64 < 2 ^ 64 := Int.emod_lt_of_pos _ (by norm_num)
  have hc : (((x % 2 ^ 64).toNat : Nat) : Int) = x % 2 ^ 64 := Int.toNat_of_nonneg hnn
  have hm : (x % 2 ^ 64).toNat % 2 ^ 64 % 2 ^ 64 = (x % 2 ^ 64).toNat := by
    rw [Nat.mod_mod]; apply Nat.mod_eq_of_lt; omega
  rw [hm]
  split
  · rename_i h; omega
  · rename_i h; omega

theorem validBytes_lt {b : List Byte} (h : ValidBytes b) : b.length < 2 ^ 64 := by
  unfold ValidBytes at h; omega

theorem BtcProof_Deserialization_bytes (this v : BtcProof) (hv : v.Valid)
    (pre rest : List Byte) :
    BtcProof.Deserialization this (reader pre (v.bytes ++ rest))
      = (v, .ok (reader (pre ++ v.bytes) rest)) := by
  obtain ⟨h1, h2, h3, h4⟩ := hv
  simp only [BtcProof_bytes_eq, List.append_assoc, BtcProof.Deserialization,
    NextVarBytes_reader _ _ _ (validBytes_lt h1), NextVarBytes_reader _ _ _ (validBytes_lt h2),
    NextUint32_reader, NextUint64_reader, Nat.mod_mod, Nat.mod_eq_of_lt h3,
    Nat.mod_eq_of_lt h4]

theorem OutPoint_Deserialization_bytes (this v : OutPoint) (hv : v.Valid)
    (pre rest : List Byte) :
    OutPoint.Deserialization this (reader pre (v.bytes ++ rest))
      = (v, .ok (reader (pre ++ v.bytes) rest)) := by
  obtain ⟨h1, h2⟩ := hv
  simp only [OutPoint_bytes_eq, List.append_assoc, OutPoint.Deserialization,
    NextVarBytes_reader _ _ _ (validBytes_lt h1), NextUint32_reader, Nat.mod_mod,
    Nat.mod_eq_of_lt h2]

theorem Args_Deserialization_bytes (this v : Args) (hv : v.Valid) (pre rest : List Byte) :
    Args.Deserialization this (reader pre (v.bytes ++ rest))
      = (v, .ok (reader (pre ++ v.bytes) rest)) := by
  obtain ⟨h1, h2, h3, h4, h5⟩ := hv
  simp only [Args_bytes_eq, List.append_assoc, Args.Deserialization,
    ZeroCopySource.NextInt64,
    NextVarBytes_reader _ _ _ (validBytes_lt h4), NextVarBytes_reader _ _ _ (validBytes_lt h5),
    NextUint64_reader, Nat.mod_mod, Nat.mod_eq_of_lt h1, toInt64_toUint64 _ h2 h3]

theorem BtcFromInfo_Deserialization_bytes (this v : BtcFromInfo) (hv : v.Valid)
    (pre rest : List Byte) :
    BtcFromInfo.Deserialization this (reader pre (v.bytes ++ rest))
      = (v, .ok (reader (pre ++ v.bytes) rest)) := by
  obtain ⟨h1, h2⟩ := hv
  simp only [BtcFromInfo_bytes_eq, List.append_assoc, BtcFromInfo.Deserialization,
    NextVarBytes_reader _ _ _ (validBytes_lt h1), NextUint64_reader, Nat.mod_mod,
    Nat.mod_eq_of_lt h2]

theorem Utxo_Deserialization_bytes (this u : Utxo) (op : OutPoint) (hop : u.Op = some op)
    (hv : u.Valid) (pre rest : List Byte) (bs : List Byte) (hbs : u.bytes = some bs) :
    Utxo.Deserialization this (reader pre (bs ++ rest))
      = ({ u with Confs := this.Confs }, .ok (reader (pre ++ bs) rest)) := by
  obtain ⟨h1, h2, h3, h4, h5⟩ := hv
  rw [Utxo_bytes_some u op hop] at hbs
  cases hbs
  have h := OutPoint_Deserialization_bytes OutPoint.new op (h1 op hop) pre
    (putLE 4 (u.AtHeight % 2 ^ 32) ++
      (putLE 8 (u.Value % 2 ^ 64) ++ (encVarBytes u.ScriptPubkey ++ rest)))
  simp only [List.append_assoc, Utxo.Deserialization, h,
    NextVarBytes_reader _ _ _ (validBytes_lt h4), NextUint32_reader, NextUint64_reader]
  simp only [Nat.mod_mod, Nat.mod_eq_of_lt h2, Nat.mod_eq_of_lt h3, ← hop]

/-! ## Truncated input to the fixed-layout records -/

theorem BtcProof_Deserialization_trunc (this v : BtcProof) (hv : v.Valid) (pre : List Byte)
    {xs t : List Byte} (h : v.bytes = xs ++ t) (ht : t ≠ []) :
    ∃ msg, BtcProof.Deserialization this (reader pre xs) = (this, .error msg) := by
  obtain ⟨h1, h2, _, _⟩ := hv
  rw [BtcProof_bytes_eq] at h
  rcases split_append h.symm with ⟨t1, ht1, e1⟩ | ⟨x1, rfl, ha⟩
  · simp only [BtcProof.Deserialization, NextVarBytes_trunc pre (validBytes_lt h1) e1 ht1]
    exact ⟨_, rfl⟩
  rcases split_append ha with ⟨t2, ht2, e2⟩ | ⟨x2, rfl, hb⟩
  · simp only [BtcProof.Deserialization, NextVarBytes_reader _ _ _ (validBytes_lt h1),
      NextVarBytes_trunc _ (validBytes_lt h2) e2 ht2]
    exact ⟨_, rfl⟩
  rcases split_append hb with ⟨t3, ht3, e3⟩ | ⟨x3, rfl, hc⟩
  · simp only [BtcProof.Deserialization, NextVarBytes_reader _ _ _ (validBytes_lt h1),
      NextVarBytes_reader _ _ _ (validBytes_lt h2), NextUint32_trunc _ e3 ht3]
    exact ⟨_, rfl⟩
  · simp only [BtcProof.Deserialization, NextVarBytes_reader _ _ _ (validBytes_lt h1),
      NextVarBytes_reader _ _ _ (validBytes_lt h2), NextUint32_reader,
      NextUint64_trunc _ hc.symm ht]
    exact ⟨_, rfl⟩

theorem OutPoint_Deserialization_trunc (this v : OutPoint) (hv : v.Valid) (pre : List Byte)
    {xs t : List Byte} (h : v.bytes = xs ++ t) (ht : t ≠ []) :
    ∃ msg, OutPoint.Deserialization this (reader pre xs) = (this, .error msg) := by
  obtain ⟨h1, _⟩ := hv
  rw [OutPoint_bytes_eq] at h
  rcases split_append h.symm with ⟨t1, ht1, e1⟩ | ⟨x1, rfl, ha⟩
  · simp only [OutPoint.Deserialization, NextVarBytes_trunc pre (validBytes_lt h1) e1 ht1]
    exact ⟨_, rfl⟩
  · simp only [OutPoint.Deserialization, NextVarBytes_reader _ _ _ (validBytes_lt h1),
      NextUint32_trunc _ ha.symm ht]
    exact ⟨_, rfl⟩

theorem Args_Deserialization_trunc (this v : Args) (hv : v.Valid) (pre : List Byte)
    {xs t : List Byte} (h : v.bytes = xs ++ t) (ht : t ≠ []) :
    ∃ msg, Args.Deserialization this (reader pre xs) = (this, .error msg) := by
  obtain ⟨_, _, _, h4, h5⟩ := hv
  rw [Args_bytes_eq] at h
  rcases split_append h.symm with ⟨t1, ht1, e1⟩ | ⟨x1, rfl, ha⟩
  · simp only [Args.Deserialization, NextUint64_trunc pre e1 ht1]
    exact ⟨_, rfl⟩
  rcases split_append ha with ⟨t2, ht2, e2⟩ | ⟨x2, rfl, hb⟩
  · simp only [Args.Deserialization, NextUint64_reader, NextInt64_trunc _ e2 ht2]
    exact ⟨_, rfl⟩
  rcases split_append hb with ⟨t3, ht3, e3⟩ | ⟨x3, rfl, hc⟩
  · simp only [Args.Deserialization, NextUint64_reader, ZeroCopySource.NextInt64,
      NextVarBytes_trunc _ (validBytes_lt h4) e3 ht3]
    exact ⟨_, rfl⟩
  · simp only [Args.Deserialization, NextUint64_reader, ZeroCopySource.NextInt64,
      NextVarBytes_reader _ _ _ (validBytes_lt h4),
      NextVarBytes_trunc _ (validBytes_lt h5) hc.symm ht]
    exact ⟨_, rfl⟩

theorem BtcFromInfo_Deserialization_trunc (this v : BtcFromInfo) (hv : v.Valid)
    (pre : List Byte) {xs t : List Byte} (h : v.bytes = xs ++ t) (ht : t ≠ []) :
    ∃ msg, BtcFromInfo.Deserialization this (reader pre xs) = (this, .error msg) := by
  obtain ⟨h1, _⟩ := hv
  rw [BtcFromInfo_bytes_eq] at h
  rcases split_append h.symm with ⟨t1, ht1, e1⟩ | ⟨x1, rfl, ha⟩
  · simp only [BtcFromInfo.Deserialization, NextVarBytes_trunc pre (validBytes_lt h1) e1 ht1]
    exact ⟨_, rfl⟩
  · simp only [BtcFromInfo.Deserialization, NextVarBytes_reader _ _ _ (validBytes_lt h1),
      NextUint64_trunc _ ha.symm ht]
    exact ⟨_, rfl⟩

theorem Utxo_Deserialization_trunc (this u : Utxo) (hv : u.Valid) (pre : List Byte)
    {bs xs t : List Byte} (hbs : u.bytes = some bs) (h : bs = xs ++ t) (ht : t ≠ []) :
    ∃ msg, Utxo.Deserialization this (reader pre xs) = (this, .error msg) := by
  obtain ⟨h1, _, _, h4, _⟩ := hv
  cases hop : u.Op with
  | none => simp [Utxo.bytes, Utxo_Serialization_none u hop] at hbs
  | some op =>
    rw [Utxo_bytes_some u op hop] at hbs
    cases hbs
    rcases split_append h.symm with ⟨t1, ht1, e1⟩ | ⟨x1, rfl, ha⟩
    · obtain ⟨msg, hm⟩ := OutPoint_Deserialization_trunc OutPoint.new op (h1 op hop) pre e1 ht1
      simp only [Utxo.Deserialization, hm]
      exact ⟨_, rfl⟩
    have hd := fun r => OutPoint_Deserialization_bytes OutPoint.new op (h1 op hop) pre r
    rcases split_append ha with ⟨t2, ht2, e2⟩ | ⟨x2, rfl, hb⟩
    · simp only [Utxo.Deserialization, hd, NextUint32_trunc _ e2 ht2]
      exact ⟨_, rfl⟩
    rcases split_append hb with ⟨t3, ht3, e3⟩ | ⟨x3, rfl, hc⟩
    · simp only [Utxo.Deserialization, hd, List.append_assoc, NextUint32_reader,
        NextUint64_trunc _ e3 ht3]
      exact ⟨_, rfl⟩
    · simp only [Utxo.Deserialization, hd, List.append_assoc, NextUint32_reader,
        NextUint64_reader, NextVarBytes_trunc _ (validBytes_lt h4) hc.symm ht]
      exact ⟨_, rfl⟩

/-! ## The counted record `Utxos` -/

theorem Utxos_Serialization_loop_some (us : List Utxo) (hop : ∀ u ∈ us, u.Op ≠ none)
    (sink : ZeroCopySink) :
    Utxos.Serialization.loop us sink = some ⟨sink.buf ++ us.flatMap Utxo.wire⟩ := by
  induction us generalizing sink with
  | nil => simp [Utxos.Serialization.loop]
  | cons u us ih =>
    have hu : u.Op ≠ none := hop u (List.mem_cons_self _ _)
    obtain ⟨op, hopu⟩ := Option.ne_none_iff_exists'.mp hu
    have hw : u.wire = op.bytes ++ (putLE 4 (u.AtHeight % 2 ^ 32) ++
        (putLE 8 (u.Value % 2 ^ 64) ++ encVarBytes u.ScriptPubkey)) := by
      simp [Utxo.wire, Utxo_bytes_some u op hopu]
    simp only [Utxos.Serialization.loop, Utxo_Serialization_some u op hopu,
      ih (fun v hv => hop v (List.mem_cons_of_mem _ hv)), List.flatMap_cons, hw,
      List.append_assoc]

theorem Utxos_bytes_eq (v : Btc.Utxos) (hop : ∀ u ∈ v.Utxos, u.Op ≠ none) :
    v.bytes = some (putLE 8 (v.Utxos.length % 2 ^ 64) ++ v.Utxos.flatMap Utxo.wire) := by
  simp [Utxos.bytes, Utxos.Serialization, Utxos_Serialization_loop_some _ hop,
    WriteUint64_buf, NewZeroCopySink]

theorem Utxo_bytes_wire (u : Utxo) (hop : u.Op ≠ none) : u.bytes = some u.wire := by
  obtain ⟨op, hopu⟩ := Option.ne_none_iff_exists'.mp hop
  simp [Utxo.wire, Utxo_bytes_some u op hopu]

theorem Utxo_Deserialization_wire (u : Utxo) (hop : u.Op ≠ none) (hv : u.Valid)
    (pre rest : List Byte) :
    Utxo.Deserialization Utxo.new (reader pre (u.wire ++ rest))
      = (u.saved, .ok (reader (pre ++ u.wire) rest)) := by
  obtain ⟨op, hopu⟩ := Option.ne_none_iff_exists'.mp hop
  exact Utxo_Deserialization_bytes Utxo.new u op hopu hv pre rest u.wire
    (Utxo_bytes_wire u hop)

theorem Utxos_Deserialization_loop_bytes (us : List Utxo)
    (hv : ∀ u ∈ us, u.Valid ∧ u.Op ≠ none) (acc : List Utxo) (pre rest : List Byte) :
    Utxos.Deserialization.loop us.length acc (reader pre (us.flatMap Utxo.wire ++ rest))
      = .ok (acc ++ us.map Utxo.saved, reader (pre ++ us.flatMap Utxo.wire) rest) := by
  induction us generalizing acc pre with
  | nil => simp [Utxos.Deserialization.loop]
  | cons u us ih =>
    obtain ⟨hu, hop⟩ := hv u (List.mem_cons_self _ _)
    simp only [List.length_cons, Utxos.Deserialization.loop, List.flatMap_cons,
      List.append_assoc, Utxo_Deserialization_wire u hop hu,
      ih (fun v hm => hv v (List.mem_cons_of_mem _ hm)), List.map_cons]
    simp

theorem Utxos_Deserialization_loop_trunc (us : List Utxo)
    (hv : ∀ u ∈ us, u.Valid ∧ u.Op ≠ none) (acc : List Utxo) (pre : List Byte)
    {xs t : List Byte} (h : us.flatMap Utxo.wire = xs ++ t) (ht : t ≠ []) :
    ∃ msg, Utxos.Deserialization.loop us.length acc (reader pre xs) = .error msg := by
  induction us generalizing acc pre xs with
  | nil => simp at h; exact absurd h.2 ht
  | cons u us ih =>
    obtain ⟨hu, hop⟩ := hv u (List.mem_cons_self _ _)
    rw [List.flatMap_cons] at h
    rcases split_append h.symm with ⟨t1, ht1, e1⟩ | ⟨x1, rfl, ha⟩
    · obtain ⟨msg, hm⟩ := Utxo_Deserialization_trunc Utxo.new u hu pre
        (Utxo_bytes_wire u hop) e1 ht1
      simp only [List.length_cons, Utxos.Deserialization.loop, hm]
      exact ⟨_, rfl⟩
    · simp only [List.length_cons, Utxos.Deserialization.loop,
        Utxo_Deserialization_wire u hop hu]
      exact ih (fun v hm => hv v (List.mem_cons_of_mem _ hm)) _ _ ha.symm

theorem Utxos_Deserialization_bytes (this v : Btc.Utxos) (hv : v.Valid)
    (hop : ∀ u ∈ v.Utxos, u.Op ≠ none) (pre rest bs : List Byte) (hbs : v.bytes = some bs) :
    Utxos.Deserialization this (reader pre (bs ++ rest))
      = (⟨v.Utxos.map Utxo.saved⟩, .ok (reader (pre ++ bs) rest)) := by
  rw [Utxos_bytes_eq v hop] at hbs
  cases hbs
  obtain ⟨hl, hu⟩ := hv
  have hlen : v.Utxos.length % 2 ^ 64 = v.Utxos.length := Nat.mod_eq_of_lt (by omega)
  simp only [Utxos.Deserialization, List.append_assoc, NextUint64_reader, Nat.mod_mod, hlen,
    Utxos_Deserialization_loop_bytes v.Utxos (fun u hm => ⟨hu u hm, hop u hm⟩), List.nil_append]

theorem Utxos_Deserialization_trunc (this v : Btc.Utxos) (hv : v.Valid)
    (hop : ∀ u ∈ v.Utxos, u.Op ≠ none) (pre : List Byte) {bs xs t : List Byte}
    (hbs : v.bytes = some bs) (h : bs = xs ++ t) (ht : t ≠ []) :
    ∃ msg, Utxos.Deserialization this (reader pre xs) = (this, .error msg) := by
  rw [Utxos_bytes_eq v hop] at hbs
  cases hbs
  obtain ⟨hl, hu⟩ := hv
  have hlen : v.Utxos.length % 2 ^ 64 = v.Utxos.length := Nat.mod_eq_of_lt (by omega)
  rcases split_append h.symm with ⟨t1, ht1, e1⟩ | ⟨x1, rfl, ha⟩
  · simp only [Utxos.Deserialization, NextUint64_trunc pre e1 ht1]
    exact ⟨_, rfl⟩
  · obtain ⟨msg, hm⟩ := Utxos_Deserialization_loop_trunc v.Utxos
      (fun u hm => ⟨hu u hm, hop u hm⟩) [] (pre ++ putLE 8 (v.Utxos.length % 2 ^ 64))
      ha.symm ht
    rw [hlen] at hm
    simp only [Utxos.Deserialization, NextUint64_reader, Nat.mod_mod, hlen, hm]
    exact ⟨_, rfl⟩

/-! ## The order of Go strings -/

theorem strLess_cons (a b : Byte) (as bs : List Byte) :
    strLess (a :: as) (b :: bs) = true ↔ a < b ∨ (a = b ∧ strLess as bs = true) := by
  simp only [strLess]
  split_ifs with h1 h2
  · simp [h1]
  · have : a ≠ b := fun e => by subst e; exact h1 h2
    simp [h1, this]
  · have : a = b := le_antisymm (not_lt.mp h2) (not_lt.mp h1)
    simp [this]

theorem strLess_irrefl (a : List Byte) : strLess a a = false := by
  induction a with
  | nil => rfl
  | cons x xs ih =>
    rw [← Bool.not_eq_true, strLess_cons]
    simp [ih]

theorem strLess_total (a b : List Byte) : strLess a b = false ∨ strLess b a = false := by
  induction a generalizing b with
  | nil => cases b <;> simp [strLess]
  | cons x xs ih =>
    cases b with
    | nil => simp [strLess]
    | cons y ys =>
      simp only [← Bool.not_eq_true, strLess_cons]
      rcases ih ys with h | h
      · by_cases hxy : x < y
        · right
          rintro (h1 | ⟨h1, _⟩)
          · exact absurd hxy (not_lt.mpr h1.le)
          · subst h1; exact lt_irrefl _ hxy
        · left
          rintro (h1 | ⟨_, h2⟩)
          · exact hxy h1
          · rw [h] at h2; cases h2
      · by_cases hxy : y < x
        · left
          rintro (h1 | ⟨h1, _⟩)
          · exact absurd hxy (not_lt.mpr h1.le)
          · subst h1; exact lt_irrefl _ hxy
        · right
          rintro (h1 | ⟨_, h2⟩)
          · exact hxy h1
          · rw [h] at h2; cases h2

theorem strLess_antisymm (a b : List Byte) (h1 : strLess a b = false)
    (h2 : strLess b a = false) : a = b := by
  induction a generalizing b with
  | nil =>
    cases b with
    | nil => rfl
    | cons y ys => simp [strLess] at h1
  | cons x xs ih =>
    cases b with
    | nil => simp [strLess] at h2
    | cons y ys =>
      rw [← Bool.not_eq_true, strLess_cons] at h1 h2
      push_neg at h1 h2
      have hxy : x = y := le_antisymm h2.1 h1.1
      subst hxy
      have e1 : strLess xs ys = false := by simpa using h1.2 rfl
      have e2 : strLess ys xs = false := by simpa using h2.2 rfl
      rw [ih ys e1 e2]

theorem strLess_trans (a b c : List Byte) (h1 : strLess a b = true)
    (h2 : strLess b c = true) : strLess a c = true := by
  induction a generalizing b c with
  | nil =>
    cases c with
    | nil => cases b <;> simp [strLess] at h2
    | cons z zs => rfl
  | cons x xs ih =>
    cases b with
    | nil => simp [strLess] at h1
    | cons y ys =>
      cases c with
      | nil => simp [strLess] at h2
      | cons z zs =>
        rw [strLess_cons] at h1 h2 ⊢
        rcases h1 with h1 | ⟨rfl, h1⟩
        · rcases h2 with h2 | ⟨rfl, _⟩
          · exact Or.inl (lt_trans h1 h2)
          · exact Or.inl h1
        · rcases h2 with h2 | ⟨rfl, h2⟩
          · exact Or.inl h2
          · exact Or.inr ⟨rfl, ih ys zs h1 h2⟩

theorem strLess_ge_trans (a b c : List Byte) (h1 : strLess a b = false)
    (h2 : strLess b c = false) : strLess a c = false := by
  by_contra h
  rw [Bool.not_eq_false] at h
  rcases Bool.eq_false_or_eq_true (strLess c b) with h4 | h4
  · have := strLess_trans a c b h h4
    rw [this] at h1; cases h1
  · have hbc : b = c := strLess_antisymm b c h2 h4
    subst hbc
    rw [h] at h1; cases h1

instance strGe_isTotal : IsTotal (List Byte) (fun a b => strLess a b = false) :=
  ⟨strLess_total⟩

instance strGe_isTrans : IsTrans (List Byte) (fun a b => strLess a b = false) :=
  ⟨strLess_ge_trans⟩

instance strGe_isAntisymm : IsAntisymm (List Byte) (fun a b => strLess a b = false) :=
  ⟨strLess_antisymm⟩

/-! ## The wire layout of `MultiSignInfo` -/

theorem MultiSignInfo_Serialization_items_buf (v : List (List Byte)) (sink : ZeroCopySink) :
    (MultiSignInfo.Serialization.items v sink).buf = sink.buf ++ v.flatMap encVarBytes := by
  induction v generalizing sink with
  | nil => simp [MultiSignInfo.Serialization.items]
  | cons b v ih => simp [MultiSignInfo.Serialization.items, ih, WriteVarBytes_buf]

theorem MultiSignInfo_Serialization_loop_buf (this : Btc.MultiSignInfo)
    (ks : List (List Byte)) (sink : ZeroCopySink) :
    (MultiSignInfo.Serialization.loop this ks sink).buf
      = sink.buf ++ ks.flatMap (fun k => entryWire (k, this.MultiSignInfo.get k)) := by
  induction ks generalizing sink with
  | nil => simp [MultiSignInfo.Serialization.loop]
  | cons k ks ih =>
    simp [MultiSignInfo.Serialization.loop, ih, MultiSignInfo_Serialization_items_buf,
      ZeroCopySink.WriteString, WriteVarBytes_buf, WriteUint64_buf, entryWire]

theorem MultiSignInfo_Serialization_buf (this : Btc.MultiSignInfo) (sink : ZeroCopySink) :
    (this.Serialization sink).buf = sink.buf ++ (putLE 8 (this.MultiSignInfo.length % 2 ^ 64) ++
      this.sortedKeys.flatMap (fun k => entryWire (k, this.MultiSignInfo.get k))) := by
  simp [MultiSignInfo.Serialization, MultiSignInfo_Serialization_loop_buf, WriteUint64_buf,
    MultiSignInfo.sortedKeys]

theorem MultiSignInfo_bytes_eq (this : Btc.MultiSignInfo) :
    this.bytes = putLE 8 (this.MultiSignInfo.length % 2 ^ 64) ++
      this.sortedKeys.flatMap (fun k => entryWire (k, this.MultiSignInfo.get k)) := by
  simp [MultiSignInfo.bytes, MultiSignInfo_Serialization_buf, NewZeroCopySink]

/-! ## Decoding the entries of a `MultiSignInfo` -/

theorem MultiSignInfo_Deserialization_items_bytes (v : List (List Byte))
    (hv : ∀ b ∈ v, ValidBytes b) (acc : List (List Byte)) (pre rest : List Byte) :
    MultiSignInfo.Deserialization.items v.length acc
        (reader pre (v.flatMap encVarBytes ++ rest))
      = .ok (acc ++ v, reader (pre ++ v.flatMap encVarBytes) rest) := by
  induction v generalizing acc pre with
  | nil => simp [MultiSignInfo.Deserialization.items]
  | cons b v ih =>
    simp only [List.length_cons, MultiSignInfo.Deserialization.items, List.flatMap_cons,
      List.append_assoc,
      NextVarBytes_reader _ _ _ (validBytes_lt (hv b (List.mem_cons_self _ _))),
      ih (fun c hc => hv c (List.mem_cons_of_mem _ hc))]
    simp

theorem MultiSignInfo_Deserialization_items_trunc (v : List (List Byte))
    (hv : ∀ b ∈ v, ValidBytes b) (acc : List (List Byte)) (pre : List Byte)
    {xs t : List Byte} (h : v.flatMap encVarBytes = xs ++ t) (ht : t ≠ []) :
    ∃ msg, MultiSignInfo.Deserialization.items v.length acc (reader pre xs) = .error msg := by
  induction v generalizing acc pre xs with
  | nil => simp at h; exact absurd h.2 ht
  | cons b v ih =>
    have hb := validBytes_lt (hv b (List.mem_cons_self _ _))
    rw [List.flatMap_cons] at h
    rcases split_append h.symm with ⟨t1, ht1, e1⟩ | ⟨x1, rfl, ha⟩
    · simp only [List.length_cons, MultiSignInfo.Deserialization.items,
        NextVarBytes_trunc pre hb e1 ht1]
      exact ⟨_, rfl⟩
    · simp only [List.length_cons, MultiSignInfo.Deserialization.items,
        NextVarBytes_reader _ _ _ hb]
      exact ih (fun c hc => hv c (List.mem_cons_of_mem _ hc)) _ _ ha.symm

theorem MultiSignInfo_Deserialization_loop_bytes (es : GoMap) (hv : ∀ e ∈ es, ValidEntry e)
    (acc : GoMap) (pre rest : List Byte) :
    MultiSignInfo.Deserialization.loop es.length acc
        (reader pre (es.flatMap entryWire ++ rest))
      = .ok (es.foldl (fun m e => m.set e.1 e.2) acc,
          reader (pre ++ es.flatMap entryWire) rest) := by
  induction es generalizing acc pre with
  | nil => simp [MultiSignInfo.Deserialization.loop]
  | cons e es ih =>
    obtain ⟨h1, h2, h3⟩ := hv e (List.mem_cons_self _ _)
    have hlen : e.2.length % 2 ^ 64 = e.2.length := Nat.mod_eq_of_lt (by omega)
    simp only [List.length_cons, MultiSignInfo.Deserialization.loop, List.flatMap_cons,
      entryWire, List.append_assoc, ZeroCopySource.NextString,
      NextVarBytes_reader _ _ _ (validBytes_lt h1), NextUint64_reader, Nat.mod_mod, hlen,
      MultiSignInfo_Deserialization_items_bytes e.2 h3, List.nil_append, List.foldl_cons]
    have := ih (fun c hc => hv c (List.mem_cons_of_mem _ hc)) (acc.set e.1 e.2)
      (pre ++ (encVarBytes e.1 ++ (putLE 8 e.2.length ++ e.2.flatMap encVarBytes)))
    simp only [entryWire, List.append_assoc] at this
    rw [this]

theorem MultiSignInfo_Deserialization_loop_trunc (es : GoMap) (hv : ∀ e ∈ es, ValidEntry e)
    (acc : GoMap) (pre : List Byte) {xs t : List Byte}
    (h : es.flatMap entryWire = xs ++ t) (ht : t ≠ []) :
    ∃ msg, MultiSignInfo.Deserialization.loop es.length acc (reader pre xs) = .error msg := by
  induction es generalizing acc pre xs with
  | nil => simp at h; exact absurd h.2 ht
  | cons e es ih =>
    obtain ⟨h1, h2, h3⟩ := hv e (List.mem_cons_self _ _)
    have hlen : e.2.length % 2 ^ 64 = e.2.length := Nat.mod_eq_of_lt (by omega)
    rw [List.flatMap_cons, entryWire, List.append_assoc, List.append_assoc, hlen] at h
    rcases split_append h.symm with ⟨t1, ht1, e1⟩ | ⟨x1, rfl, ha⟩
    · simp only [List.length_cons, MultiSignInfo.Deserialization.loop,
        ZeroCopySource.NextString, NextVarBytes_trunc pre (validBytes_lt h1) e1 ht1]
      exact ⟨_, rfl⟩
    rcases split_append ha with ⟨t2, ht2, e2⟩ | ⟨x2, rfl, hb⟩
    · simp only [List.length_cons, MultiSignInfo.Deserialization.loop,
        ZeroCopySource.NextString, NextVarBytes_reader _ _ _ (validBytes_lt h1),
        NextUint64_trunc _ e2 ht2]
      exact ⟨_, rfl⟩
    rcases split_append hb with ⟨t3, ht3, e3⟩ | ⟨x3, rfl, hc⟩
    · obtain ⟨msg, hm⟩ := MultiSignInfo_Deserialization_items_trunc e.2 h3 []
        (pre ++ encVarBytes e.1 ++ putLE 8 e.2.length) e3 ht3
      simp only [List.length_cons, MultiSignInfo.Deserialization.loop,
        ZeroCopySource.NextString, NextVarBytes_reader _ _ _ (validBytes_lt h1),
        NextUint64_reader, Nat.mod_mod, hlen, hm]
      exact ⟨_, rfl⟩
    · simp only [List.length_cons, MultiSignInfo.Deserialization.loop,
        ZeroCopySource.NextString, NextVarBytes_reader _ _ _ (validBytes_lt h1),
        NextUint64_reader, Nat.mod_mod, hlen, List.append_assoc,
        MultiSignInfo_Deserialization_items_bytes e.2 h3]
      exact ih (fun c hc' => hv c (List.mem_cons_of_mem _ hc')) _ _ hc.symm

/-! ## Go maps -/

theorem GoMap_set_of_not_mem (m : GoMap) (k : List Byte) (v : List (List Byte))
    (h : k ∉ m.keys) : m.set k v = m ++ [(k, v)] := by
  induction m with
  | nil => rfl
  | cons e m ih =>
    obtain ⟨k0, v0⟩ := e
    simp only [GoMap.keys, List.map_cons, List.mem_cons, not_or] at h
    have hne : ¬ k0 = k := fun e => h.1 e.symm
    simp only [GoMap.set, if_neg hne, List.cons_append, List.cons.injEq, true_and]
    exact ih h.2

theorem GoMap_keys_append (a b : GoMap) : GoMap.keys (a ++ b) = a.keys ++ b.keys := by
  simp [GoMap.keys]

theorem GoMap_foldl_set (es acc : GoMap) (hn : (acc ++ es).keys.Nodup) :
    es.foldl (fun m e => m.set e.1 e.2) acc = acc ++ es := by
  induction es generalizing acc with
  | nil => simp
  | cons e es ih =>
    have hk : e.1 ∉ acc.keys := by
      intro hmem
      rw [GoMap_keys_append] at hn
      have := (List.nodup_append.mp hn).2.2
      exact this hmem (by simp [GoMap.keys])
    rw [List.foldl_cons, GoMap_set_of_not_mem acc e.1 e.2 hk]
    have hn2 : ((acc ++ [(e.1, e.2)]) ++ es).keys.Nodup := by
      simpa using hn
    rw [ih _ hn2]
    simp

theorem GoMap_find_map (ks : List (List Byte)) (f : List Byte → List (List Byte))
    (k : List Byte) :
    GoMap.find? (ks.map (fun k => (k, f k))) k = if k ∈ ks then some (f k) else none := by
  induction ks with
  | nil => simp [GoMap.find?]
  | cons k0 ks ih =>
    simp only [List.map_cons, GoMap.find?, ih, List.mem_cons]
    by_cases h : k0 = k
    · subst h; simp
    · have h2 : ¬ k = k0 := fun e => h e.symm
      simp [h, h2]

theorem GoMap_find_eq (m : GoMap) (k : List Byte) :
    m.find? k = if k ∈ m.keys then some (m.get k) else none := by
  induction m with
  | nil => simp [GoMap.find?, GoMap.keys]
  | cons e m ih =>
    obtain ⟨k0, v0⟩ := e
    by_cases h : k0 = k
    · subst h; simp [GoMap.find?, GoMap.get, GoMap.keys]
    · have h2 : ¬ k = k0 := fun e => h e.symm
      have hget : GoMap.get ((k0, v0) :: m) k = GoMap.get m k := by
        simp [GoMap.get, GoMap.find?, h]
      simp only [GoMap.find?, if_neg h, ih, GoMap.keys, List.map_cons, List.mem_cons, h2,
        false_or, hget]

theorem GoMap_get_mem (m : GoMap) (k : List Byte) (h : k ∈ m.keys) : (k, m.get k) ∈ m := by
  induction m with
  | nil => simp [GoMap.keys] at h
  | cons e m ih =>
    obtain ⟨k0, v0⟩ := e
    by_cases hk : k0 = k
    · subst hk; simp [GoMap.get, GoMap.find?]
    · have hget : GoMap.get ((k0, v0) :: m) k = GoMap.get m k := by
        simp [GoMap.get, GoMap.find?, hk]
      have hm : k ∈ GoMap.keys m := by
        simp only [GoMap.keys, List.map_cons, List.mem_cons] at h
        rcases h with h | h
        · exact absurd h.symm hk
        · exact h
      rw [hget]
      exact List.mem_cons_of_mem _ (ih hm)

theorem GoMap_find_of_mem (m : GoMap) (hn : m.keys.Nodup) (k : List Byte)
    (v : List (List Byte)) (h : (k, v) ∈ m) : m.find? k = some v := by
  induction m with
  | nil => simp at h
  | cons e m ih =>
    obtain ⟨k0, v0⟩ := e
    simp only [GoMap.keys, List.map_cons, List.nodup_cons] at hn
    rcases List.mem_cons.mp h with h | h
    · cases h; simp [GoMap.find?]
    · have hk : ¬ k0 = k := by
        intro e; subst e
        exact hn.1 (List.mem_map_of_mem Prod.fst h)
      simp only [GoMap.find?, if_neg hk]
      exact ih hn.2 h

theorem GoMap_mem_of_find (m : GoMap) (k : List Byte) (v : List (List Byte))
    (h : m.find? k = some v) : (k, v) ∈ m := by
  induction m with
  | nil => simp [GoMap.find?] at h
  | cons e m ih =>
    obtain ⟨k0, v0⟩ := e
    by_cases hk : k0 = k
    · subst hk
      simp only [GoMap.find?, if_true, Option.some.injEq] at h
      subst h; exact List.mem_cons_self _ _
    · simp only [GoMap.find?, if_neg hk] at h
      exact List.mem_cons_of_mem _ (ih h)

theorem GoMap_find_perm (m1 m2 : GoMap) (hp : m1.Perm m2) (hn : m1.keys.Nodup)
    (k : List Byte) : m1.find? k = m2.find? k := by
  have hn2 : m2.keys.Nodup := (hp.map Prod.fst).nodup_iff.mp hn
  cases h1 : m1.find? k with
  | some v =>
    exact (GoMap_find_of_mem m2 hn2 k v (hp.subset (GoMap_mem_of_find m1 k v h1))).symm
  | none =>
    cases h2 : m2.find? k with
    | none => rfl
    | some v =>
      have := GoMap_find_of_mem m1 hn k v (hp.symm.subset (GoMap_mem_of_find m2 k v h2))
      rw [h1] at this; cases this

/-! ## The order in which the keys are written -/

theorem sortedKeys_perm (m : Btc.MultiSignInfo) : m.sortedKeys.Perm m.MultiSignInfo.keys := by
  unfold MultiSignInfo.sortedKeys SliceStable
  exact List.perm_insertionSort _ _

theorem sortedKeys_sorted (m : Btc.MultiSignInfo) :
    m.sortedKeys.Pairwise (fun a b => strLess a b = false) := by
  unfold MultiSignInfo.sortedKeys SliceStable
  exact List.sorted_insertionSort (fun a b => strLess a b = false) _

theorem sortedKeys_strict (m : Btc.MultiSignInfo) (hn : m.MultiSignInfo.keys.Nodup) :
    m.sortedKeys.Pairwise (fun a b => strLess b a = true) := by
  have hnd : m.sortedKeys.Nodup := (sortedKeys_perm m).nodup_iff.mpr hn
  have hs := sortedKeys_sorted m
  have := hs.and hnd
  refine this.imp ?_
  intro a b hab
  obtain ⟨h1, h2⟩ := hab
  by_contra hc
  rw [Bool.not_eq_true] at hc
  exact h2 (strLess_antisymm a b h1 hc)

theorem sortedKeys_eq_of_perm (m1 m2 : Btc.MultiSignInfo)
    (hp : m1.MultiSignInfo.Perm m2.MultiSignInfo) : m1.sortedKeys = m2.sortedKeys := by
  have hk : m1.MultiSignInfo.keys.Perm m2.MultiSignInfo.keys := hp.map Prod.fst
  exact List.eq_of_perm_of_sorted
    (((sortedKeys_perm m1).trans hk).trans (sortedKeys_perm m2).symm)
    (sortedKeys_sorted m1) (sortedKeys_sorted m2)

/-! ## Decoding a `MultiSignInfo` -/

theorem sortedEntries_wire (m : Btc.MultiSignInfo) :
    (m.sortedKeys.map (fun k => (k, m.MultiSignInfo.get k))).flatMap entryWire
      = m.sortedKeys.flatMap (fun k => entryWire (k, m.MultiSignInfo.get k)) := by
  induction m.sortedKeys with
  | nil => rfl
  | cons k ks ih => simp [ih]

theorem sortedEntries_valid (m : Btc.MultiSignInfo) (hv : m.Valid) :
    ∀ e ∈ m.sortedKeys.map (fun k => (k, m.MultiSignInfo.get k)), ValidEntry e := by
  intro e he
  obtain ⟨k, hk, rfl⟩ := List.mem_map.mp he
  have hk2 : k ∈ m.MultiSignInfo.keys := (sortedKeys_perm m).subset hk
  exact hv.2.2 _ (GoMap_get_mem m.MultiSignInfo k hk2)

theorem sortedEntries_keys (m : Btc.MultiSignInfo) :
    GoMap.keys (m.sortedKeys.map (fun k => (k, m.MultiSignInfo.get k))) = m.sortedKeys := by
  simp [GoMap.keys, Function.comp_def]

theorem sortedKeys_length (m : Btc.MultiSignInfo) :
    m.sortedKeys.length = m.MultiSignInfo.length := by
  rw [(sortedKeys_perm m).length_eq]
  simp [GoMap.keys]

theorem MultiSignInfo_Deserialization_bytes (this m : Btc.MultiSignInfo) (hv : m.Valid)
    (pre rest : List Byte) :
    MultiSignInfo.Deserialization this (reader pre (m.bytes ++ rest))
      = (⟨m.sortedKeys.map (fun k => (k, m.MultiSignInfo.get k))⟩,
          .ok (reader (pre ++ m.bytes) rest)) := by
  have hlen : m.MultiSignInfo.length % 2 ^ 64 = m.MultiSignInfo.length :=
    Nat.mod_eq_of_lt (by have := hv.2.1; omega)
  have hnd : m.sortedKeys.Nodup := (sortedKeys_perm m).nodup_iff.mpr hv.1
  have hl := MultiSignInfo_Deserialization_loop_bytes
    (m.sortedKeys.map (fun k => (k, m.MultiSignInfo.get k))) (sortedEntries_valid m hv) []
    (pre ++ putLE 8 m.MultiSignInfo.length) rest
  rw [GoMap_foldl_set _ _ (by simpa [sortedEntries_keys] using hnd), sortedEntries_wire,
    List.length_map, sortedKeys_length] at hl
  simp only [MultiSignInfo_bytes_eq, hlen, MultiSignInfo.Deserialization, List.append_assoc,
    NextUint64_reader, hl, List.nil_append]

theorem MultiSignInfo_Deserialization_trunc (this m : Btc.MultiSignInfo) (hv : m.Valid)
    (pre : List Byte) {xs t : List Byte} (h : m.bytes = xs ++ t) (ht : t ≠ []) :
    ∃ msg, MultiSignInfo.Deserialization this (reader pre xs) = (this, .error msg) := by
  have hlen : m.MultiSignInfo.length % 2 ^ 64 = m.MultiSignInfo.length :=
    Nat.mod_eq_of_lt (by have := hv.2.1; omega)
  rw [MultiSignInfo_bytes_eq, hlen] at h
  rcases split_append h.symm with ⟨t1, ht1, e1⟩ | ⟨x1, rfl, ha⟩
  · simp only [MultiSignInfo.Deserialization, NextUint64_trunc pre e1 ht1]
    exact ⟨_, rfl⟩
  · rw [← sortedEntries_wire] at ha
    obtain ⟨msg, hm⟩ := MultiSignInfo_Deserialization_loop_trunc
      (m.sortedKeys.map (fun k => (k, m.MultiSignInfo.get k))) (sortedEntries_valid m hv) []
      (pre ++ putLE 8 m.MultiSignInfo.length) ha.symm ht
    rw [List.length_map, sortedKeys_length] at hm
    simp only [MultiSignInfo.Deserialization, NextUint64_reader, hlen, hm]
    exact ⟨_, rfl⟩

/-! ## Round trips -/

theorem reader_nil (bs : List Byte) : reader bs [] = ⟨bs, bs.length⟩ := by
  simp [reader]

/-- C1: for every `Args` value in the range of its Go type, decoding the bytes
written by `Args.Serialization` succeeds (no error, the whole input read) and
the receiver equals the original on every field; a negative fee is returned
as the same negative number. -/
theorem C1_Args_roundtrip (this a : Args) (ha : a.Valid) :
    Args.Deserialization this (NewZeroCopySource (a.Serialization NewZeroCopySink).buf)
      = (a, .ok ⟨(a.Serialization NewZeroCopySink).buf,
          (a.Serialization NewZeroCopySink).buf.length⟩) := by
  have h := Args_Deserialization_bytes this a ha [] []
  simp only [List.append_nil, List.nil_append, reader_nil] at h
  exact h

theorem C1_Args_roundtrip_witness :
    Args.Valid ⟨7, -42, [1, 2, 3], [9]⟩ ∧
    (Args.Deserialization ⟨0, 0, [], []⟩ (NewZeroCopySource
      ((⟨7, -42, [1, 2, 3], [9]⟩ : Args).Serialization NewZeroCopySink).buf)).1.Fee = -42 := by
  have hv : Args.Valid ⟨7, -42, [1, 2, 3], [9]⟩ := by
    simp [Args.Valid, ValidBytes]
  exact ⟨hv, by rw [C1_Args_roundtrip ⟨0, 0, [], []⟩ ⟨7, -42, [1, 2, 3], [9]⟩ hv]⟩

/-- C2: for every `MultiSignInfo` value of Go, decoding the bytes written by
`MultiSignInfo.Serialization` succeeds and yields a map with distinct keys, the
same key set, and every key bound to the same list of byte strings in the same
order. -/
theorem C2_MultiSignInfo_roundtrip (this m : Btc.MultiSignInfo) (hm : m.Valid) :
    ∃ m' source,
      MultiSignInfo.Deserialization this
          (NewZeroCopySource (m.Serialization NewZeroCopySink).buf) = (m', .ok source) ∧
      m'.MultiSignInfo.keys.Nodup ∧
      (∀ k, k ∈ m'.MultiSignInfo.keys ↔ k ∈ m.MultiSignInfo.keys) ∧
      (∀ k, m'.MultiSignInfo.find? k = m.MultiSignInfo.find? k) ∧
      (∀ k ∈ m.MultiSignInfo.keys, m'.MultiSignInfo.get k = m.MultiSignInfo.get k) := by
  have h := MultiSignInfo_Deserialization_bytes this m hm [] []
  simp only [List.append_nil, List.nil_append] at h
  have hfind : ∀ k, GoMap.find? (m.sortedKeys.map (fun k => (k, m.MultiSignInfo.get k))) k
      = m.MultiSignInfo.find? k := by
    intro k
    rw [GoMap_find_map, GoMap_find_eq]
    by_cases hk : k ∈ m.MultiSignInfo.keys
    · simp [hk, (sortedKeys_perm m).mem_iff.mpr hk]
    · simp [hk, mt (sortedKeys_perm m).mem_iff.mp hk]
  refine ⟨_, _, h, ?_, ?_, hfind, ?_⟩
  · rw [sortedEntries_keys]
    exact (sortedKeys_perm m).nodup_iff.mpr hm.1
  · intro k
    rw [sortedEntries_keys]
    exact (sortedKeys_perm m).mem_iff
  · intro k _
    exact congrArg (fun o : Option (List (List Byte)) => o.getD []) (hfind k)

theorem C2_MultiSignInfo_roundtrip_witness :
    ∃ m' source,
      MultiSignInfo.Deserialization ⟨[]⟩ (NewZeroCopySource
          ((⟨[([0x62], [[1], [2, 3]]), ([0x61], [[]]), ([0x63], [])]⟩ :
            Btc.MultiSignInfo).Serialization NewZeroCopySink).buf) = (m', .ok source) ∧
      m'.MultiSignInfo.get [0x62] = [[1], [2, 3]] := by
  have hv : MultiSignInfo.Valid ⟨[([0x62], [[1], [2, 3]]), ([0x61], [[]]), ([0x63], [])]⟩ := by
    refine ⟨by decide, by simp, ?_⟩
    simp [ValidBytes]
  obtain ⟨m', source, h1, _, _, _, h5⟩ := C2_MultiSignInfo_roundtrip ⟨[]⟩ _ hv
  refine ⟨m', source, h1, ?_⟩
  rw [h5 [0x62] (by decide)]
  decide

/-- C3: for every `Utxos` value of Go whose elements all have a non-nil
outpoint, `Serialization` writes without fault, decoding what it wrote
succeeds, and the decoded collection has the same length with, at every index,
the same outpoint, `AtHeight`, `Value` and `ScriptPubkey`. -/
theorem C3_Utxos_roundtrip (this v : Btc.Utxos) (hv : v.Valid)
    (hop : ∀ u ∈ v.Utxos, u.Op ≠ none) :
    ∃ sink us source,
      v.Serialization NewZeroCopySink = some sink ∧
      Utxos.Deserialization this (NewZeroCopySource sink.buf) = (⟨us⟩, .ok source) ∧
      us.length = v.Utxos.length ∧
      ∀ (i : Nat) (u : Utxo), v.Utxos[i]? = some u →
        ∃ u', us[i]? = some u' ∧ u'.Op = u.Op ∧ u'.AtHeight = u.AtHeight ∧
          u'.Value = u.Value ∧ u'.ScriptPubkey = u.ScriptPubkey := by
  have hb := Utxos_bytes_eq v hop
  cases hs : v.Serialization NewZeroCopySink with
  | none => simp [Utxos.bytes, hs] at hb
  | some sink =>
    have hb2 : v.bytes = some sink.buf := by simp [Utxos.bytes, hs]
    have h := Utxos_Deserialization_bytes this v hv hop [] [] sink.buf hb2
    simp only [List.append_nil, List.nil_append] at h
    refine ⟨sink, _, _, rfl, h, by simp, ?_⟩
    intro i u hi
    refine ⟨u.saved, ?_, rfl, rfl, rfl, rfl⟩
    simp [List.getElem?_map, hi]

theorem C3_Utxos_roundtrip_witness :
    ∃ sink us source,
      (⟨[⟨some ⟨[1, 2], 3⟩, 5, 1000, [7], 4⟩, ⟨some ⟨[], 0⟩, 0, 1, [], 9⟩]⟩ :
        Btc.Utxos).Serialization NewZeroCopySink = some sink ∧
      Utxos.Deserialization ⟨[]⟩ (NewZeroCopySource sink.buf) = (⟨us⟩, .ok source) ∧
      us.length = 2 := by
  have hv : Utxos.Valid ⟨[⟨some ⟨[1, 2], 3⟩, 5, 1000, [7], 4⟩, ⟨some ⟨[], 0⟩, 0, 1, [], 9⟩]⟩ := by
    simp [Utxos.Valid, Utxo.Valid, OutPoint.Valid, ValidBytes]
  obtain ⟨sink, us, source, h1, h2, h3, _⟩ := C3_Utxos_roundtrip ⟨[]⟩ _ hv (by simp)
  exact ⟨sink, us, source, h1, h2, h3⟩

/-- C4: for `OutPoint`, `Utxo` (with a non-nil outpoint), `BtcProof` and
`BtcFromInfo`, decoding the bytes written by `Serialization` succeeds and
returns the original on every wire field; a `Utxo` decoded into a fresh record
has `Confs = 0` whatever the original's confirmations. -/
theorem C4_records_roundtrip :
    (∀ this v : OutPoint, v.Valid →
      OutPoint.Deserialization this (NewZeroCopySource (v.Serialization NewZeroCopySink).buf)
        = (v, .ok ⟨(v.Serialization NewZeroCopySink).buf,
            (v.Serialization NewZeroCopySink).buf.length⟩)) ∧
    (∀ (u : Utxo) (op : OutPoint), u.Op = some op → u.Valid →
      ∃ sink, u.Serialization NewZeroCopySink = some sink ∧
        Utxo.Deserialization Utxo.new (NewZeroCopySource sink.buf)
          = (⟨some op, u.AtHeight, u.Value, u.ScriptPubkey, 0⟩,
              .ok ⟨sink.buf, sink.buf.length⟩)) ∧
    (∀ this v : BtcProof, v.Valid →
      BtcProof.Deserialization this (NewZeroCopySource (v.Serialization NewZeroCopySink).buf)
        = (v, .ok ⟨(v.Serialization NewZeroCopySink).buf,
            (v.Serialization NewZeroCopySink).buf.length⟩)) ∧
    (∀ this v : BtcFromInfo, v.Valid →
      BtcFromInfo.Deserialization this
          (NewZeroCopySource (v.Serialization NewZeroCopySink).buf)
        = (v, .ok ⟨(v.Serialization NewZeroCopySink).buf,
            (v.Serialization NewZeroCopySink).buf.length⟩)) := by
  refine ⟨?_, ?_, ?_, ?_⟩
  · intro this v hv
    have h := OutPoint_Deserialization_bytes this v hv [] []
    simp only [List.append_nil, List.nil_append, reader_nil] at h
    exact h
  · intro u op hop hv
    have hs := Utxo_Serialization_some u op hop NewZeroCopySink
    refine ⟨_, hs, ?_⟩
    have hb := Utxo_bytes_some u op hop
    have h := Utxo_Deserialization_bytes Utxo.new u op hop hv [] [] _ hb
    simp only [List.append_nil, List.nil_append, reader_nil] at h
    simp only [NewZeroCopySink, List.nil_append]
    rw [NewZeroCopySource_eq, h, ← hop]
    rfl
  · intro this v hv
    have h := BtcProof_Deserialization_bytes this v hv [] []
    simp only [List.append_nil, List.nil_append, reader_nil] at h
    exact h
  · intro this v hv
    have h := BtcFromInfo_Deserialization_bytes this v hv [] []
    simp only [List.append_nil, List.nil_append, reader_nil] at h
    exact h

theorem C4_records_roundtrip_witness :
    (OutPoint.Deserialization ⟨[9], 9⟩ (NewZeroCopySource
      ((⟨[1, 2], 3⟩ : OutPoint).Serialization NewZeroCopySink).buf)).1 = ⟨[1, 2], 3⟩ ∧
    (∃ sink, (⟨some ⟨[1, 2], 3⟩, 5, 1000, [7], 4⟩ : Utxo).Serialization NewZeroCopySink
        = some sink ∧
      (Utxo.Deserialization Utxo.new (NewZeroCopySource sink.buf)).1
        = ⟨some ⟨[1, 2], 3⟩, 5, 1000, [7], 0⟩) ∧
    (BtcProof.Deserialization ⟨[], [], 0, 0⟩ (NewZeroCopySource
      ((⟨[1], [2, 3], 700000, 6⟩ : BtcProof).Serialization NewZeroCopySink).buf)).1
        = ⟨[1], [2, 3], 700000, 6⟩ ∧
    (BtcFromInfo.Deserialization ⟨[], 0⟩ (NewZeroCopySource
      ((⟨[0xAB], 2⟩ : BtcFromInfo).Serialization NewZeroCopySink).buf)).1 = ⟨[0xAB], 2⟩ := by
  refine ⟨?_, ?_, ?_, ?_⟩
  · rw [C4_records_roundtrip.1 ⟨[9], 9⟩ ⟨[1, 2], 3⟩ (by simp [OutPoint.Valid, ValidBytes])]
  · obtain ⟨sink, h1, h2⟩ := C4_records_roundtrip.2.1 ⟨some ⟨[1, 2], 3⟩, 5, 1000, [7], 4⟩
      ⟨[1, 2], 3⟩ rfl (by simp [Utxo.Valid, OutPoint.Valid, ValidBytes])
    exact ⟨sink, h1, by rw [h2]⟩
  · rw [C4_records_roundtrip.2.2.1 ⟨[], [], 0, 0⟩ ⟨[1], [2, 3], 700000, 6⟩
      (by simp [BtcProof.Valid, ValidBytes])]
  · rw [C4_records_roundtrip.2.2.2 ⟨[], 0⟩ ⟨[0xAB], 2⟩ (by simp [BtcFromInfo.Valid, ValidBytes])]

/-! ## Determinism of `MultiSignInfo.Serialization` -/

/-- C5: two enumerations of the same entries with distinct keys, one a
permutation of the other, are written as the same bytes. -/
theorem C5_MultiSignInfo_order_independent (m1 m2 : Btc.MultiSignInfo)
    (hp : m1.MultiSignInfo.Perm m2.MultiSignInfo) (hn : m1.MultiSignInfo.keys.Nodup)
    (sink : ZeroCopySink) :
    m1.Serialization sink = m2.Serialization sink := by
  have hget : ∀ k, m1.MultiSignInfo.get k = m2.MultiSignInfo.get k := by
    intro k
    exact congrArg (fun o : Option (List (List Byte)) => o.getD [])
      (GoMap_find_perm _ _ hp hn k)
  have hb : (m1.Serialization sink).buf = (m2.Serialization sink).buf := by
    rw [MultiSignInfo_Serialization_buf, MultiSignInfo_Serialization_buf,
      sortedKeys_eq_of_perm m1 m2 hp, hp.length_eq]
    simp only [hget]
  cases h1 : m1.Serialization sink
  cases h2 : m2.Serialization sink
  rw [h1, h2] at hb
  exact congrArg ZeroCopySink.mk hb

theorem C5_MultiSignInfo_order_independent_witness :
    (⟨[([0x62], [[1]]), ([0x61], [[2]]), ([0x63], [[3]])]⟩ :
        Btc.MultiSignInfo).Serialization NewZeroCopySink
      = (⟨[([0x63], [[3]]), ([0x62], [[1]]), ([0x61], [[2]])]⟩ :
        Btc.MultiSignInfo).Serialization NewZeroCopySink :=
  C5_MultiSignInfo_order_independent _ _
    (by decide) (by decide) NewZeroCopySink

/-- C6: `MultiSignInfo.Serialization` appends the 8-byte little-endian entry
count and then, for each key taken in strictly descending byte-wise order, the
key as a length-prefixed string, the 8-byte count of its list and every byte
string of the list as var-bytes in list order; the map with keys `b`, `a`, `c`
is written with its keys in the order `c`, `b`, `a`. -/
theorem C6_MultiSignInfo_layout :
    (∀ (m : Btc.MultiSignInfo) (sink : ZeroCopySink), m.MultiSignInfo.keys.Nodup →
      ∃ ks : List (List Byte),
        ks.Perm m.MultiSignInfo.keys ∧
        ks.Pairwise (fun a b => strLess b a = true) ∧
        (m.Serialization sink).buf =
          sink.buf ++ (putLE 8 (m.MultiSignInfo.length % 2 ^ 64) ++
            ks.flatMap (fun k =>
              (NewZeroCopySink.WriteString k).buf ++
                (putLE 8 ((m.MultiSignInfo.get k).length % 2 ^ 64) ++
                  (m.MultiSignInfo.get k).flatMap
                    (fun b => (NewZeroCopySink.WriteVarBytes b).buf))))) ∧
    ((⟨[([0x62], [[0x01]]), ([0x61], [[0x02]]), ([0x63], [[0x03]])]⟩ :
        Btc.MultiSignInfo).Serialization NewZeroCopySink).buf
      = [3, 0, 0, 0, 0, 0, 0, 0,
         1, 0x63, 1, 0, 0, 0, 0, 0, 0, 0, 1, 0x03,
         1, 0x62, 1, 0, 0, 0, 0, 0, 0, 0, 1, 0x01,
         1, 0x61, 1, 0, 0, 0, 0, 0, 0, 0, 1, 0x02] := by
  refine ⟨?_, by decide⟩
  intro m sink hn
  refine ⟨m.sortedKeys, sortedKeys_perm m, sortedKeys_strict m hn, ?_⟩
  rw [MultiSignInfo_Serialization_buf]
  rfl

theorem C6_MultiSignInfo_layout_witness :
    ∃ ks : List (List Byte),
      ks.Perm [[0x62], [0x61], [0x63]] ∧
      ks.Pairwise (fun a b => strLess b a = true) ∧
      ((⟨[([0x62], [[0x01]]), ([0x61], [[0x02]]), ([0x63], [[0x03]])]⟩ :
        Btc.MultiSignInfo).Serialization NewZeroCopySink).buf =
        [] ++ (putLE 8 (3 % 2 ^ 64) ++ ks.flatMap (fun k =>
          (NewZeroCopySink.WriteString k).buf ++
            (putLE 8 ((GoMap.get [([0x62], [[0x01]]), ([0x61], [[0x02]]), ([0x63], [[0x03]])]
                k).length % 2 ^ 64) ++
              (GoMap.get [([0x62], [[0x01]]), ([0x61], [[0x02]]), ([0x63], [[0x03]])]
                k).flatMap (fun b => (NewZeroCopySink.WriteVarBytes b).buf)))) :=
  C6_MultiSignInfo_layout.1
    ⟨[([0x62], [[0x01]]), ([0x61], [[0x02]]), ([0x63], [[0x03]])]⟩ NewZeroCopySink
    (by decide)

/-! ## Rejection of truncated input -/

theorem take_split (bs : List Byte) (k : Nat) (hk : k < bs.length) :
    bs = bs.take k ++ bs.drop k ∧ bs.drop k ≠ [] := by
  refine ⟨(List.take_append_drop k bs).symm, ?_⟩
  intro h
  have := congrArg List.length h
  simp only [List.length_drop, List.length_nil] at this
  omega

/-- C7: for `OutPoint`, `Utxo` (with a non-nil outpoint), `BtcProof`, `Args`
and `BtcFromInfo`, `Deserialization` of the first `k` bytes of the bytes
written by `Serialization`, `k` smaller than their length, returns an error. -/
theorem C7_truncation_fixed_layout :
    (∀ (this v : OutPoint) (k : Nat), v.Valid →
      k < (v.Serialization NewZeroCopySink).buf.length →
      ∃ msg, (OutPoint.Deserialization this
        (NewZeroCopySource ((v.Serialization NewZeroCopySink).buf.take k))).2 = .error msg) ∧
    (∀ (this u : Utxo) (sink : ZeroCopySink) (k : Nat), u.Valid →
      u.Serialization NewZeroCopySink = some sink → k < sink.buf.length →
      ∃ msg, (Utxo.Deserialization this
        (NewZeroCopySource (sink.buf.take k))).2 = .error msg) ∧
    (∀ (this v : BtcProof) (k : Nat), v.Valid →
      k < (v.Serialization NewZeroCopySink).buf.length →
      ∃ msg, (BtcProof.Deserialization this
        (NewZeroCopySource ((v.Serialization NewZeroCopySink).buf.take k))).2 = .error msg) ∧
    (∀ (this v : Args) (k : Nat), v.Valid →
      k < (v.Serialization NewZeroCopySink).buf.length →
      ∃ msg, (Args.Deserialization this
        (NewZeroCopySource ((v.Serialization NewZeroCopySink).buf.take k))).2 = .error msg) ∧
    (∀ (this v : BtcFromInfo) (k : Nat), v.Valid →
      k < (v.Serialization NewZeroCopySink).buf.length →
      ∃ msg, (BtcFromInfo.Deserialization this
        (NewZeroCopySource ((v.Serialization NewZeroCopySink).buf.take k))).2 = .error msg) := by
  refine ⟨?_, ?_, ?_, ?_, ?_⟩
  · intro this v k hv hk
    obtain ⟨h1, h2⟩ := take_split _ k hk
    obtain ⟨msg, hm⟩ := OutPoint_Deserialization_trunc this v hv [] h1 h2
    exact ⟨msg, by rw [NewZeroCopySource_eq, hm]⟩
  · intro this u sink k hv hs hk
    obtain ⟨h1, h2⟩ := take_split _ k hk
    have hb : u.bytes = some sink.buf := by simp [Utxo.bytes, hs]
    obtain ⟨msg, hm⟩ := Utxo_Deserialization_trunc this u hv [] hb h1 h2
    exact ⟨msg, by rw [NewZeroCopySource_eq, hm]⟩
  · intro this v k hv hk
    obtain ⟨h1, h2⟩ := take_split _ k hk
    obtain ⟨msg, hm⟩ := BtcProof_Deserialization_trunc this v hv [] h1 h2
    exact ⟨msg, by rw [NewZeroCopySource_eq, hm]⟩
  · intro this v k hv hk
    obtain ⟨h1, h2⟩ := take_split _ k hk
    obtain ⟨msg, hm⟩ := Args_Deserialization_trunc this v hv [] h1 h2
    exact ⟨msg, by rw [NewZeroCopySource_eq, hm]⟩
  · intro this v k hv hk
    obtain ⟨h1, h2⟩ := take_split _ k hk
    obtain ⟨msg, hm⟩ := BtcFromInfo_Deserialization_trunc this v hv [] h1 h2
    exact ⟨msg, by rw [NewZeroCopySource_eq, hm]⟩

theorem C7_truncation_fixed_layout_witness :
    (∃ msg, (OutPoint.Deserialization ⟨[], 0⟩ (NewZeroCopySource
      (((⟨[1, 2], 3⟩ : OutPoint).Serialization NewZeroCopySink).buf.take 6))).2
        = .error msg) ∧
    (∃ msg, (Args.Deserialization ⟨0, 0, [], []⟩ (NewZeroCopySource
      (((⟨7, -42, [1, 2, 3], [9]⟩ : Args).Serialization NewZeroCopySink).buf.take 21))).2
        = .error msg) :=
  ⟨C7_truncation_fixed_layout.1 ⟨[], 0⟩ ⟨[1, 2], 3⟩ 6
      (by simp [OutPoint.Valid, ValidBytes]) (by decide),
    C7_truncation_fixed_layout.2.2.2.1 ⟨0, 0, [], []⟩ ⟨7, -42, [1, 2, 3], [9]⟩ 21
      (by simp [Args.Valid, ValidBytes]) (by decide)⟩

/-- C8: for `Utxos` (every element with a non-nil outpoint) and
`MultiSignInfo`, with any number of elements or entries, `Deserialization` of
the first `k` bytes of the bytes written by `Serialization`, `k` smaller than
their length, returns an error. -/
theorem C8_truncation_counted :
    (∀ (this v : Btc.Utxos) (sink : ZeroCopySink) (k : Nat), v.Valid →
      v.Serialization NewZeroCopySink = some sink → k < sink.buf.length →
      ∃ msg, (Utxos.Deserialization this
        (NewZeroCopySource (sink.buf.take k))).2 = .error msg) ∧
    (∀ (this m : Btc.MultiSignInfo) (k : Nat), m.Valid →
      k < (m.Serialization NewZeroCopySink).buf.length →
      ∃ msg, (MultiSignInfo.Deserialization this
        (NewZeroCopySource ((m.Serialization NewZeroCopySink).buf.take k))).2
          = .error msg) := by
  refine ⟨?_, ?_⟩
  · intro this v sink k hv hs hk
    obtain ⟨h1, h2⟩ := take_split _ k hk
    have hb : v.bytes = some sink.buf := by simp [Utxos.bytes, hs]
    have hop : ∀ u ∈ v.Utxos, u.Op ≠ none := by
      intro u hu hnone
      have : ∀ (us : List Utxo) (s : ZeroCopySink), u ∈ us →
          Utxos.Serialization.loop us s = none := by
        intro us
        induction us with
        | nil => intro s h; cases h
        | cons a us ih =>
          intro s h
          rcases List.mem_cons.mp h with rfl | h
          · simp [Utxos.Serialization.loop, Utxo_Serialization_none u hnone]
          · simp only [Utxos.Serialization.loop]
            cases a.Serialization s with
            | none => rfl
            | some s' => exact ih s' h
      have hn := this v.Utxos (NewZeroCopySink.WriteUint64 v.Utxos.length) hu
      simp only [Utxos.Serialization] at hs
      rw [hn] at hs
      cases hs
    obtain ⟨msg, hm⟩ := Utxos_Deserialization_trunc this v hv hop [] hb h1 h2
    exact ⟨msg, by rw [NewZeroCopySource_eq, hm]⟩
  · intro this m k hv hk
    obtain ⟨h1, h2⟩ := take_split _ k hk
    obtain ⟨msg, hm⟩ := MultiSignInfo_Deserialization_trunc this m hv [] h1 h2
    exact ⟨msg, by rw [NewZeroCopySource_eq, hm]⟩

theorem C8_truncation_counted_witness :
    (∃ msg, (Utxos.Deserialization ⟨[]⟩ (NewZeroCopySource
      (List.take 7 ([0, 0, 0, 0, 0, 0, 0, 0] : List Byte)))).2 = .error msg) ∧
    (∃ msg, (MultiSignInfo.Deserialization ⟨[]⟩ (NewZeroCopySource
      (((⟨[([0x62], [[1]]), ([0x61], [[2]])]⟩ : Btc.MultiSignInfo).Serialization
        NewZeroCopySink).buf.take 23))).2 = .error msg) :=
  ⟨C8_truncation_counted.1 ⟨[]⟩ ⟨[]⟩ ⟨[0, 0, 0, 0, 0, 0, 0, 0]⟩ 7
      (by simp [Utxos.Valid]) (by decide) (by decide),
    C8_truncation_counted.2 ⟨[]⟩ ⟨[([0x62], [[1]]), ([0x61], [[2]])]⟩ 23
      (⟨by decide, by simp, by simp [ValidBytes]⟩) (by decide)⟩

/-! ## The comparator of `Utxos` -/

theorem toInt64_of_lt (x : Nat) (h : x < 2 ^ 63) : toInt64 x = (x : Int) := by
  unfold toInt64
  have hm : x % 2 ^ 64 = x := Nat.mod_eq_of_lt (by omega)
  rw [hm, if_pos h]

theorem uint32ToInt64_of_lt (x : Nat) (h : x < 2 ^ 32) : uint32ToInt64 x = (x : Int) := by
  unfold uint32ToInt64
  rw [Nat.mod_eq_of_lt h]

theorem Utxos_Less_below (this : Btc.Utxos) (i j : Nat) (ui uj : Utxo)
    (hi : this.Utxos[i]? = some ui) (hj : this.Utxos[j]? = some uj)
    (hvi : ui.Value < 2 ^ 63) (hvj : uj.Value < 2 ^ 63)
    (hci : ui.Confs < 2 ^ 32) (hcj : uj.Confs < 2 ^ 32) :
    this.Less i j = some (decide (ui.Value * ui.Confs < uj.Value * uj.Confs)) := by
  simp only [Utxos.Less, hi, hj, toInt64_of_lt _ hvi, toInt64_of_lt _ hvj,
    uint32ToInt64_of_lt _ hci, uint32ToInt64_of_lt _ hcj, Option.some.injEq]
  congr 1
  apply propext
  rw [← Nat.cast_mul, ← Nat.cast_mul, Nat.cast_lt]

theorem Utxos_Less_ties_example :
    ∀ i j : Fin 3,
      Utxos.Less ⟨[⟨some ⟨[], 0⟩, 0, 10, [], 3⟩, ⟨some ⟨[], 0⟩, 0, 6, [], 5⟩,
        ⟨some ⟨[], 0⟩, 0, 10, [], 3⟩]⟩ i.val j.val = some false := by
  decide

/-- C9: `Utxos.Less` is not the comparison of the products `Value * Confs` over
the whole unsigned 64-bit range. With `Value = 2 ^ 63, Confs = 1` at index 0
and `Value = 1, Confs = 1` at index 1, `Less(0, 1)` is true although
`2 ^ 63 * 1 < 1 * 1` is false: `int64(Value)` reads `2 ^ 63` as `-2 ^ 63`. -/
theorem C9_Less_wraps_large_value :
    Utxos.Less ⟨[⟨some ⟨[], 0⟩, 0, 2 ^ 63, [], 1⟩, ⟨some ⟨[], 0⟩, 0, 1, [], 1⟩]⟩ 0 1
      = some true ∧
    ¬ ((2 ^ 63 : Nat) * 1 < 1 * 1) ∧
    Utxo.Valid ⟨some ⟨[], 0⟩, 0, 2 ^ 63, [], 1⟩ := by
  refine ⟨by decide, by decide, ?_⟩
  simp [Utxo.Valid, OutPoint.Valid, ValidBytes]

/-- C10: two entries of equal weight `Value * Confs` can be ordered by
`Utxos.Less`. With `Value = 2 ^ 63, Confs = 1` at index 0 and
`Value = 2 ^ 62, Confs = 2` at index 1 both weights are `2 ^ 63`, yet
`Less(0, 1)` is true: `int64(Value)` reads `2 ^ 63` as `-2 ^ 63`. -/
theorem C10_Less_orders_equal_weights :
    Utxos.Less ⟨[⟨some ⟨[], 0⟩, 0, 2 ^ 63, [], 1⟩, ⟨some ⟨[], 0⟩, 0, 2 ^ 62, [], 2⟩]⟩ 0 1
      = some true ∧
    (2 ^ 63 : Nat) * 1 = 2 ^ 62 * 2 ∧
    Utxo.Valid ⟨some ⟨[], 0⟩, 0, 2 ^ 63, [], 1⟩ ∧
    Utxo.Valid ⟨some ⟨[], 0⟩, 0, 2 ^ 62, [], 2⟩ := by
  refine ⟨by decide, by decide, ?_, ?_⟩ <;>
    simp [Utxo.Valid, OutPoint.Valid, ValidBytes]

/-! ## The confirmations are not written -/

/-- C11: `Utxo.Serialization` does not write `Confs`. Two records that agree
on the outpoint, `AtHeight`, `Value` and `ScriptPubkey` are written as the same
bytes, and with a non-nil outpoint what is appended is the `OutPoint` encoding,
the 4-byte little-endian `AtHeight`, the 8-byte little-endian `Value` and the
var-bytes `ScriptPubkey`. -/
theorem C11_Utxo_Serialization_ignores_Confs :
    (∀ (u1 u2 : Utxo) (sink : ZeroCopySink), u1.Op = u2.Op → u1.AtHeight = u2.AtHeight →
      u1.Value = u2.Value → u1.ScriptPubkey = u2.ScriptPubkey →
      u1.Serialization sink = u2.Serialization sink) ∧
    (∀ (u : Utxo) (op : OutPoint) (sink : ZeroCopySink), u.Op = some op →
      u.Serialization sink = some ⟨sink.buf ++ ((op.Serialization NewZeroCopySink).buf ++
        (putLE 4 (u.AtHeight % 2 ^ 32) ++ (putLE 8 (u.Value % 2 ^ 64) ++
          (NewZeroCopySink.WriteVarBytes u.ScriptPubkey).buf)))⟩) := by
  refine ⟨?_, ?_⟩
  · intro u1 u2 sink h1 h2 h3 h4
    simp only [Utxo.Serialization, h1, h2, h3, h4]
  · intro u op sink hop
    exact Utxo_Serialization_some u op hop sink

theorem C11_Utxo_Serialization_ignores_Confs_witness :
    (⟨some ⟨[1, 2], 3⟩, 5, 1000, [7], 4⟩ : Utxo).Serialization NewZeroCopySink
      = (⟨some ⟨[1, 2], 3⟩, 5, 1000, [7], 99⟩ : Utxo).Serialization NewZeroCopySink ∧
    (⟨some ⟨[1, 2], 3⟩, 5, 1000, [7], 4⟩ : Utxo).Serialization NewZeroCopySink
      = some ⟨[2, 1, 2, 3, 0, 0, 0, 5, 0, 0, 0, 0xE8, 0x03, 0, 0, 0, 0, 0, 0, 1, 7]⟩ := by
  refine ⟨C11_Utxo_Serialization_ignores_Confs.1 _ _ _ rfl rfl rfl rfl, ?_⟩
  rw [C11_Utxo_Serialization_ignores_Confs.2 _ ⟨[1, 2], 3⟩ _ rfl]
  decide

/-! ## The empty collection -/

/-- C12: the empty `Utxos` is written as exactly eight zero bytes, and decoding
those eight bytes succeeds with an empty collection and the whole input read. -/
theorem C12_empty_Utxos :
    (⟨[]⟩ : Btc.Utxos).Serialization NewZeroCopySink = some ⟨[0, 0, 0, 0, 0, 0, 0, 0]⟩ ∧
    ∀ this : Btc.Utxos,
      Utxos.Deserialization this (NewZeroCopySource [0, 0, 0, 0, 0, 0, 0, 0])
        = (⟨[]⟩, .ok ⟨[0, 0, 0, 0, 0, 0, 0, 0], 8⟩) := by
  refine ⟨by decide, ?_⟩
  intro this
  have h := Utxos_Deserialization_bytes this ⟨[]⟩ (by simp [Utxos.Valid]) (by simp) [] []
    [0, 0, 0, 0, 0, 0, 0, 0] (by decide)
  simpa [reader_nil] using h

/-! ## Decoding is all-or-nothing -/

theorem Utxos_Deserialization_error (this : Btc.Utxos) (source : ZeroCopySource)
    (msg : String) (h : (Utxos.Deserialization this source).2 = .error msg) :
    (Utxos.Deserialization this source).1 = this := by
  unfold Utxos.Deserialization at h ⊢
  cases h1 : source.NextUint64 with
  | none => simp only [h1]
  | some p =>
    obtain ⟨n, src⟩ := p
    simp only [h1] at h ⊢
    cases h2 : Utxos.Deserialization.loop n [] src with
    | error e => simp only [h2]
    | ok q => simp [h2] at h

theorem MultiSignInfo_Deserialization_error (this : Btc.MultiSignInfo)
    (source : ZeroCopySource) (msg : String)
    (h : (MultiSignInfo.Deserialization this source).2 = .error msg) :
    (MultiSignInfo.Deserialization this source).1 = this := by
  unfold MultiSignInfo.Deserialization at h ⊢
  cases h1 : source.NextUint64 with
  | none => simp only [h1]
  | some p =>
    obtain ⟨n, src⟩ := p
    simp only [h1] at h ⊢
    cases h2 : MultiSignInfo.Deserialization.loop n [] src with
    | error e => simp only [h2]
    | ok q => simp [h2] at h

/-- C13: for each of the seven records, whenever `Deserialization` returns an
error the receiver after the call is the receiver before the call: no field has
been assigned. -/
theorem C13_all_or_nothing :
    (∀ (this : BtcProof) (source : ZeroCopySource) (msg : String),
      (BtcProof.Deserialization this source).2 = .error msg →
      (BtcProof.Deserialization this source).1 = this) ∧
    (∀ (this : Btc.Utxos) (source : ZeroCopySource) (msg : String),
      (Utxos.Deserialization this source).2 = .error msg →
      (Utxos.Deserialization this source).1 = this) ∧
    (∀ (this : Utxo) (source : ZeroCopySource) (msg : String),
      (Utxo.Deserialization this source).2 = .error msg →
      (Utxo.Deserialization this source).1 = this) ∧
    (∀ (this : OutPoint) (source : ZeroCopySource) (msg : String),
      (OutPoint.Deserialization this source).2 = .error msg →
      (OutPoint.Deserialization this source).1 = this) ∧
    (∀ (this : Btc.MultiSignInfo) (source : ZeroCopySource) (msg : String),
      (MultiSignInfo.Deserialization this source).2 = .error msg →
      (MultiSignInfo.Deserialization this source).1 = this) ∧
    (∀ (this : Args) (source : ZeroCopySource) (msg : String),
      (Args.Deserialization this source).2 = .error msg →
      (Args.Deserialization this source).1 = this) ∧
    (∀ (this : BtcFromInfo) (source : ZeroCopySource) (msg : String),
      (BtcFromInfo.Deserialization this source).2 = .error msg →
      (BtcFromInfo.Deserialization this source).1 = this) := by
  refine ⟨?_, Utxos_Deserialization_error, ?_, ?_, MultiSignInfo_Deserialization_error,
    ?_, ?_⟩
  · intro this source msg h
    unfold BtcProof.Deserialization at h ⊢
    repeat' split
    all_goals first | rfl | (simp_all)
  · intro this source msg h
    unfold Utxo.Deserialization at h ⊢
    repeat' split
    all_goals first | rfl | (simp_all)
  · intro this source msg h
    unfold OutPoint.Deserialization at h ⊢
    repeat' split
    all_goals first | rfl | (simp_all)
  · intro this source msg h
    unfold Args.Deserialization at h ⊢
    repeat' split
    all_goals first | rfl | (simp_all)
  · intro this source msg h
    unfold BtcFromInfo.Deserialization at h ⊢
    repeat' split
    all_goals first | rfl | (simp_all)

theorem C13_all_or_nothing_witness :
    (Utxo.Deserialization ⟨some ⟨[9], 9⟩, 1, 2, [3], 4⟩
        (NewZeroCopySource [2, 1, 2, 3, 0, 0, 0, 5, 0, 0, 0, 0xE8])).2
      = .error "OutPoint deserialize value error" ∧
    (Utxo.Deserialization ⟨some ⟨[9], 9⟩, 1, 2, [3], 4⟩
        (NewZeroCopySource [2, 1, 2, 3, 0, 0, 0, 5, 0, 0, 0, 0xE8])).1
      = ⟨some ⟨[9], 9⟩, 1, 2, [3], 4⟩ :=
  ⟨rfl, C13_all_or_nothing.2.2.1 _ _ "OutPoint deserialize value error" rfl⟩

/-! ## Decoding any input -/

theorem Advanced_trans {a b c : ZeroCopySource} (h1 : Advanced a b) (h2 : Advanced b c) :
    Advanced a c := by
  obtain ⟨e1, l1, _⟩ := h1
  obtain ⟨e2, l2, b2⟩ := h2
  exact ⟨e2.trans e1, le_trans l1 l2, b2⟩

theorem NextBytes_advanced {source source' : ZeroCopySource} {n : Nat} {data : List Byte}
    (h : source.NextBytes n = some (data, source')) :
    Advanced source source' ∧ source'.off = source.off + n := by
  unfold ZeroCopySource.NextBytes at h
  split at h
  · rename_i hle
    simp only [Option.some.injEq, Prod.mk.injEq] at h
    obtain ⟨_, rfl⟩ := h
    exact ⟨⟨rfl, Nat.le_add_right _ _, hle⟩, rfl⟩
  · cases h

theorem NextByte_advanced {source source' : ZeroCopySource} {b : Byte}
    (h : source.NextByte = some (b, source')) :
    Advanced source source' ∧ source.off < source'.off := by
  unfold ZeroCopySource.NextByte at h
  cases h1 : source.NextBytes 1 with
  | none => simp [h1] at h
  | some p =>
    obtain ⟨data, src⟩ := p
    obtain ⟨ha, ho⟩ := NextBytes_advanced h1
    rw [h1] at h
    split at h
    · rename_i heq
      simp only [Option.some.injEq, Prod.mk.injEq] at heq h
      obtain ⟨_, rfl⟩ := heq
      obtain ⟨_, rfl⟩ := h
      exact ⟨ha, by omega⟩
    · cases h

theorem NextUint16_advanced {source source' : ZeroCopySource} {v : Nat}
    (h : source.NextUint16 = some (v, source')) :
    Advanced source source' ∧ source.off < source'.off := by
  unfold ZeroCopySource.NextUint16 at h
  cases h1 : source.NextBytes 2 with
  | none => simp [h1] at h
  | some p =>
    obtain ⟨data, src⟩ := p
    obtain ⟨ha, ho⟩ := NextBytes_advanced h1
    simp only [h1, Option.some.injEq, Prod.mk.injEq] at h
    obtain ⟨_, rfl⟩ := h
    exact ⟨ha, by omega⟩

theorem NextUint32_advanced {source source' : ZeroCopySource} {v : Nat}
    (h : source.NextUint32 = some (v, source')) :
    Advanced source source' ∧ source.off < source'.off := by
  unfold ZeroCopySource.NextUint32 at h
  cases h1 : source.NextBytes 4 with
  | none => simp [h1] at h
  | some p =>
    obtain ⟨data, src⟩ := p
    obtain ⟨ha, ho⟩ := NextBytes_advanced h1
    simp only [h1, Option.some.injEq, Prod.mk.injEq] at h
    obtain ⟨_, rfl⟩ := h
    exact ⟨ha, by omega⟩

theorem NextUint64_advanced {source source' : ZeroCopySource} {v : Nat}
    (h : source.NextUint64 = some (v, source')) :
    Advanced source source' ∧ source.off < source'.off := by
  unfold ZeroCopySource.NextUint64 at h
  cases h1 : source.NextBytes 8 with
  | none => simp [h1] at h
  | some p =>
    obtain ⟨data, src⟩ := p
    obtain ⟨ha, ho⟩ := NextBytes_advanced h1
    simp only [h1, Option.some.injEq, Prod.mk.injEq] at h
    obtain ⟨_, rfl⟩ := h
    exact ⟨ha, by omega⟩

theorem NextInt64_advanced {source source' : ZeroCopySource} {v : Int}
    (h : source.NextInt64 = some (v, source')) :
    Advanced source source' ∧ source.off < source'.off := by
  unfold ZeroCopySource.NextInt64 at h
  cases h1 : source.NextUint64 with
  | none => simp [h1] at h
  | some p =>
    obtain ⟨data, src⟩ := p
    simp only [h1, Option.some.injEq, Prod.mk.injEq] at h
    obtain ⟨_, rfl⟩ := h
    exact NextUint64_advanced h1

theorem NextVarUint_advanced {source source' : ZeroCopySource} {v : Nat}
    (h : source.NextVarUint = some (v, source')) :
    Advanced source source' ∧ source.off < source'.off := by
  unfold ZeroCopySource.NextVarUint at h
  cases h1 : source.NextByte with
  | none => simp [h1] at h
  | some p =>
    obtain ⟨fb, src⟩ := p
    obtain ⟨ha, ho⟩ := NextByte_advanced h1
    simp only [h1] at h
    split_ifs at h
    · obtain ⟨hb, hb2⟩ := NextUint16_advanced h
      exact ⟨Advanced_trans ha hb, by omega⟩
    · obtain ⟨hb, hb2⟩ := NextUint32_advanced h
      exact ⟨Advanced_trans ha hb, by omega⟩
    · obtain ⟨hb, hb2⟩ := NextUint64_advanced h
      exact ⟨Advanced_trans ha hb, by omega⟩
    · simp only [Option.some.injEq, Prod.mk.injEq] at h
      obtain ⟨_, rfl⟩ := h
      exact ⟨ha, ho⟩

theorem NextVarBytes_advanced {source source' : ZeroCopySource} {v : List Byte}
    (h : source.NextVarBytes = some (v, source')) :
    Advanced source source' ∧ source.off < source'.off := by
  unfold ZeroCopySource.NextVarBytes at h
  cases h1 : source.NextVarUint with
  | none => simp [h1] at h
  | some p =>
    obtain ⟨count, src⟩ := p
    obtain ⟨ha, ho⟩ := NextVarUint_advanced h1
    simp only [h1] at h
    obtain ⟨hb, hb2⟩ := NextBytes_advanced h
    exact ⟨Advanced_trans ha hb, by omega⟩

theorem OutPoint_Deserialization_advanced {this r : OutPoint} {source source' : ZeroCopySource}
    (h : OutPoint.Deserialization this source = (r, .ok source')) :
    Advanced source source' ∧ source.off < source'.off := by
  unfold OutPoint.Deserialization at h
  cases h1 : source.NextVarBytes with
  | none => simp [h1] at h
  | some p1 =>
    obtain ⟨v1, s1⟩ := p1
    obtain ⟨a1, o1⟩ := NextVarBytes_advanced h1
    simp only [h1] at h
    cases h2 : s1.NextUint32 with
    | none => simp [h2] at h
    | some p2 =>
      obtain ⟨v2, s2⟩ := p2
      obtain ⟨a2, o2⟩ := NextUint32_advanced h2
      simp only [h2, Prod.mk.injEq, Except.ok.injEq] at h
      obtain ⟨_, rfl⟩ := h
      exact ⟨Advanced_trans a1 a2, by omega⟩

theorem BtcFromInfo_Deserialization_advanced {this r : BtcFromInfo}
    {source source' : ZeroCopySource}
    (h : BtcFromInfo.Deserialization this source = (r, .ok source')) :
    Advanced source source' ∧ source.off < source'.off := by
  unfold BtcFromInfo.Deserialization at h
  cases h1 : source.NextVarBytes with
  | none => simp [h1] at h
  | some p1 =>
    obtain ⟨v1, s1⟩ := p1
    obtain ⟨a1, o1⟩ := NextVarBytes_advanced h1
    simp only [h1] at h
    cases h2 : s1.NextUint64 with
    | none => simp [h2] at h
    | some p2 =>
      obtain ⟨v2, s2⟩ := p2
      obtain ⟨a2, o2⟩ := NextUint64_advanced h2
      simp only [h2, Prod.mk.injEq, Except.ok.injEq] at h
      obtain ⟨_, rfl⟩ := h
      exact ⟨Advanced_trans a1 a2, by omega⟩

theorem BtcProof_Deserialization_advanced {this r : BtcProof}
    {source source' : ZeroCopySource}
    (h : BtcProof.Deserialization this source = (r, .ok source')) :
    Advanced source source' ∧ source.off < source'.off := by
  unfold BtcProof.Deserialization at h
  cases h1 : source.NextVarBytes with
  | none => simp [h1] at h
  | some p1 =>
    obtain ⟨v1, s1⟩ := p1
    obtain ⟨a1, o1⟩ := NextVarBytes_advanced h1
    simp only [h1] at h
    cases h2 : s1.NextVarBytes with
    | none => simp [h2] at h
    | some p2 =>
      obtain ⟨v2, s2⟩ := p2
      obtain ⟨a2, o2⟩ := NextVarBytes_advanced h2
      simp only [h2] at h
      cases h3 : s2.NextUint32 with
      | none => simp [h3] at h
      | some p3 =>
        obtain ⟨v3, s3⟩ := p3
        obtain ⟨a3, o3⟩ := NextUint32_advanced h3
        simp only [h3] at h
        cases h4 : s3.NextUint64 with
        | none => simp [h4] at h
        | some p4 =>
          obtain ⟨v4, s4⟩ := p4
          obtain ⟨a4, o4⟩ := NextUint64_advanced h4
          simp only [h4, Prod.mk.injEq, Except.ok.injEq] at h
          obtain ⟨_, rfl⟩ := h
          exact ⟨Advanced_trans (Advanced_trans (Advanced_trans a1 a2) a3) a4, by omega⟩

theorem Args_Deserialization_advanced {this r : Args} {source source' : ZeroCopySource}
    (h : Args.Deserialization this source = (r, .ok source')) :
    Advanced source source' ∧ source.off < source'.off := by
  unfold Args.Deserialization at h
  cases h1 : source.NextUint64 with
  | none => simp [h1] at h
  | some p1 =>
    obtain ⟨v1, s1⟩ := p1
    obtain ⟨a1, o1⟩ := NextUint64_advanced h1
    simp only [h1] at h
    cases h2 : s1.NextInt64 with
    | none => simp [h2] at h
    | some p2 =>
      obtain ⟨v2, s2⟩ := p2
      obtain ⟨a2, o2⟩ := NextInt64_advanced h2
      simp only [h2] at h
      cases h3 : s2.NextVarBytes with
      | none => simp [h3] at h
      | some p3 =>
        obtain ⟨v3, s3⟩ := p3
        obtain ⟨a3, o3⟩ := NextVarBytes_advanced h3
        simp only [h3] at h
        cases h4 : s3.NextVarBytes with
        | none => simp [h4] at h
        | some p4 =>
          obtain ⟨v4, s4⟩ := p4
          obtain ⟨a4, o4⟩ := NextVarBytes_advanced h4
          simp only [h4, Prod.mk.injEq, Except.ok.injEq] at h
          obtain ⟨_, rfl⟩ := h
          exact ⟨Advanced_trans (Advanced_trans (Advanced_trans a1 a2) a3) a4, by omega⟩

theorem Utxo_Deserialization_advanced {this r : Utxo} {source source' : ZeroCopySource}
    (h : Utxo.Deserialization this source = (r, .ok source')) :
    Advanced source source' ∧ source.off < source'.off := by
  unfold Utxo.Deserialization at h
  cases h1 : OutPoint.Deserialization OutPoint.new source with
  | mk op res =>
    cases res with
    | error e => simp [h1] at h
    | ok s1 =>
      obtain ⟨a1, o1⟩ := OutPoint_Deserialization_advanced h1
      simp only [h1] at h
      cases h2 : s1.NextUint32 with
      | none => simp [h2] at h
      | some p2 =>
        obtain ⟨v2, s2⟩ := p2
        obtain ⟨a2, o2⟩ := NextUint32_advanced h2
        simp only [h2] at h
        cases h3 : s2.NextUint64 with
        | none => simp [h3] at h
        | some p3 =>
          obtain ⟨v3, s3⟩ := p3
          obtain ⟨a3, o3⟩ := NextUint64_advanced h3
          simp only [h3] at h
          cases h4 : s3.NextVarBytes with
          | none => simp [h4] at h
          | some p4 =>
            obtain ⟨v4, s4⟩ := p4
            obtain ⟨a4, o4⟩ := NextVarBytes_advanced h4
            simp only [h4, Prod.mk.injEq, Except.ok.injEq] at h
            obtain ⟨_, rfl⟩ := h
            exact ⟨Advanced_trans (Advanced_trans (Advanced_trans a1 a2) a3) a4, by omega⟩

theorem Utxos_Deserialization_loop_advanced (k : Nat) (acc res : List Utxo)
    (source source' : ZeroCopySource) (hs : source.off ≤ source.s.length)
    (h : Utxos.Deserialization.loop k acc source = .ok (res, source')) :
    Advanced source source' ∧ source.off + k ≤ source'.off := by
  induction k generalizing acc source with
  | zero =>
    simp only [Utxos.Deserialization.loop, Except.ok.injEq, Prod.mk.injEq] at h
    obtain ⟨_, rfl⟩ := h
    exact ⟨⟨rfl, le_refl _, hs⟩, le_refl _⟩
  | succ k ih =>
    simp only [Utxos.Deserialization.loop] at h
    cases h1 : Utxo.Deserialization Utxo.new source with
    | mk u r =>
      cases r with
      | error e => simp [h1] at h
      | ok s1 =>
        obtain ⟨a1, o1⟩ := Utxo_Deserialization_advanced h1
        simp only [h1] at h
        obtain ⟨a2, o2⟩ := ih _ s1 (a1.2.2) h
        exact ⟨Advanced_trans a1 a2, by omega⟩

theorem MultiSignInfo_Deserialization_items_advanced (k : Nat) (acc res : List (List Byte))
    (source source' : ZeroCopySource) (hs : source.off ≤ source.s.length)
    (h : MultiSignInfo.Deserialization.items k acc source = .ok (res, source')) :
    Advanced source source' ∧ source.off + k ≤ source'.off := by
  induction k generalizing acc source with
  | zero =>
    simp only [MultiSignInfo.Deserialization.items, Except.ok.injEq, Prod.mk.injEq] at h
    obtain ⟨_, rfl⟩ := h
    exact ⟨⟨rfl, le_refl _, hs⟩, le_refl _⟩
  | succ k ih =>
    simp only [MultiSignInfo.Deserialization.items] at h
    cases h1 : source.NextVarBytes with
    | none => simp [h1] at h
    | some p =>
      obtain ⟨b, s1⟩ := p
      obtain ⟨a1, o1⟩ := NextVarBytes_advanced h1
      simp only [h1] at h
      obtain ⟨a2, o2⟩ := ih _ s1 (a1.2.2) h
      exact ⟨Advanced_trans a1 a2, by omega⟩

theorem MultiSignInfo_Deserialization_loop_advanced (k : Nat) (acc res : GoMap)
    (source source' : ZeroCopySource) (hs : source.off ≤ source.s.length)
    (h : MultiSignInfo.Deserialization.loop k acc source = .ok (res, source')) :
    Advanced source source' ∧ source.off + k ≤ source'.off := by
  induction k generalizing acc source with
  | zero =>
    simp only [MultiSignInfo.Deserialization.loop, Except.ok.injEq, Prod.mk.injEq] at h
    obtain ⟨_, rfl⟩ := h
    exact ⟨⟨rfl, le_refl _, hs⟩, le_refl _⟩
  | succ k ih =>
    simp only [MultiSignInfo.Deserialization.loop] at h
    cases h1 : source.NextString with
    | none => simp [h1] at h
    | some p1 =>
      obtain ⟨key, s1⟩ := p1
      obtain ⟨a1, o1⟩ := NextVarBytes_advanced (show source.NextVarBytes = _ from h1)
      simp only [h1] at h
      cases h2 : s1.NextUint64 with
      | none => simp [h2] at h
      | some p2 =>
        obtain ⟨m, s2⟩ := p2
        obtain ⟨a2, o2⟩ := NextUint64_advanced h2
        simp only [h2] at h
        cases h3 : MultiSignInfo.Deserialization.items m [] s2 with
        | error e => simp [h3] at h
        | ok p3 =>
          obtain ⟨item, s3⟩ := p3
          obtain ⟨a3, o3⟩ := MultiSignInfo_Deserialization_items_advanced m [] item s2 s3
            a2.2.2 h3
          simp only [h3] at h
          obtain ⟨a4, o4⟩ := ih _ s3 (a3.2.2) h
          exact ⟨Advanced_trans (Advanced_trans (Advanced_trans a1 a2) a3) a4, by omega⟩

theorem Utxos_Deserialization_advanced {this r : Btc.Utxos} {source source' : ZeroCopySource}
    (h : Utxos.Deserialization this source = (r, .ok source')) :
    Advanced source source' ∧ source.off < source'.off := by
  unfold Utxos.Deserialization at h
  cases h1 : source.NextUint64 with
  | none => simp [h1] at h
  | some p1 =>
    obtain ⟨n, s1⟩ := p1
    obtain ⟨a1, o1⟩ := NextUint64_advanced h1
    simp only [h1] at h
    cases h2 : Utxos.Deserialization.loop n [] s1 with
    | error e => simp [h2] at h
    | ok p2 =>
      obtain ⟨us, s2⟩ := p2
      obtain ⟨a2, o2⟩ := Utxos_Deserialization_loop_advanced n [] us s1 s2 a1.2.2 h2
      simp only [h2, Prod.mk.injEq, Except.ok.injEq] at h
      obtain ⟨_, rfl⟩ := h
      exact ⟨Advanced_trans a1 a2, by omega⟩

theorem MultiSignInfo_Deserialization_advanced {this r : Btc.MultiSignInfo}
    {source source' : ZeroCopySource}
    (h : MultiSignInfo.Deserialization this source = (r, .ok source')) :
    Advanced source source' ∧ source.off < source'.off := by
  unfold MultiSignInfo.Deserialization at h
  cases h1 : source.NextUint64 with
  | none => simp [h1] at h
  | some p1 =>
    obtain ⟨n, s1⟩ := p1
    obtain ⟨a1, o1⟩ := NextUint64_advanced h1
    simp only [h1] at h
    cases h2 : MultiSignInfo.Deserialization.loop n [] s1 with
    | error e => simp [h2] at h
    | ok p2 =>
      obtain ⟨us, s2⟩ := p2
      obtain ⟨a2, o2⟩ := MultiSignInfo_Deserialization_loop_advanced n [] us s1 s2 a1.2.2 h2
      simp only [h2, Prod.mk.injEq, Except.ok.injEq] at h
      obtain ⟨_, rfl⟩ := h
      exact ⟨Advanced_trans a1 a2, by omega⟩

theorem Utxos_Deserialization_count_short (this : Btc.Utxos) (n : Nat) (rest : List Byte)
    (hn : n < 2 ^ 64) (hr : rest.length < n) :
    ∃ msg, (Utxos.Deserialization this (NewZeroCopySource (putLE 8 n ++ rest))).2
      = .error msg := by
  cases h : Utxos.Deserialization this (NewZeroCopySource (putLE 8 n ++ rest)) with
  | mk r res =>
    cases res with
    | error e => exact ⟨e, rfl⟩
    | ok s' =>
      exfalso
      rw [NewZeroCopySource_eq] at h
      simp only [Utxos.Deserialization, NextUint64_reader, Nat.mod_eq_of_lt hn] at h
      cases h2 : Utxos.Deserialization.loop n [] (reader (putLE 8 n) rest) with
      | error e => simp [h2] at h
      | ok p =>
        obtain ⟨us, s2⟩ := p
        obtain ⟨a, o⟩ := Utxos_Deserialization_loop_advanced n [] us _ s2
          (by simp [reader]) h2
        have hs := a.1
        have hb := a.2.2
        rw [hs] at hb
        simp only [reader, List.nil_append, List.length_append, length_putLE] at hb o
        omega

theorem MultiSignInfo_Deserialization_count_short (this : Btc.MultiSignInfo) (n : Nat)
    (rest : List Byte) (hn : n < 2 ^ 64) (hr : rest.length < n) :
    ∃ msg, (MultiSignInfo.Deserialization this (NewZeroCopySource (putLE 8 n ++ rest))).2
      = .error msg := by
  cases h : MultiSignInfo.Deserialization this (NewZeroCopySource (putLE 8 n ++ rest)) with
  | mk r res =>
    cases res with
    | error e => exact ⟨e, rfl⟩
    | ok s' =>
      exfalso
      rw [NewZeroCopySource_eq] at h
      simp only [MultiSignInfo.Deserialization, NextUint64_reader, Nat.mod_eq_of_lt hn] at h
      cases h2 : MultiSignInfo.Deserialization.loop n [] (reader (putLE 8 n) rest) with
      | error e => simp [h2] at h
      | ok p =>
        obtain ⟨us, s2⟩ := p
        obtain ⟨a, o⟩ := MultiSignInfo_Deserialization_loop_advanced n [] us _ s2
          (by simp [reader]) h2
        have hs := a.1
        have hb := a.2.2
        rw [hs] at hb
        simp only [reader, List.nil_append, List.length_append, length_putLE] at hb o
        omega

theorem ok_or_error {α : Type} (source : ZeroCopySource)
    (r : α × Except String ZeroCopySource)
    (h : ∀ a source', r = (a, .ok source') → Advanced source source') :
    (∃ msg, r.2 = .error msg) ∨ (∃ source', r.2 = .ok source' ∧ Advanced source source') := by
  obtain ⟨a, res⟩ := r
  cases res with
  | error e => exact Or.inl ⟨e, rfl⟩
  | ok s' => exact Or.inr ⟨s', rfl, h a s' rfl⟩

/-! ## Runs under a step budget -/

theorem Outcome_ret_bind {α β : Type} (a : α) (f : α → Outcome β) :
    (Outcome.ret a >>= f) = f a := rfl

theorem Outcome_pure_eq {α : Type} (a : α) : (pure a : Outcome α) = Outcome.ret a := rfl

theorem NextBytes_exec (self : ZeroCopySource) (n : Nat) :
    ZeroCopySource.NextBytes.exec self n = .ret (self.NextBytes n) := by
  unfold ZeroCopySource.NextBytes.exec ZeroCopySource.NextBytes sliceExpr
  by_cases h : self.off + n ≤ self.s.length
  · have h2 : self.off ≤ self.off + n ∧ self.off + n ≤ self.s.length := ⟨by omega, h⟩
    simp only [if_pos h, if_pos h2, Outcome_ret_bind, Outcome_pure_eq, Nat.add_sub_cancel_left]
  · simp only [if_neg h, Outcome_pure_eq]

theorem NextByte_exec (self : ZeroCopySource) :
    ZeroCopySource.NextByte.exec self = .ret self.NextByte := by
  unfold ZeroCopySource.NextByte.exec ZeroCopySource.NextByte
  rw [NextBytes_exec, Outcome_ret_bind]
  generalize self.NextBytes 1 = r
  rcases r with _ | ⟨_ | ⟨b, _ | ⟨c, l⟩⟩, source⟩ <;> rfl

theorem NextUint16_exec (self : ZeroCopySource) :
    ZeroCopySource.NextUint16.exec self = .ret self.NextUint16 := by
  unfold ZeroCopySource.NextUint16.exec ZeroCopySource.NextUint16
  rw [NextBytes_exec, Outcome_ret_bind]
  generalize self.NextBytes _ = r
  rcases r with _ | ⟨buf, source⟩ <;> rfl

theorem NextUint32_exec (self : ZeroCopySource) :
    ZeroCopySource.NextUint32.exec self = .ret self.NextUint32 := by
  unfold ZeroCopySource.NextUint32.exec ZeroCopySource.NextUint32
  rw [NextBytes_exec, Outcome_ret_bind]
  generalize self.NextBytes _ = r
  rcases r with _ | ⟨buf, source⟩ <;> rfl

theorem NextUint64_exec (self : ZeroCopySource) :
    ZeroCopySource.NextUint64.exec self = .ret self.NextUint64 := by
  unfold ZeroCopySource.NextUint64.exec ZeroCopySource.NextUint64
  rw [NextBytes_exec, Outcome_ret_bind]
  generalize self.NextBytes _ = r
  rcases r with _ | ⟨buf, source⟩ <;> rfl

theorem NextInt64_exec (self : ZeroCopySource) :
    ZeroCopySource.NextInt64.exec self = .ret self.NextInt64 := by
  unfold ZeroCopySource.NextInt64.exec ZeroCopySource.NextInt64
  rw [NextUint64_exec, Outcome_ret_bind]
  generalize self.NextUint64 = r
  rcases r with _ | ⟨data, source⟩ <;> rfl

theorem NextVarUint_exec (self : ZeroCopySource) :
    ZeroCopySource.NextVarUint.exec self = .ret self.NextVarUint := by
  unfold ZeroCopySource.NextVarUint.exec ZeroCopySource.NextVarUint
  rw [NextByte_exec, Outcome_ret_bind]
  generalize self.NextByte = r
  rcases r with _ | ⟨fb, source⟩
  · rfl
  · simp only [NextUint16_exec, NextUint32_exec, NextUint64_exec, Outcome_pure_eq]
    split_ifs <;> rfl

theorem NextVarBytes_exec (self : ZeroCopySource) :
    ZeroCopySource.NextVarBytes.exec self = .ret self.NextVarBytes := by
  unfold ZeroCopySource.NextVarBytes.exec ZeroCopySource.NextVarBytes
  rw [NextVarUint_exec, Outcome_ret_bind]
  generalize self.NextVarUint = r
  rcases r with _ | ⟨count, source⟩
  · rfl
  · exact NextBytes_exec _ _

theorem NextString_exec (self : ZeroCopySource) :
    ZeroCopySource.NextString.exec self = .ret self.NextString :=
  NextVarBytes_exec self

theorem BtcProof_Deserialization_exec (this : BtcProof) (source : ZeroCopySource) :
    BtcProof.Deserialization.exec this source = .ret (BtcProof.Deserialization this source) := by
  unfold BtcProof.Deserialization.exec BtcProof.Deserialization
  rw [NextVarBytes_exec, Outcome_ret_bind]
  cases source.NextVarBytes with
  | none => rfl
  | some p =>
    obtain ⟨tx, source⟩ := p
    simp only []
    rw [NextVarBytes_exec, Outcome_ret_bind]
    cases source.NextVarBytes with
    | none => rfl
    | some p =>
      obtain ⟨proof, source⟩ := p
      simp only []
      rw [NextUint32_exec, Outcome_ret_bind]
      cases source.NextUint32 with
      | none => rfl
      | some p =>
        obtain ⟨height, source⟩ := p
        simp only []
        rw [NextUint64_exec, Outcome_ret_bind]
        cases source.NextUint64 with
        | none => rfl
        | some p => rfl

theorem OutPoint_Deserialization_exec (this : OutPoint) (source : ZeroCopySource) :
    OutPoint.Deserialization.exec this source = .ret (OutPoint.Deserialization this source) := by
  unfold OutPoint.Deserialization.exec OutPoint.Deserialization
  rw [NextVarBytes_exec, Outcome_ret_bind]
  cases source.NextVarBytes with
  | none => rfl
  | some p =>
    obtain ⟨hash, source⟩ := p
    simp only []
    rw [NextUint32_exec, Outcome_ret_bind]
    cases source.NextUint32 with
    | none => rfl
    | some p => rfl

theorem Utxo_Deserialization_exec (this : Utxo) (source : ZeroCopySource) :
    Utxo.Deserialization.exec this source = .ret (Utxo.Deserialization this source) := by
  unfold Utxo.Deserialization.exec Utxo.Deserialization
  rw [OutPoint_Deserialization_exec, Outcome_ret_bind]
  cases OutPoint.Deserialization OutPoint.new source with
  | mk op res =>
    cases res with
    | error err => rfl
    | ok source =>
      simp only []
      rw [NextUint32_exec, Outcome_ret_bind]
      cases source.NextUint32 with
      | none => rfl
      | some p =>
        obtain ⟨atHeight, source⟩ := p
        simp only []
        rw [NextUint64_exec, Outcome_ret_bind]
        cases source.NextUint64 with
        | none => rfl
        | some p =>
          obtain ⟨value, source⟩ := p
          simp only []
          rw [NextVarBytes_exec, Outcome_ret_bind]
          cases source.NextVarBytes with
          | none => rfl
          | some p => rfl

theorem Args_Deserialization_exec (this : Args) (source : ZeroCopySource) :
    Args.Deserialization.exec this source = .ret (Args.Deserialization this source) := by
  unfold Args.Deserialization.exec Args.Deserialization
  rw [NextUint64_exec, Outcome_ret_bind]
  cases source.NextUint64 with
  | none => rfl
  | some p =>
    obtain ⟨toChainID, source⟩ := p
    simp only []
    rw [NextInt64_exec, Outcome_ret_bind]
    cases source.NextInt64 with
    | none => rfl
    | some p =>
      obtain ⟨fee, source⟩ := p
      simp only []
      rw [NextVarBytes_exec, Outcome_ret_bind]
      cases source.NextVarBytes with
      | none => rfl
      | some p =>
        obtain ⟨toContractAddress, source⟩ := p
        simp only []
        rw [NextVarBytes_exec, Outcome_ret_bind]
        cases source.NextVarBytes with
        | none => rfl
        | some p => rfl

theorem BtcFromInfo_Deserialization_exec (this : BtcFromInfo) (source : ZeroCopySource) :
    BtcFromInfo.Deserialization.exec this source
      = .ret (BtcFromInfo.Deserialization this source) := by
  unfold BtcFromInfo.Deserialization.exec BtcFromInfo.Deserialization
  rw [NextVarBytes_exec, Outcome_ret_bind]
  cases source.NextVarBytes with
  | none => rfl
  | some p =>
    obtain ⟨fromTxHash, source⟩ := p
    simp only []
    rw [NextUint64_exec, Outcome_ret_bind]
    cases source.NextUint64 with
    | none => rfl
    | some p => rfl

theorem getLE_lt (bs : List Byte) : getLE bs < 256 ^ bs.length := by
  induction bs with
  | nil => simp [getLE]
  | cons b bs ih =>
    have hb := b.isLt
    simp only [getLE, List.length_cons, pow_succ]
    nlinarith

theorem NextUint64_lt {source source' : ZeroCopySource} {n : Nat}
    (h : source.NextUint64 = some (n, source')) : n < 2 ^ 64 := by
  unfold ZeroCopySource.NextUint64 ZeroCopySource.NextBytes at h
  split_ifs at h with hlen
  · simp only [Option.some.injEq, Prod.mk.injEq] at h
    obtain ⟨rfl, _⟩ := h
    have hl : ((source.s.drop source.off).take 8).length ≤ 8 := by
      simp only [List.length_take]
      omega
    calc getLE ((source.s.drop source.off).take 8)
        < 256 ^ ((source.s.drop source.off).take 8).length := getLE_lt _
      _ ≤ 256 ^ 8 := Nat.pow_le_pow_right (by decide) hl
      _ = 2 ^ 64 := by norm_num

theorem Utxos_Deserialization_loop_succ (k : Nat) (acc : List Utxo)
    (source : ZeroCopySource) :
    Utxos.Deserialization.loop (k + 1) acc source =
      match Utxo.Deserialization Utxo.new source with
      | (_, .error err) => .error ("deserialize utxo error: " ++ err)
      | (utxo, .ok source) => Utxos.Deserialization.loop k (acc ++ [utxo]) source := rfl

theorem Utxos_Deserialization_execLoop_succ (fuel i n : Nat) (utxos : List Utxo)
    (source : ZeroCopySource) :
    Utxos.Deserialization.execLoop (fuel + 1) i n utxos source =
      if i < n then
        Utxo.Deserialization.exec Utxo.new source >>= fun r =>
          match r with
          | (_, .error err) => pure (.error ("deserialize utxo error: " ++ err))
          | (utxo, .ok source) =>
            Utxos.Deserialization.execLoop fuel ((i + 1) % 2 ^ 64) n (utxos ++ [utxo]) source
      else pure (.ok (utxos, source)) := rfl

theorem Utxos_Deserialization_execLoop_eq (fuel i n : Nat) (acc : List Utxo)
    (source : ZeroCopySource) (hi : i ≤ n) (hn : n < 2 ^ 64)
    (hs : source.off ≤ source.s.length) (hf : source.s.length - source.off < fuel) :
    Utxos.Deserialization.execLoop fuel i n acc source
      = .ret (Utxos.Deserialization.loop (n - i) acc source) := by
  induction fuel generalizing i acc source with
  | zero => omega
  | succ fuel ih =>
    rw [Utxos_Deserialization_execLoop_succ]
    by_cases h : i < n
    · obtain ⟨k, hk⟩ : ∃ k, n - i = k + 1 := ⟨n - i - 1, by omega⟩
      rw [if_pos h, hk, Utxos_Deserialization_loop_succ, Utxo_Deserialization_exec,
        Outcome_ret_bind]
      cases hd : Utxo.Deserialization Utxo.new source with
      | mk r res =>
        cases res with
        | error err => rfl
        | ok source1 =>
          obtain ⟨⟨h1, _, h3⟩, h4⟩ := Utxo_Deserialization_advanced hd
          have hm : (i + 1) % 2 ^ 64 = i + 1 := Nat.mod_eq_of_lt (by omega)
          have hk2 : k = n - (i + 1) := by omega
          simp only [hm, hk2]
          apply ih
          · omega
          · exact h3
          · rw [h1] at h3 ⊢; omega
    · have h0 : n - i = 0 := by omega
      rw [if_neg h, h0]
      rfl

theorem Utxos_Deserialization_exec_eq (fuel : Nat) (this : Btc.Utxos)
    (source : ZeroCopySource) (hf : budget source ≤ fuel) :
    Utxos.Deserialization.exec fuel this source
      = .ret (Utxos.Deserialization this source) := by
  unfold Utxos.Deserialization.exec Utxos.Deserialization
  rw [NextUint64_exec, Outcome_ret_bind]
  cases hn : source.NextUint64 with
  | none => rfl
  | some p =>
    obtain ⟨n, source0⟩ := p
    obtain ⟨⟨h1, _, h3⟩, h4⟩ := NextUint64_advanced hn
    have hl := Utxos_Deserialization_execLoop_eq fuel 0 n [] source0 (Nat.zero_le n)
      (NextUint64_lt hn) h3 (by unfold budget at hf; rw [h1] at h3 ⊢; omega)
    simp only [Nat.sub_zero] at hl
    simp only [hl, Outcome_ret_bind]
    cases Utxos.Deserialization.loop n [] source0 with
    | error err => rfl
    | ok q => rfl

theorem MultiSignInfo_Deserialization_execItems_succ (fuel j m : Nat)
    (multiSignItem : List (List Byte)) (source : ZeroCopySource) :
    MultiSignInfo.Deserialization.execItems (fuel + 1) j m multiSignItem source =
      if j < m then
        ZeroCopySource.NextVarBytes.exec source >>= fun r =>
          match r with
          | none => pure (.error "MultiSignInfo deserialize []byte error")
          | some (b, source) =>
            MultiSignInfo.Deserialization.execItems fuel ((j + 1) % 2 ^ 64) m
              (multiSignItem ++ [b]) source
      else pure (.ok (multiSignItem, source)) := rfl

theorem MultiSignInfo_Deserialization_items_succ (k : Nat) (acc : List (List Byte))
    (source : ZeroCopySource) :
    MultiSignInfo.Deserialization.items (k + 1) acc source =
      match source.NextVarBytes with
      | none => .error "MultiSignInfo deserialize []byte error"
      | some (b, source) => MultiSignInfo.Deserialization.items k (acc ++ [b]) source := rfl

theorem MultiSignInfo_Deserialization_execItems_eq (fuel j m : Nat) (acc : List (List Byte))
    (source : ZeroCopySource) (hj : j ≤ m) (hm : m < 2 ^ 64)
    (hs : source.off ≤ source.s.length) (hf : source.s.length - source.off < fuel) :
    MultiSignInfo.Deserialization.execItems fuel j m acc source
      = .ret (MultiSignInfo.Deserialization.items (m - j) acc source) := by
  induction fuel generalizing j acc source with
  | zero => omega
  | succ fuel ih =>
    rw [MultiSignInfo_Deserialization_execItems_succ]
    by_cases h : j < m
    · obtain ⟨k, hk⟩ : ∃ k, m - j = k + 1 := ⟨m - j - 1, by omega⟩
      rw [if_pos h, hk, MultiSignInfo_Deserialization_items_succ, NextVarBytes_exec,
        Outcome_ret_bind]
      cases hd : source.NextVarBytes with
      | none => rfl
      | some p =>
        obtain ⟨b, source1⟩ := p
        obtain ⟨⟨h1, _, h3⟩, h4⟩ := NextVarBytes_advanced hd
        have hw : (j + 1) % 2 ^ 64 = j + 1 := Nat.mod_eq_of_lt (by omega)
        have hk2 : k = m - (j + 1) := by omega
        simp only [hw, hk2]
        apply ih
        · omega
        · exact h3
        · rw [h1] at h3 ⊢; omega
    · have h0 : m - j = 0 := by omega
      rw [if_neg h, h0]
      rfl

theorem MultiSignInfo_Deserialization_execLoop_succ (fuel i n : Nat) (multiSignInfo : GoMap)
    (source : ZeroCopySource) :
    MultiSignInfo.Deserialization.execLoop (fuel + 1) i n multiSignInfo source =
      if i < n then
        ZeroCopySource.NextString.exec source >>= fun r =>
          match r with
          | none => pure (.error "MultiSignInfo deserialize public key error")
          | some (key, source) =>
            ZeroCopySource.NextUint64.exec source >>= fun r =>
              match r with
              | none => pure (.error "MultiSignInfo deserialize MultiSignItem length error")
              | some (m, source) =>
                MultiSignInfo.Deserialization.execItems (fuel + 1) 0 m [] source >>= fun r =>
                  match r with
                  | .error err => pure (.error err)
                  | .ok (multiSignItem, source) =>
                    MultiSignInfo.Deserialization.execLoop fuel ((i + 1) % 2 ^ 64) n
                      (multiSignInfo.set key multiSignItem) source
      else pure (.ok (multiSignInfo, source)) := rfl

theorem MultiSignInfo_Deserialization_loop_succ (k : Nat) (acc : GoMap)
    (source : ZeroCopySource) :
    MultiSignInfo.Deserialization.loop (k + 1) acc source =
      match source.NextString with
      | none => .error "MultiSignInfo deserialize public key error"
      | some (key, source) =>
        match source.NextUint64 with
        | none => .error "MultiSignInfo deserialize MultiSignItem length error"
        | some (m, source) =>
          match MultiSignInfo.Deserialization.items m [] source with
          | .error err => .error err
          | .ok (multiSignItem, source) =>
            MultiSignInfo.Deserialization.loop k (acc.set key multiSignItem) source := rfl

theorem MultiSignInfo_Deserialization_execLoop_eq (fuel i n : Nat) (acc : GoMap)
    (source : ZeroCopySource) (hi : i ≤ n) (hn : n < 2 ^ 64)
    (hs : source.off ≤ source.s.length) (hf : source.s.length - source.off < fuel) :
    MultiSignInfo.Deserialization.execLoop fuel i n acc source
      = .ret (MultiSignInfo.Deserialization.loop (n - i) acc source) := by
  induction fuel generalizing i acc source with
  | zero => omega
  | succ fuel ih =>
    rw [MultiSignInfo_Deserialization_execLoop_succ]
    by_cases h : i < n
    · obtain ⟨k, hk⟩ : ∃ k, n - i = k + 1 := ⟨n - i - 1, by omega⟩
      rw [if_pos h, hk, MultiSignInfo_Deserialization_loop_succ, NextString_exec,
        Outcome_ret_bind]
      cases hd : source.NextString with
      | none => rfl
      | some p =>
        obtain ⟨key, source1⟩ := p
        obtain ⟨⟨a1, _, a3⟩, a4⟩ := NextVarBytes_advanced hd
        simp only []
        rw [NextUint64_exec, Outcome_ret_bind]
        cases hm : source1.NextUint64 with
        | none => rfl
        | some q =>
          obtain ⟨m, source2⟩ := q
          obtain ⟨⟨b1, _, b3⟩, b4⟩ := NextUint64_advanced hm
          simp only []
          rw [MultiSignInfo_Deserialization_execItems_eq (fuel + 1) 0 m [] source2
            (Nat.zero_le m) (NextUint64_lt hm) b3 (by rw [b1, a1] at b3 ⊢; omega),
            Outcome_ret_bind, Nat.sub_zero]
          cases hit : MultiSignInfo.Deserialization.items m [] source2 with
          | error err => rfl
          | ok r =>
            obtain ⟨multiSignItem, source3⟩ := r
            obtain ⟨⟨c1, c2, c3⟩, _⟩ :=
              MultiSignInfo_Deserialization_items_advanced m [] multiSignItem source2 source3
                b3 hit
            have hw : (i + 1) % 2 ^ 64 = i + 1 := Nat.mod_eq_of_lt (by omega)
            have hk2 : k = n - (i + 1) := by omega
            simp only [hw, hk2]
            apply ih
            · omega
            · exact c3
            · rw [c1, b1, a1] at c3 ⊢
              rw [a1] at a3
              rw [b1, a1] at b3
              omega
    · have h0 : n - i = 0 := by omega
      rw [if_neg h, h0]
      rfl

theorem MultiSignInfo_Deserialization_exec_eq (fuel : Nat) (this : Btc.MultiSignInfo)
    (source : ZeroCopySource) (hf : budget source ≤ fuel) :
    MultiSignInfo.Deserialization.exec fuel this source
      = .ret (MultiSignInfo.Deserialization this source) := by
  unfold MultiSignInfo.Deserialization.exec MultiSignInfo.Deserialization
  rw [NextUint64_exec, Outcome_ret_bind]
  cases hn : source.NextUint64 with
  | none => rfl
  | some p =>
    obtain ⟨n, source0⟩ := p
    obtain ⟨⟨h1, _, h3⟩, h4⟩ := NextUint64_advanced hn
    have hl := MultiSignInfo_Deserialization_execLoop_eq fuel 0 n [] source0 (Nat.zero_le n)
      (NextUint64_lt hn) h3 (by unfold budget at hf; rw [h1] at h3 ⊢; omega)
    simp only [Nat.sub_zero] at hl
    simp only [hl, Outcome_ret_bind]
    cases MultiSignInfo.Deserialization.loop n [] source0 with
    | error err => rfl
    | ok q => rfl

theorem Utxos_Deserialization_exec_count_short (this : Btc.Utxos) (n : Nat)
    (rest : List Byte) (hn : n < 2 ^ 64) (hr : rest.length < n) :
    ∃ msg, Utxos.Deserialization.exec (rest.length + 9) this
      (NewZeroCopySource (putLE 8 n ++ rest)) = .ret (this, .error msg) := by
  obtain ⟨msg, hm⟩ := Utxos_Deserialization_count_short this n rest hn hr
  refine ⟨msg, ?_⟩
  rw [Utxos_Deserialization_exec_eq _ _ _
    (by simp only [budget, NewZeroCopySource, List.length_append, length_putLE]; omega)]
  exact congrArg Outcome.ret (Prod.ext (Utxos_Deserialization_error _ _ msg hm) hm)

theorem MultiSignInfo_Deserialization_exec_count_short (this : Btc.MultiSignInfo) (n : Nat)
    (rest : List Byte) (hn : n < 2 ^ 64) (hr : rest.length < n) :
    ∃ msg, MultiSignInfo.Deserialization.exec (rest.length + 9) this
      (NewZeroCopySource (putLE 8 n ++ rest)) = .ret (this, .error msg) := by
  obtain ⟨msg, hm⟩ := MultiSignInfo_Deserialization_count_short this n rest hn hr
  refine ⟨msg, ?_⟩
  rw [MultiSignInfo_Deserialization_exec_eq _ _ _
    (by simp only [budget, NewZeroCopySource, List.length_append, length_putLE]; omega)]
  exact congrArg Outcome.ret (Prod.ext (MultiSignInfo_Deserialization_error _ _ msg hm) hm)

/-- C14: run with Go's run-time faults and under a step budget of one loop
step for each byte still to be read and one more, each of the seven
`Deserialization` functions returns on every source whatsoever: it neither
faults nor uses up the budget, whatever the bytes are and whatever count up to
`2 ^ 64 - 1` they claim. What it returns is what `Deserialization` computes,
and that is either an explicit error or a decoded record with the cursor moved
forward inside the same buffer, never past its end. A `Utxos` or
`MultiSignInfo` stream whose count exceeds the number of bytes that follow is
refused with an error and the receiver left as it was. Neither the budget nor
the fault is idle in this: a stream of one element is decoded under a budget of
2 and uses up a budget of 1, and a slice taken past the end of a buffer
faults. -/
theorem C14_decoding_is_total_and_in_bounds :
    (∀ (this : BtcProof) (source : ZeroCopySource),
      BtcProof.Deserialization.exec this source
        = .ret (BtcProof.Deserialization this source) ∧
      ((∃ msg, (BtcProof.Deserialization this source).2 = .error msg) ∨
        (∃ source', (BtcProof.Deserialization this source).2 = .ok source' ∧
          Advanced source source'))) ∧
    (∀ (fuel : Nat) (this : Btc.Utxos) (source : ZeroCopySource), budget source ≤ fuel →
      Utxos.Deserialization.exec fuel this source
        = .ret (Utxos.Deserialization this source) ∧
      ((∃ msg, (Utxos.Deserialization this source).2 = .error msg) ∨
        (∃ source', (Utxos.Deserialization this source).2 = .ok source' ∧
          Advanced source source'))) ∧
    (∀ (this : Utxo) (source : ZeroCopySource),
      Utxo.Deserialization.exec this source = .ret (Utxo.Deserialization this source) ∧
      ((∃ msg, (Utxo.Deserialization this source).2 = .error msg) ∨
        (∃ source', (Utxo.Deserialization this source).2 = .ok source' ∧
          Advanced source source'))) ∧
    (∀ (this : OutPoint) (source : ZeroCopySource),
      OutPoint.Deserialization.exec this source
        = .ret (OutPoint.Deserialization this source) ∧
      ((∃ msg, (OutPoint.Deserialization this source).2 = .error msg) ∨
        (∃ source', (OutPoint.Deserialization this source).2 = .ok source' ∧
          Advanced source source'))) ∧
    (∀ (fuel : Nat) (this : Btc.MultiSignInfo) (source : ZeroCopySource),
      budget source ≤ fuel →
      MultiSignInfo.Deserialization.exec fuel this source
        = .ret (MultiSignInfo.Deserialization this source) ∧
      ((∃ msg, (MultiSignInfo.Deserialization this source).2 = .error msg) ∨
        (∃ source', (MultiSignInfo.Deserialization this source).2 = .ok source' ∧
          Advanced source source'))) ∧
    (∀ (this : Args) (source : ZeroCopySource),
      Args.Deserialization.exec this source = .ret (Args.Deserialization this source) ∧
      ((∃ msg, (Args.Deserialization this source).2 = .error msg) ∨
        (∃ source', (Args.Deserialization this source).2 = .ok source' ∧
          Advanced source source'))) ∧
    (∀ (this : BtcFromInfo) (source : ZeroCopySource),
      BtcFromInfo.Deserialization.exec this source
        = .ret (BtcFromInfo.Deserialization this source) ∧
      ((∃ msg, (BtcFromInfo.Deserialization this source).2 = .error msg) ∨
        (∃ source', (BtcFromInfo.Deserialization this source).2 = .ok source' ∧
          Advanced source source'))) ∧
    (∀ (this : Btc.Utxos) (n : Nat) (rest : List Byte), n < 2 ^ 64 → rest.length < n →
      ∃ msg, Utxos.Deserialization.exec (rest.length + 9) this
        (NewZeroCopySource (putLE 8 n ++ rest)) = .ret (this, .error msg)) ∧
    (∀ (this : Btc.MultiSignInfo) (n : Nat) (rest : List Byte), n < 2 ^ 64 →
      rest.length < n →
      ∃ msg, MultiSignInfo.Deserialization.exec (rest.length + 9) this
        (NewZeroCopySource (putLE 8 n ++ rest)) = .ret (this, .error msg)) ∧
    Utxos.Deserialization.execLoop 2 0 1 [] ⟨[1, 0, 0, 0, 0, 0, 0, 0] ++
        [2, 1, 2, 3, 0, 0, 0, 5, 0, 0, 0, 0xE8, 0x03, 0, 0, 0, 0, 0, 0, 1, 7], 8⟩
      = .ret (.ok ([⟨some ⟨[1, 2], 3⟩, 5, 1000, [7], 0⟩], ⟨[1, 0, 0, 0, 0, 0, 0, 0] ++
        [2, 1, 2, 3, 0, 0, 0, 5, 0, 0, 0, 0xE8, 0x03, 0, 0, 0, 0, 0, 0, 1, 7], 29⟩)) ∧
    Utxos.Deserialization.execLoop 1 0 1 [] ⟨[1, 0, 0, 0, 0, 0, 0, 0] ++
        [2, 1, 2, 3, 0, 0, 0, 5, 0, 0, 0, 0xE8, 0x03, 0, 0, 0, 0, 0, 0, 1, 7], 8⟩
      = .timeout ∧
    sliceExpr [1, 2, 3] 2 4 = .fault :=
  ⟨fun this source => ⟨BtcProof_Deserialization_exec this source,
      ok_or_error source _ (fun _ _ h => (BtcProof_Deserialization_advanced h).1)⟩,
    fun fuel this source hf => ⟨Utxos_Deserialization_exec_eq fuel this source hf,
      ok_or_error source _ (fun _ _ h => (Utxos_Deserialization_advanced h).1)⟩,
    fun this source => ⟨Utxo_Deserialization_exec this source,
      ok_or_error source _ (fun _ _ h => (Utxo_Deserialization_advanced h).1)⟩,
    fun this source => ⟨OutPoint_Deserialization_exec this source,
      ok_or_error source _ (fun _ _ h => (OutPoint_Deserialization_advanced h).1)⟩,
    fun fuel this source hf => ⟨MultiSignInfo_Deserialization_exec_eq fuel this source hf,
      ok_or_error source _ (fun _ _ h => (MultiSignInfo_Deserialization_advanced h).1)⟩,
    fun this source => ⟨Args_Deserialization_exec this source,
      ok_or_error source _ (fun _ _ h => (Args_Deserialization_advanced h).1)⟩,
    fun this source => ⟨BtcFromInfo_Deserialization_exec this source,
      ok_or_error source _ (fun _ _ h => (BtcFromInfo_Deserialization_advanced h).1)⟩,
    Utxos_Deserialization_exec_count_short, MultiSignInfo_Deserialization_exec_count_short,
    rfl, rfl, rfl⟩

theorem C14_decoding_is_total_and_in_bounds_witness :
    Utxos.Deserialization.exec 12 ⟨[]⟩
        (NewZeroCopySource ([0xFF, 0xFF, 0xFF, 0xFF, 0xFF, 0xFF, 0xFF, 0xFF] ++ [1, 2, 3]))
      = .ret (⟨[]⟩, .error
          "deserialize utxo error: Utxo deserialize OutPoint error:OutPoint deserialize height error") ∧
    (∃ msg, MultiSignInfo.Deserialization.exec 9 ⟨[]⟩
      (NewZeroCopySource (putLE 8 (2 ^ 64 - 1) ++ [])) = .ret (⟨[]⟩, .error msg)) ∧
    Utxos.Deserialization.exec 30 ⟨[]⟩ (NewZeroCopySource ([1, 0, 0, 0, 0, 0, 0, 0] ++
        [2, 1, 2, 3, 0, 0, 0, 5, 0, 0, 0, 0xE8, 0x03, 0, 0, 0, 0, 0, 0, 1, 7]))
      = .ret (⟨[⟨some ⟨[1, 2], 3⟩, 5, 1000, [7], 0⟩]⟩, .ok ⟨[1, 0, 0, 0, 0, 0, 0, 0] ++
        [2, 1, 2, 3, 0, 0, 0, 5, 0, 0, 0, 0xE8, 0x03, 0, 0, 0, 0, 0, 0, 1, 7], 29⟩) ∧
    Args.Deserialization.exec ⟨1, 2, [3], [4]⟩ (NewZeroCopySource [])
      = .ret (⟨1, 2, [3], [4]⟩, .error "Args deserialize toChainID error") :=
  ⟨(C14_decoding_is_total_and_in_bounds.2.1 12 ⟨[]⟩ _ (by decide)).1.trans rfl,
    C14_decoding_is_total_and_in_bounds.2.2.2.2.2.2.2.2.1 ⟨[]⟩ (2 ^ 64 - 1) []
      (by norm_num) (by simp),
    (C14_decoding_is_total_and_in_bounds.2.1 30 ⟨[]⟩ _ (by decide)).1.trans rfl,
    (C14_decoding_is_total_and_in_bounds.2.2.2.2.2.1 ⟨1, 2, [3], [4]⟩
      (NewZeroCopySource [])).1.trans rfl⟩

/-! ## Error messages -/

theorem Utxos_Deserialization_loop_reaches (i k : Nat) (acc us : List Utxo)
    (source source' : ZeroCopySource) (e : String)
    (hi : Utxos.Deserialization.loop i acc source = .ok (us, source'))
    (he : (Utxo.Deserialization Utxo.new source').2 = .error e) :
    Utxos.Deserialization.loop (i + (k + 1)) acc source
      = .error ("deserialize utxo error: " ++ e) := by
  induction i generalizing acc source with
  | zero =>
    simp only [Utxos.Deserialization.loop, Except.ok.injEq, Prod.mk.injEq] at hi
    obtain ⟨_, rfl⟩ := hi
    rw [Nat.zero_add, Utxos_Deserialization_loop_succ]
    cases hd : Utxo.Deserialization Utxo.new source with
    | mk r res =>
      rw [hd] at he
      simp only at he
      subst he
      rfl
  | succ i ih =>
    have hlen : i + 1 + (k + 1) = (i + (k + 1)) + 1 := by omega
    rw [hlen, Utxos_Deserialization_loop_succ]
    rw [Utxos_Deserialization_loop_succ] at hi
    cases hd : Utxo.Deserialization Utxo.new source with
    | mk r res =>
      rw [hd] at hi
      cases res with
      | error e' => simp at hi
      | ok s1 => exact ih _ _ hi

theorem Utxos_Deserialization_loop_error (k : Nat) (acc : List Utxo)
    (source : ZeroCopySource) (msg : String)
    (h : Utxos.Deserialization.loop k acc source = .error msg) :
    ∃ (i : Nat) (us : List Utxo) (source' : ZeroCopySource) (e : String), i < k ∧
      Utxos.Deserialization.loop i acc source = .ok (us, source') ∧
      (Utxo.Deserialization Utxo.new source').2 = .error e ∧
      msg = "deserialize utxo error: " ++ e := by
  induction k generalizing acc source with
  | zero => simp [Utxos.Deserialization.loop] at h
  | succ k ih =>
    rw [Utxos_Deserialization_loop_succ] at h
    cases hd : Utxo.Deserialization Utxo.new source with
    | mk r res =>
      rw [hd] at h
      cases res with
      | error e =>
        simp only [Except.error.injEq] at h
        exact ⟨0, acc, source, e, Nat.succ_pos k, rfl, by rw [hd], h.symm⟩
      | ok s1 =>
        obtain ⟨i, us, s', e, hi, hl, he, hm⟩ := ih _ _ h
        refine ⟨i + 1, us, s', e, Nat.succ_lt_succ hi, ?_, he, hm⟩
        rw [Utxos_Deserialization_loop_succ, hd]
        exact hl

theorem Utxos_Deserialization_fails_at (this : Btc.Utxos) (source source0 source' : ZeroCopySource)
    (n i : Nat) (us : List Utxo) (e : String)
    (hn : source.NextUint64 = some (n, source0)) (hi : i < n)
    (hl : Utxos.Deserialization.loop i [] source0 = .ok (us, source'))
    (he : (Utxo.Deserialization Utxo.new source').2 = .error e) :
    Utxos.Deserialization this source = (this, .error ("deserialize utxo error: " ++ e)) := by
  obtain ⟨k, hk⟩ : ∃ k, n = i + (k + 1) := ⟨n - i - 1, by omega⟩
  have h := Utxos_Deserialization_loop_reaches i k [] us source0 source' e hl he
  rw [← hk] at h
  simp only [Utxos.Deserialization, hn, h]

/-- C17: a child's decode error is carried unchanged inside the parent's.
Whenever `OutPoint.Deserialization` fails with `e` on the source of a `Utxo`,
`Utxo.Deserialization` fails with `"Utxo deserialize OutPoint error:"` followed
by `e`. Whenever the count `n` has been read, `i < n` elements have decoded,
whatever their bytes, and `Utxo.Deserialization` fails with `e` on the next
element, `Utxos.Deserialization` fails with `"deserialize utxo error: "`
followed by `e`; and every error of `Utxos.Deserialization` other than the
length error arises so. -/
theorem C17_child_error_is_wrapped :
    (∀ (this : Utxo) (source : ZeroCopySource) (e : String),
      (OutPoint.Deserialization OutPoint.new source).2 = .error e →
      Utxo.Deserialization this source
        = (this, .error ("Utxo deserialize OutPoint error:" ++ e))) ∧
    (∀ (this : Btc.Utxos) (source source0 source' : ZeroCopySource) (n i : Nat)
      (us : List Utxo) (e : String),
      source.NextUint64 = some (n, source0) → i < n →
      Utxos.Deserialization.loop i [] source0 = .ok (us, source') →
      (Utxo.Deserialization Utxo.new source').2 = .error e →
      Utxos.Deserialization this source
        = (this, .error ("deserialize utxo error: " ++ e))) ∧
    (∀ (this : Btc.Utxos) (source : ZeroCopySource) (msg : String),
      (Utxos.Deserialization this source).2 = .error msg →
      (source.NextUint64 = none ∧
        msg = "utils.DecodeVarUint, deserialize Utxos length error") ∨
      ∃ (n i : Nat) (source0 source' : ZeroCopySource) (us : List Utxo) (e : String),
        source.NextUint64 = some (n, source0) ∧ i < n ∧
        Utxos.Deserialization.loop i [] source0 = .ok (us, source') ∧
        (Utxo.Deserialization Utxo.new source').2 = .error e ∧
        msg = "deserialize utxo error: " ++ e) := by
  refine ⟨?_, ?_, ?_⟩
  · intro this source e he
    unfold Utxo.Deserialization
    cases hd : OutPoint.Deserialization OutPoint.new source with
    | mk r res =>
      rw [hd] at he
      simp only at he
      subst he
      rfl
  · intro this source source0 source' n i us e hn hi hl he
    exact Utxos_Deserialization_fails_at this source source0 source' n i us e hn hi hl he
  · intro this source msg h
    unfold Utxos.Deserialization at h
    cases hn : source.NextUint64 with
    | none =>
      simp only [hn, Except.error.injEq] at h
      exact Or.inl ⟨rfl, h.symm⟩
    | some p =>
      obtain ⟨n, source0⟩ := p
      simp only [hn] at h
      cases hl : Utxos.Deserialization.loop n [] source0 with
      | ok q => simp [hl] at h
      | error m =>
        simp only [hl, Except.error.injEq] at h
        subst h
        obtain ⟨i, us, s', e, hi, hli, he, hm⟩ :=
          Utxos_Deserialization_loop_error n [] source0 m hl
        exact Or.inr ⟨n, i, source0, s', us, e, rfl, hi, hli, he, hm⟩

theorem C17_child_error_is_wrapped_witness :
    Utxo.Deserialization Utxo.new (NewZeroCopySource [2, 1])
      = (Utxo.new, .error "Utxo deserialize OutPoint error:OutPoint deserialize hash error") ∧
    Utxos.Deserialization ⟨[]⟩ (NewZeroCopySource
        ([2, 0, 0, 0, 0, 0, 0, 0] ++
          [0xFD, 1, 0, 0xAB, 3, 0, 0, 0, 5, 0, 0, 0, 9, 0, 0, 0, 0, 0, 0, 0, 0] ++ [2, 1]))
      = (⟨[]⟩, .error
          "deserialize utxo error: Utxo deserialize OutPoint error:OutPoint deserialize hash error") :=
  ⟨C17_child_error_is_wrapped.1 Utxo.new (NewZeroCopySource [2, 1])
      "OutPoint deserialize hash error" rfl,
    C17_child_error_is_wrapped.2.1 ⟨[]⟩ _
      ⟨[2, 0, 0, 0, 0, 0, 0, 0] ++
          [0xFD, 1, 0, 0xAB, 3, 0, 0, 0, 5, 0, 0, 0, 9, 0, 0, 0, 0, 0, 0, 0, 0] ++ [2, 1], 8⟩
      ⟨[2, 0, 0, 0, 0, 0, 0, 0] ++
          [0xFD, 1, 0, 0xAB, 3, 0, 0, 0, 5, 0, 0, 0, 9, 0, 0, 0, 0, 0, 0, 0, 0] ++ [2, 1], 29⟩
      2 1 [⟨some ⟨[0xAB], 3⟩, 5, 9, [], 0⟩]
      "Utxo deserialize OutPoint error:OutPoint deserialize hash error"
      rfl (by decide) rfl rfl⟩

/-- C15 as stated fails: a count of 2 followed by a cut element fails at index
0, the same count followed by one whole element and the same cut element fails
at index 1, and both errors are the same message, which names no index. -/
theorem C15_same_error_at_two_indices :
    (Utxos.Deserialization ⟨[]⟩ (NewZeroCopySource (putLE 8 2 ++ [2, 1]))).2
      = .error
        "deserialize utxo error: Utxo deserialize OutPoint error:OutPoint deserialize hash error" ∧
    Utxo.Deserialization Utxo.new (reader (putLE 8 2)
        ([2, 1, 2, 3, 0, 0, 0, 5, 0, 0, 0, 0xE8, 0x03, 0, 0, 0, 0, 0, 0, 1, 7] ++ [2, 1]))
      = (⟨some ⟨[1, 2], 3⟩, 5, 1000, [7], 0⟩, .ok (reader (putLE 8 2 ++
          [2, 1, 2, 3, 0, 0, 0, 5, 0, 0, 0, 0xE8, 0x03, 0, 0, 0, 0, 0, 0, 1, 7]) [2, 1])) ∧
    (Utxos.Deserialization ⟨[]⟩ (NewZeroCopySource
      (putLE 8 2 ++ [2, 1, 2, 3, 0, 0, 0, 5, 0, 0, 0, 0xE8, 0x03, 0, 0, 0, 0, 0, 0, 1, 7]
        ++ [2, 1]))).2
      = .error
        "deserialize utxo error: Utxo deserialize OutPoint error:OutPoint deserialize hash error" :=
  ⟨rfl, rfl, rfl⟩

/-- C15 as amended: when `Utxos.Deserialization` fails in the element at
position `i`, the count `n` and the first `i` elements having decoded whatever
their bytes, the error is `"deserialize utxo error: "` followed by the error
`e` of that element and nothing else, so it does not identify `i`: a second
stream failing at any position `j` with the same element error returns the
same message. -/
theorem C15_Utxos_error_without_index (this that : Btc.Utxos)
    (source source0 source1 alt alt0 alt1 : ZeroCopySource) (n i m j : Nat)
    (us vs : List Utxo) (e : String)
    (hn : source.NextUint64 = some (n, source0)) (hi : i < n)
    (hl : Utxos.Deserialization.loop i [] source0 = .ok (us, source1))
    (he : (Utxo.Deserialization Utxo.new source1).2 = .error e)
    (hm : alt.NextUint64 = some (m, alt0)) (hj : j < m)
    (hk : Utxos.Deserialization.loop j [] alt0 = .ok (vs, alt1))
    (hf : (Utxo.Deserialization Utxo.new alt1).2 = .error e) :
    Utxos.Deserialization this source
      = (this, .error ("deserialize utxo error: " ++ e)) ∧
    (Utxos.Deserialization that alt).2 = (Utxos.Deserialization this source).2 := by
  rw [Utxos_Deserialization_fails_at this source source0 source1 n i us e hn hi hl he,
    Utxos_Deserialization_fails_at that alt alt0 alt1 m j vs e hm hj hk hf]
  exact ⟨rfl, rfl⟩

theorem C15_Utxos_error_without_index_witness :
    Utxos.Deserialization ⟨[]⟩ (NewZeroCopySource ([3, 0, 0, 0, 0, 0, 0, 0] ++ [2, 1]))
      = (⟨[]⟩, .error
          "deserialize utxo error: Utxo deserialize OutPoint error:OutPoint deserialize hash error") ∧
    (Utxos.Deserialization ⟨[⟨none, 1, 2, [], 3⟩]⟩ (NewZeroCopySource
        ([2, 0, 0, 0, 0, 0, 0, 0] ++
          [0xFD, 1, 0, 0xAB, 3, 0, 0, 0, 5, 0, 0, 0, 9, 0, 0, 0, 0, 0, 0, 0, 0] ++ [2, 1]))).2
      = (Utxos.Deserialization ⟨[]⟩
          (NewZeroCopySource ([3, 0, 0, 0, 0, 0, 0, 0] ++ [2, 1]))).2 :=
  C15_Utxos_error_without_index ⟨[]⟩ ⟨[⟨none, 1, 2, [], 3⟩]⟩
    (NewZeroCopySource ([3, 0, 0, 0, 0, 0, 0, 0] ++ [2, 1]))
    ⟨[3, 0, 0, 0, 0, 0, 0, 0] ++ [2, 1], 8⟩
    ⟨[3, 0, 0, 0, 0, 0, 0, 0] ++ [2, 1], 8⟩
    (NewZeroCopySource ([2, 0, 0, 0, 0, 0, 0, 0] ++
      [0xFD, 1, 0, 0xAB, 3, 0, 0, 0, 5, 0, 0, 0, 9, 0, 0, 0, 0, 0, 0, 0, 0] ++ [2, 1]))
    ⟨[2, 0, 0, 0, 0, 0, 0, 0] ++
      [0xFD, 1, 0, 0xAB, 3, 0, 0, 0, 5, 0, 0, 0, 9, 0, 0, 0, 0, 0, 0, 0, 0] ++ [2, 1], 8⟩
    ⟨[2, 0, 0, 0, 0, 0, 0, 0] ++
      [0xFD, 1, 0, 0xAB, 3, 0, 0, 0, 5, 0, 0, 0, 9, 0, 0, 0, 0, 0, 0, 0, 0] ++ [2, 1], 29⟩
    3 0 2 1 [] [⟨some ⟨[0xAB], 3⟩, 5, 9, [], 0⟩]
    "Utxo deserialize OutPoint error:OutPoint deserialize hash error"
    rfl (by decide) rfl rfl rfl (by decide) rfl rfl

/-- C16: the error messages do not always name the record and the field being
read. A `Utxo` cut at `AtHeight`, `Value` or `ScriptPubkey` reports `OutPoint`,
an `OutPoint` cut at `Index` reports `height`, and a `BtcFromInfo` cut at
`FromTxHash` or `FromChainID` reports `BtcProof`. -/
theorem C16_messages_name_other_records :
    (Utxo.Deserialization Utxo.new (NewZeroCopySource [0, 3, 0, 0, 0])).2
      = .error "OutPoint deserialize atHeight error" ∧
    (Utxo.Deserialization Utxo.new (NewZeroCopySource [0, 3, 0, 0, 0, 5, 0, 0, 0])).2
      = .error "OutPoint deserialize value error" ∧
    (Utxo.Deserialization Utxo.new (NewZeroCopySource
      [0, 3, 0, 0, 0, 5, 0, 0, 0, 1, 0, 0, 0, 0, 0, 0, 0])).2
      = .error "OutPoint deserialize scriptPubkey error" ∧
    (OutPoint.Deserialization OutPoint.new (NewZeroCopySource [0, 3, 0])).2
      = .error "OutPoint deserialize height error" ∧
    (BtcFromInfo.Deserialization ⟨[], 0⟩ (NewZeroCopySource [])).2
      = .error "BtcProof deserialize fromTxHash error" ∧
    (BtcFromInfo.Deserialization ⟨[], 0⟩ (NewZeroCopySource [0, 1, 2])).2
      = .error "BtcProof deserialize fromChainID error:" :=
  ⟨rfl, rfl, rfl, rfl, rfl, rfl⟩

/-! ## Duplicate keys in the input -/

theorem GoMap_find_set (m : GoMap) (k k' : List Byte) (v : List (List Byte)) :
    GoMap.find? (m.set k v) k' = if k = k' then some v else m.find? k' := by
  induction m with
  | nil => simp [GoMap.set, GoMap.find?]
  | cons e m ih =>
    obtain ⟨k0, v0⟩ := e
    by_cases h0 : k0 = k
    · subst h0
      by_cases h1 : k0 = k'
      · simp [GoMap.set, GoMap.find?, h1]
      · simp [GoMap.set, GoMap.find?, h1]
    · simp only [GoMap.set, if_neg h0, GoMap.find?, ih]
      by_cases h1 : k0 = k'
      · have : ¬ k = k' := fun e => h0 (h1.trans e.symm)
        simp [h1, this]
      · simp [h1]

theorem GoMap_mem_keys_iff (m : GoMap) (k : List Byte) :
    k ∈ m.keys ↔ m.find? k ≠ none := by
  rw [GoMap_find_eq]
  by_cases h : k ∈ m.keys <;> simp [h]

theorem GoMap_keys_set (m : GoMap) (k : List Byte) (v : List (List Byte)) :
    GoMap.keys (m.set k v) = if k ∈ m.keys then m.keys else m.keys ++ [k] := by
  induction m with
  | nil => simp [GoMap.set, GoMap.keys]
  | cons e m ih =>
    obtain ⟨k0, v0⟩ := e
    by_cases h0 : k0 = k
    · subst h0
      simp [GoMap.set, GoMap.keys]
    · have h1 : ¬ k = k0 := fun e => h0 e.symm
      simp only [GoMap.keys] at ih
      simp only [GoMap.set, if_neg h0, GoMap.keys, List.map_cons, ih, List.mem_cons, h1,
        false_or]
      split_ifs <;> simp

theorem GoMap_set_nodup (m : GoMap) (k : List Byte) (v : List (List Byte))
    (h : m.keys.Nodup) : (GoMap.keys (m.set k v)).Nodup := by
  rw [GoMap_keys_set]
  split_ifs with hk
  · exact h
  · exact List.Nodup.append h (List.nodup_singleton k) (by simpa using hk)

theorem GoMap_find_append (a b : GoMap) (k : List Byte) :
    GoMap.find? (a ++ b) k = match GoMap.find? a k with
      | some v => some v
      | none => GoMap.find? b k := by
  induction a with
  | nil => simp [GoMap.find?]
  | cons e a ih =>
    obtain ⟨k0, v0⟩ := e
    by_cases h : k0 = k
    · simp [GoMap.find?, h]
    · simp only [List.cons_append, GoMap.find?, if_neg h]
      exact ih

theorem GoMap_foldl_set_find (es acc : GoMap) (k : List Byte) :
    GoMap.find? (es.foldl (fun m e => m.set e.1 e.2) acc) k =
      match GoMap.find? es.reverse k with
      | some v => some v
      | none => GoMap.find? acc k := by
  induction es generalizing acc with
  | nil => simp [GoMap.find?]
  | cons e es ih =>
    rw [List.foldl_cons, ih, List.reverse_cons, GoMap_find_append, GoMap_find_set]
    cases GoMap.find? es.reverse k with
    | some v => rfl
    | none =>
      obtain ⟨k0, v0⟩ := e
      by_cases h : k0 = k <;> simp [GoMap.find?, h]

theorem GoMap_foldl_set_nodup (es acc : GoMap) (h : acc.keys.Nodup) :
    (GoMap.keys (es.foldl (fun m e => m.set e.1 e.2) acc)).Nodup := by
  induction es generalizing acc with
  | nil => exact h
  | cons e es ih =>
    rw [List.foldl_cons]
    exact ih _ (GoMap_set_nodup acc e.1 e.2 h)

/-- C18: a well-formed stream of (key, list) pairs in which keys may repeat is
accepted: decoding succeeds, the map has one entry per distinct key of the
stream, and every key is bound to the list of its last occurrence in stream
order. -/
theorem C18_duplicate_keys_last_wins (this : Btc.MultiSignInfo)
    (es : List (List Byte × List (List Byte))) (hv : ∀ e ∈ es, ValidEntry e)
    (hn : es.length < 2 ^ 64) :
    ∃ m' source,
      MultiSignInfo.Deserialization this
          (NewZeroCopySource (putLE 8 es.length ++ es.flatMap entryWire))
        = (m', .ok source) ∧
      m'.MultiSignInfo.keys.Nodup ∧
      (∀ k, k ∈ m'.MultiSignInfo.keys ↔ k ∈ es.map Prod.fst) ∧
      (∀ k, m'.MultiSignInfo.find? k = GoMap.find? es.reverse k) := by
  have hl := MultiSignInfo_Deserialization_loop_bytes es hv [] (putLE 8 es.length) []
  rw [List.append_nil] at hl
  have hfind := fun k => GoMap_foldl_set_find es [] k
  have hfind2 : ∀ k, GoMap.find? (es.foldl (fun m e => m.set e.1 e.2) []) k
      = GoMap.find? es.reverse k := by
    intro k
    rw [hfind k]
    cases GoMap.find? es.reverse k <;> simp [GoMap.find?]
  refine ⟨⟨es.foldl (fun m e => m.set e.1 e.2) []⟩,
    reader (putLE 8 es.length ++ es.flatMap entryWire) [], ?_,
    GoMap_foldl_set_nodup es [] (by simp [GoMap.keys]), ?_, hfind2⟩
  · simp only [NewZeroCopySource_eq, MultiSignInfo.Deserialization, NextUint64_reader,
      Nat.mod_eq_of_lt hn, List.nil_append, hl]
  · intro k
    rw [GoMap_mem_keys_iff, hfind2, ← GoMap_mem_keys_iff]
    simp [GoMap.keys]

theorem C18_duplicate_keys_last_wins_witness :
    ∃ m' source,
      MultiSignInfo.Deserialization ⟨[]⟩ (NewZeroCopySource
          (putLE 8 3 ++ List.flatMap
            [([0x61], [[1]]), ([0x62], [[2]]), ([0x61], [[3], [4]])] entryWire))
        = (m', .ok source) ∧
      m'.MultiSignInfo.find? [0x61] = some [[3], [4]] ∧
      m'.MultiSignInfo.keys.Nodup := by
  obtain ⟨m', source, h1, h2, _, h4⟩ := C18_duplicate_keys_last_wins ⟨[]⟩
    [([0x61], [[1]]), ([0x62], [[2]]), ([0x61], [[3], [4]])]
    (by simp [ValidEntry, ValidBytes]) (by simp)
  exact ⟨m', source, h1, by rw [h4]; decide, h2⟩

/-! ## Trailing bytes -/

/-- C19: decoding reads exactly the record's own encoding. For each of the
seven records, on a reader placed at the start of the bytes written by
`Serialization` and followed by any `rest`, `Deserialization` succeeds with the
same record as on those bytes alone and leaves the cursor at the first byte of
`rest`. -/
theorem C19_decoding_stops_at_rest :
    (∀ (this v : BtcProof) (pre rest : List Byte), v.Valid →
      BtcProof.Deserialization this (reader pre ((v.Serialization NewZeroCopySink).buf ++ rest))
        = ((BtcProof.Deserialization this
              (NewZeroCopySource (v.Serialization NewZeroCopySink).buf)).1,
            .ok (reader (pre ++ (v.Serialization NewZeroCopySink).buf) rest))) ∧
    (∀ (this v : Btc.Utxos) (sink : ZeroCopySink) (pre rest : List Byte), v.Valid →
      v.Serialization NewZeroCopySink = some sink →
      Utxos.Deserialization this (reader pre (sink.buf ++ rest))
        = ((Utxos.Deserialization this (NewZeroCopySource sink.buf)).1,
            .ok (reader (pre ++ sink.buf) rest))) ∧
    (∀ (this v : Utxo) (sink : ZeroCopySink) (pre rest : List Byte), v.Valid →
      v.Serialization NewZeroCopySink = some sink →
      Utxo.Deserialization this (reader pre (sink.buf ++ rest))
        = ((Utxo.Deserialization this (NewZeroCopySource sink.buf)).1,
            .ok (reader (pre ++ sink.buf) rest))) ∧
    (∀ (this v : OutPoint) (pre rest : List Byte), v.Valid →
      OutPoint.Deserialization this (reader pre ((v.Serialization NewZeroCopySink).buf ++ rest))
        = ((OutPoint.Deserialization this
              (NewZeroCopySource (v.Serialization NewZeroCopySink).buf)).1,
            .ok (reader (pre ++ (v.Serialization NewZeroCopySink).buf) rest))) ∧
    (∀ (this v : Btc.MultiSignInfo) (pre rest : List Byte), v.Valid →
      MultiSignInfo.Deserialization this
          (reader pre ((v.Serialization NewZeroCopySink).buf ++ rest))
        = ((MultiSignInfo.Deserialization this
              (NewZeroCopySource (v.Serialization NewZeroCopySink).buf)).1,
            .ok (reader (pre ++ (v.Serialization NewZeroCopySink).buf) rest))) ∧
    (∀ (this v : Args) (pre rest : List Byte), v.Valid →
      Args.Deserialization this (reader pre ((v.Serialization NewZeroCopySink).buf ++ rest))
        = ((Args.Deserialization this
              (NewZeroCopySource (v.Serialization NewZeroCopySink).buf)).1,
            .ok (reader (pre ++ (v.Serialization NewZeroCopySink).buf) rest))) ∧
    (∀ (this v : BtcFromInfo) (pre rest : List Byte), v.Valid →
      BtcFromInfo.Deserialization this
          (reader pre ((v.Serialization NewZeroCopySink).buf ++ rest))
        = ((BtcFromInfo.Deserialization this
              (NewZeroCopySource (v.Serialization NewZeroCopySink).buf)).1,
            .ok (reader (pre ++ (v.Serialization NewZeroCopySink).buf) rest))) := by
  refine ⟨?_, ?_, ?_, ?_, ?_, ?_, ?_⟩
  · intro this v pre rest hv
    have h0 := BtcProof_Deserialization_bytes this v hv [] []
    rw [List.append_nil] at h0
    unfold BtcProof.bytes at h0
    rw [NewZeroCopySource_eq, h0]
    exact BtcProof_Deserialization_bytes this v hv pre rest
  · intro this v sink pre rest hv hs
    have hb : v.bytes = some sink.buf := by simp [Utxos.bytes, hs]
    have hop : ∀ u ∈ v.Utxos, u.Op ≠ none := by
      intro u hu hnone
      have hl : ∀ (us : List Utxo) (s : ZeroCopySink), u ∈ us →
          Utxos.Serialization.loop us s = none := by
        intro us
        induction us with
        | nil => intro s h; cases h
        | cons a us ih =>
          intro s h
          rcases List.mem_cons.mp h with rfl | h
          · simp [Utxos.Serialization.loop, Utxo_Serialization_none u hnone]
          · simp only [Utxos.Serialization.loop]
            cases a.Serialization s with
            | none => rfl
            | some s' => exact ih s' h
      have hn := hl v.Utxos (NewZeroCopySink.WriteUint64 v.Utxos.length) hu
      simp only [Utxos.Serialization] at hs
      rw [hn] at hs
      cases hs
    have h0 := Utxos_Deserialization_bytes this v hv hop [] [] sink.buf hb
    rw [List.append_nil] at h0
    rw [NewZeroCopySource_eq]
    exact (Utxos_Deserialization_bytes this v hv hop pre rest sink.buf hb).trans (by rw [h0])
  · intro this v sink pre rest hv hs
    have hb : v.bytes = some sink.buf := by simp [Utxo.bytes, hs]
    cases hop : v.Op with
    | none => simp [Utxo_Serialization_none v hop] at hs
    | some op =>
      have h0 := Utxo_Deserialization_bytes this v op hop hv [] [] sink.buf hb
      rw [List.append_nil] at h0
      rw [NewZeroCopySource_eq]
      exact (Utxo_Deserialization_bytes this v op hop hv pre rest sink.buf hb).trans
        (by rw [h0])
  · intro this v pre rest hv
    have h0 := OutPoint_Deserialization_bytes this v hv [] []
    rw [List.append_nil] at h0
    unfold OutPoint.bytes at h0
    rw [NewZeroCopySource_eq, h0]
    exact OutPoint_Deserialization_bytes this v hv pre rest
  · intro this v pre rest hv
    have h0 := MultiSignInfo_Deserialization_bytes this v hv [] []
    rw [List.append_nil] at h0
    unfold MultiSignInfo.bytes at h0
    rw [NewZeroCopySource_eq, h0]
    exact MultiSignInfo_Deserialization_bytes this v hv pre rest
  · intro this v pre rest hv
    have h0 := Args_Deserialization_bytes this v hv [] []
    rw [List.append_nil] at h0
    unfold Args.bytes at h0
    rw [NewZeroCopySource_eq, h0]
    exact Args_Deserialization_bytes this v hv pre rest
  · intro this v pre rest hv
    have h0 := BtcFromInfo_Deserialization_bytes this v hv [] []
    rw [List.append_nil] at h0
    unfold BtcFromInfo.bytes at h0
    rw [NewZeroCopySource_eq, h0]
    exact BtcFromInfo_Deserialization_bytes this v hv pre rest

theorem C19_decoding_stops_at_rest_witness :
    Args.Deserialization ⟨0, 0, [], []⟩ (reader [0xAA]
        (((⟨7, -42, [1, 2, 3], [9]⟩ : Args).Serialization NewZeroCopySink).buf ++ [0xBB, 0xCC]))
      = ((Args.Deserialization ⟨0, 0, [], []⟩ (NewZeroCopySource
            ((⟨7, -42, [1, 2, 3], [9]⟩ : Args).Serialization NewZeroCopySink).buf)).1,
          .ok (reader ([0xAA] ++ ((⟨7, -42, [1, 2, 3], [9]⟩ : Args).Serialization
            NewZeroCopySink).buf) [0xBB, 0xCC])) ∧
    (reader ([0xAA] ++ ((⟨7, -42, [1, 2, 3], [9]⟩ : Args).Serialization
        NewZeroCopySink).buf) [0xBB, 0xCC]).off = 23 :=
  ⟨C19_decoding_stops_at_rest.2.2.2.2.2.1 ⟨0, 0, [], []⟩ ⟨7, -42, [1, 2, 3], [9]⟩ [0xAA]
      [0xBB, 0xCC] (by simp [Args.Valid, ValidBytes]), by decide⟩

/-! ## The comparator as an order -/

theorem toInt64_eq (x : Nat) (h : x < 2 ^ 64) :
    toInt64 x = if x < 2 ^ 63 then (x : Int) else (x : Int) - 2 ^ 64 := by
  unfold toInt64
  rw [Nat.mod_eq_of_lt h]

theorem Utxos_Less_eq (this : Btc.Utxos) (i j : Nat) (ui uj : Utxo)
    (hi : this.Utxos[i]? = some ui) (hj : this.Utxos[j]? = some uj) :
    this.Less i j = some (decide (toInt64 ui.Value * uint32ToInt64 ui.Confs
      < toInt64 uj.Value * uint32ToInt64 uj.Confs)) := by
  simp only [Utxos.Less, hi, hj]

/-- C20: `Utxos.Less` multiplies `int64(Value)` by the confirmations. At valid
indices of a collection of Go values `Less(i, j)` is true exactly when
`s(Value_i) * Confs_i < s(Value_j) * Confs_j` over the integers, `s` reading the
64 bits as two's complement; it is the comparison of `Value * Confs` when both
values are below `2 ^ 63`; and on every collection it is irreflexive and
transitive with transitive incomparability. -/
theorem C20_Less_signed_weight :
    (∀ (this : Btc.Utxos) (i j : Nat) (ui uj : Utxo),
      this.Utxos[i]? = some ui → this.Utxos[j]? = some uj → ui.Valid → uj.Valid →
      this.Less i j = some (decide (
        (if ui.Value < 2 ^ 63 then (ui.Value : Int) else (ui.Value : Int) - 2 ^ 64)
            * (ui.Confs : Int)
          < (if uj.Value < 2 ^ 63 then (uj.Value : Int) else (uj.Value : Int) - 2 ^ 64)
            * (uj.Confs : Int)))) ∧
    (∀ (this : Btc.Utxos) (i j : Nat) (ui uj : Utxo),
      this.Utxos[i]? = some ui → this.Utxos[j]? = some uj → ui.Valid → uj.Valid →
      ui.Value < 2 ^ 63 → uj.Value < 2 ^ 63 →
      this.Less i j = some (decide (ui.Value * ui.Confs < uj.Value * uj.Confs))) ∧
    (∀ (this : Btc.Utxos) (i j k : Nat), i < this.Len → j < this.Len → k < this.Len →
      this.Less i i = some false ∧
      (this.Less i j = some true → this.Less j k = some true → this.Less i k = some true) ∧
      (this.Less i j = some false → this.Less j i = some false →
        this.Less j k = some false → this.Less k j = some false →
        this.Less i k = some false ∧ this.Less k i = some false)) := by
  refine ⟨?_, ?_, ?_⟩
  · intro this i j ui uj hi hj hvi hvj
    rw [Utxos_Less_eq this i j ui uj hi hj, toInt64_eq _ hvi.2.2.1, toInt64_eq _ hvj.2.2.1,
      uint32ToInt64_of_lt _ hvi.2.2.2.2, uint32ToInt64_of_lt _ hvj.2.2.2.2]
  · intro this i j ui uj hi hj hvi hvj hli hlj
    exact Utxos_Less_below this i j ui uj hi hj hli hlj hvi.2.2.2.2 hvj.2.2.2.2
  · intro this i j k hi hj hk
    simp only [Utxos.Len] at hi hj hk
    have gi : this.Utxos[i]? = some this.Utxos[i] := List.getElem?_eq_getElem hi
    have gj : this.Utxos[j]? = some this.Utxos[j] := List.getElem?_eq_getElem hj
    have gk : this.Utxos[k]? = some this.Utxos[k] := List.getElem?_eq_getElem hk
    rw [Utxos_Less_eq this i i _ _ gi gi, Utxos_Less_eq this i j _ _ gi gj,
      Utxos_Less_eq this j k _ _ gj gk, Utxos_Less_eq this i k _ _ gi gk,
      Utxos_Less_eq this j i _ _ gj gi, Utxos_Less_eq this k j _ _ gk gj,
      Utxos_Less_eq this k i _ _ gk gi]
    simp only [Option.some.injEq, decide_eq_true_eq, decide_eq_false_iff_not, lt_self_iff_false,
      not_false_eq_true, true_and, not_lt]
    refine ⟨fun h1 h2 => lt_trans h1 h2, fun h1 h2 h3 h4 => ⟨?_, ?_⟩⟩
    · exact le_trans h3 h1
    · exact le_trans h2 h4

theorem C20_Less_signed_weight_witness :
    Utxos.Less ⟨[⟨some ⟨[], 0⟩, 0, 2 ^ 63, [], 1⟩, ⟨some ⟨[], 0⟩, 0, 1, [], 1⟩]⟩ 0 1
      = some (decide (
        (if 2 ^ 63 < 2 ^ 63 then ((2 ^ 63 : Nat) : Int) else ((2 ^ 63 : Nat) : Int) - 2 ^ 64)
            * ((1 : Nat) : Int)
          < (if 1 < 2 ^ 63 then ((1 : Nat) : Int) else ((1 : Nat) : Int) - 2 ^ 64)
            * ((1 : Nat) : Int))) ∧
    Utxos.Less ⟨[⟨some ⟨[], 0⟩, 0, 10, [], 3⟩, ⟨some ⟨[], 0⟩, 0, 7, [], 5⟩]⟩ 0 1
      = some (decide (10 * 3 < 7 * 5)) :=
  ⟨C20_Less_signed_weight.1 _ 0 1 ⟨some ⟨[], 0⟩, 0, 2 ^ 63, [], 1⟩ ⟨some ⟨[], 0⟩, 0, 1, [], 1⟩
      rfl rfl (by simp [Utxo.Valid, OutPoint.Valid, ValidBytes])
      (by simp [Utxo.Valid, OutPoint.Valid, ValidBytes]),
    C20_Less_signed_weight.2.1 _ 0 1 ⟨some ⟨[], 0⟩, 0, 10, [], 3⟩ ⟨some ⟨[], 0⟩, 0, 7, [], 5⟩
      rfl rfl (by simp [Utxo.Valid, OutPoint.Valid, ValidBytes])
      (by simp [Utxo.Valid, OutPoint.Valid, ValidBytes]) (by norm_num) (by norm_num)⟩

end Btc
